import Mathlib

/-!
# Cursor codec of gorm-cursor-paginator

A shallow embedding of `cursor_encoder.go` and `cursor_decoder.go`, and the
claims of the specification that were settled on it.

The two files lean on the Go standard library (`encoding/base64`,
`encoding/json`, `reflect`, `strings`, `strconv`, `unicode/utf8`, `time`).
The parts of the library the codec exercises are embedded as executable
definitions that follow the library's own algorithms:

* `base64.StdEncoding` (padded, not strict, line breaks ignored on decode);
* the scanner state machine of `encoding/json`, which decides `json.Valid` and
  delimits the values read by `json.Decoder`;
* the token state of `json.Decoder` (`Token`, `Decode`);
* `json.Marshal` and the type-directed `Unmarshal` for the field types of the
  embedding: `int` (64 bits), `string`, `bool`, a channel type (which JSON
  cannot encode) and pointers to these, to any depth;
* `reflect` field lookup on flat structs, with exported and unexported fields.

Three things stay outside the embedding and are inputs of the functions that
need them: `time.Parse(time.RFC3339Nano, ·)` and the range check of
`strconv.ParseFloat` (in `Env`), and the readings of `time.Now().UTC()`
(`Clock`).

A Go string or `[]byte` is the list of its bytes, each a natural number below
256.  A pointer is given by what it points to, so two values are equal when
`reflect.DeepEqual` holds of them; the address of a pointer is not part of the
embedding.  A call that can panic returns an `Outcome`.
-/

namespace Paginator

/-! ## Bytes -/

/-- A Go `string` or `[]byte`: the list of its bytes. -/
abbrev Bytes := List Nat

/-- The bytes of an ASCII string literal. -/
def bytesOf (s : String) : Bytes := s.toList.map Char.toNat

/-- Every element is a byte. -/
def IsBytes (b : Bytes) : Prop := ∀ x ∈ b, x < 256

/-! ## encoding/base64: `StdEncoding` -/

/-- The table `decodeMap` of `base64.StdEncoding`: the 6-bit value of an alphabet
byte, `none` for a byte outside `A-Z a-z 0-9 + /` (0xff in the Go table). -/
def b64Index (c : Nat) : Option Nat :=
  if 65 ≤ c ∧ c ≤ 90 then some (c - 65)
  else if 97 ≤ c ∧ c ≤ 122 then some (c - 71)
  else if 48 ≤ c ∧ c ≤ 57 then some (c + 4)
  else if c = 43 then some 62
  else if c = 47 then some 63
  else none

/-- The table `encodeStd`: the alphabet byte of a 6-bit value. -/
def b64Char (v : Nat) : Nat :=
  if v < 26 then v + 65
  else if v < 52 then v + 71
  else if v < 62 then v - 4
  else if v = 62 then 43
  else 47

/-- `base64.StdEncoding.EncodeToString`: three bytes become four alphabet bytes,
a tail of one or two bytes is padded with `=` (61). -/
def b64Encode : Bytes → Bytes
  | a :: b :: c :: rest =>
      let val := a * 65536 + b * 256 + c
      b64Char (val / 262144 % 64) :: b64Char (val / 4096 % 64) ::
        b64Char (val / 64 % 64) :: b64Char (val % 64) :: b64Encode rest
  | [a, b] =>
      let val := a * 65536 + b * 256
      [b64Char (val / 262144 % 64), b64Char (val / 4096 % 64), b64Char (val / 64 % 64), 61]
  | [a] =>
      let val := a * 65536
      [b64Char (val / 262144 % 64), b64Char (val / 4096 % 64), 61, 61]
  | [] => []

/-- The loop `for si < len(src) && (src[si] == '\n' || src[si] == '\r')` of
`decodeQuantum`. -/
def skipNewlines : Bytes → Bytes
  | c :: rest => if c = 10 ∨ c = 13 then skipNewlines rest else c :: rest
  | [] => []

/-- `Encoding.Decode` for `StdEncoding`, as the repetition of `decodeQuantum`.
`q` holds the 6-bit values of the quantum being read (`dbuf[0..j)`).  `none` is
a `CorruptInputError`.  Line feeds and carriage returns are skipped, padding is
required, and the unused low bits before padding are not checked (the encoding
is not strict). -/
def b64DecodeAux : Bytes → List Nat → Option Bytes
  | [], [] => some []
  | [], _ :: _ => none
  | c :: rest, q =>
    match b64Index c with
    | some v =>
      match q with
      | [x, y, z] =>
        let val := x * 262144 + y * 4096 + z * 64 + v
        (b64DecodeAux rest []).map
          (fun out => val / 65536 % 256 :: val / 256 % 256 :: val % 256 :: out)
      | _ => b64DecodeAux rest (q ++ [v])
    | none =>
      if c = 10 ∨ c = 13 then b64DecodeAux rest q
      else if c ≠ 61 then none
      else match q with
        | [x, y] =>
          match skipNewlines rest with
          | 61 :: rest2 =>
            if skipNewlines rest2 = [] then
              some [(x * 262144 + y * 4096) / 65536 % 256]
            else none
          | _ => none
        | [x, y, z] =>
          let val := x * 262144 + y * 4096 + z * 64
          if skipNewlines rest = [] then some [val / 65536 % 256, val / 256 % 256]
          else none
        | _ => none

/-- `base64.StdEncoding.DecodeString`; `none` when it returns an error. -/
def b64Decode (s : Bytes) : Option Bytes := b64DecodeAux s []

/-! ## encoding/json: the scanner (`scanner.go`) -/

/-- The step functions of the scanner (`stateBeginValue`, `stateInString`, ...). -/
inductive ScanStep
  | beginValueOrEmpty | beginValue | beginStringOrEmpty | beginString
  | endValue | endTop
  | inString | inStringEsc | inStringEscU | inStringEscU1 | inStringEscU12
  | inStringEscU123
  | neg | s1 | s0 | dot | dot0 | e | eSign | e0
  | t | tr | tru | f | fa | fal | fals | n | nu | nul
  | error
  deriving DecidableEq, Repr

/-- The op codes a step returns (`scanContinue` ... `scanError`). -/
inductive ScanOp
  | scanContinue | scanBeginLiteral | scanBeginObject | scanObjectKey
  | scanObjectValue | scanEndObject | scanBeginArray | scanArrayValue
  | scanEndArray | scanSkipSpace | scanEnd | scanError
  deriving DecidableEq, Repr

/-- The entries of the scanner's `parseState` stack. -/
inductive ParseState
  | parseObjectKey | parseObjectValue | parseArrayValue
  deriving DecidableEq, Repr

/-- The `scanner` struct.  `parseState` is the stack with its top first;
`err` records that `scanner.err` is set. -/
structure Scanner where
  step : ScanStep
  endTop : Bool
  parseState : List ParseState
  err : Bool
  deriving DecidableEq, Repr

/-- The constant `maxNestingDepth`. -/
def maxNestingDepth : Nat := 10000

/-- The scanner after `reset`. -/
def Scanner.reset : Scanner :=
  { step := .beginValue, endTop := false, parseState := [], err := false }

/-- The function `isSpace`. -/
def isSpace (c : Nat) : Bool := c = 32 || c = 9 || c = 13 || c = 10

/-- The method `scanner.error`: the scanner is dead from now on. -/
def Scanner.fail (s : Scanner) : Scanner × ScanOp :=
  ({ s with step := .error, err := true }, .scanError)

/-- The method `pushParseState`, called after the step has been set to `next`. -/
def Scanner.push (s : Scanner) (p : ParseState) (next : ScanStep) (ok : ScanOp) :
    Scanner × ScanOp :=
  let s1 := { s with step := next, parseState := p :: s.parseState }
  if s1.parseState.length ≤ maxNestingDepth then (s1, ok) else s1.fail

/-- The method `popParseState`. -/
def Scanner.pop (s : Scanner) : Scanner :=
  match s.parseState with
  | [] => s
  | _ :: rest =>
    if rest = [] then { s with parseState := [], step := .endTop, endTop := true }
    else { s with parseState := rest, step := .endValue }

/-- The step `stateEndTop`: a non-space byte after the top-level value records an
error, yet the op code is `scanEnd`. -/
def stateEndTop (s : Scanner) (c : Nat) : Scanner × ScanOp :=
  if isSpace c then (s, .scanEnd) else (s.fail.1, .scanEnd)

/-- The step `stateEndValue`. -/
def stateEndValue (s : Scanner) (c : Nat) : Scanner × ScanOp :=
  match s.parseState with
  | [] => stateEndTop { s with step := .endTop, endTop := true } c
  | ps :: rest =>
    if isSpace c then ({ s with step := .endValue }, .scanSkipSpace)
    else
      match ps with
      | .parseObjectKey =>
        if c = 58 then
          ({ s with parseState := .parseObjectValue :: rest, step := .beginValue },
            .scanObjectKey)
        else s.fail
      | .parseObjectValue =>
        if c = 44 then
          ({ s with parseState := .parseObjectKey :: rest, step := .beginString },
            .scanObjectValue)
        else if c = 125 then (s.pop, .scanEndObject)
        else s.fail
      | .parseArrayValue =>
        if c = 44 then ({ s with step := .beginValue }, .scanArrayValue)
        else if c = 93 then (s.pop, .scanEndArray)
        else s.fail

/-- The step `stateBeginValue`. -/
def stateBeginValue (s : Scanner) (c : Nat) : Scanner × ScanOp :=
  if isSpace c then (s, .scanSkipSpace)
  else if c = 123 then s.push .parseObjectKey .beginStringOrEmpty .scanBeginObject
  else if c = 91 then s.push .parseArrayValue .beginValueOrEmpty .scanBeginArray
  else if c = 34 then ({ s with step := .inString }, .scanBeginLiteral)
  else if c = 45 then ({ s with step := .neg }, .scanBeginLiteral)
  else if c = 48 then ({ s with step := .s0 }, .scanBeginLiteral)
  else if c = 116 then ({ s with step := .t }, .scanBeginLiteral)
  else if c = 102 then ({ s with step := .f }, .scanBeginLiteral)
  else if c = 110 then ({ s with step := .n }, .scanBeginLiteral)
  else if 49 ≤ c ∧ c ≤ 57 then ({ s with step := .s1 }, .scanBeginLiteral)
  else s.fail

/-- The step `stateBeginString`. -/
def stateBeginString (s : Scanner) (c : Nat) : Scanner × ScanOp :=
  if isSpace c then (s, .scanSkipSpace)
  else if c = 34 then ({ s with step := .inString }, .scanBeginLiteral)
  else s.fail

/-- A byte that is a hexadecimal digit. -/
def isHex (c : Nat) : Bool :=
  (48 ≤ c && c ≤ 57) || (97 ≤ c && c ≤ 102) || (65 ≤ c && c ≤ 70)

/-- A byte that is a decimal digit. -/
def isDigit (c : Nat) : Bool := 48 ≤ c && c ≤ 57

/-- The step `state0` (after a leading `0`, or after the integer digits). -/
def state0 (s : Scanner) (c : Nat) : Scanner × ScanOp :=
  if c = 46 then ({ s with step := .dot }, .scanContinue)
  else if c = 101 ∨ c = 69 then ({ s with step := .e }, .scanContinue)
  else stateEndValue s c

/-- The step `stateESign`. -/
def stateESign (s : Scanner) (c : Nat) : Scanner × ScanOp :=
  if isDigit c then ({ s with step := .e0 }, .scanContinue) else s.fail

/-- Expect the byte `want` and move to `next`: the steps of `true`, `false`,
`null`. -/
def expectByte (s : Scanner) (c want : Nat) (next : ScanStep) : Scanner × ScanOp :=
  if c = want then ({ s with step := next }, .scanContinue) else s.fail

/-- One step of the scanner: `s.step(s, c)`. -/
def Scanner.next (s : Scanner) (c : Nat) : Scanner × ScanOp :=
  match s.step with
  | .beginValueOrEmpty =>
    if isSpace c then (s, .scanSkipSpace)
    else if c = 93 then stateEndValue s c
    else stateBeginValue s c
  | .beginValue => stateBeginValue s c
  | .beginStringOrEmpty =>
    if isSpace c then (s, .scanSkipSpace)
    else if c = 125 then
      match s.parseState with
      | [] => stateEndValue s c
      | _ :: rest => stateEndValue { s with parseState := .parseObjectValue :: rest } c
    else stateBeginString s c
  | .beginString => stateBeginString s c
  | .endValue => stateEndValue s c
  | .endTop => stateEndTop s c
  | .inString =>
    if c = 34 then ({ s with step := .endValue }, .scanContinue)
    else if c = 92 then ({ s with step := .inStringEsc }, .scanContinue)
    else if c < 32 then s.fail
    else (s, .scanContinue)
  | .inStringEsc =>
    if c = 98 ∨ c = 102 ∨ c = 110 ∨ c = 114 ∨ c = 116 ∨ c = 92 ∨ c = 47 ∨ c = 34 then
      ({ s with step := .inString }, .scanContinue)
    else if c = 117 then ({ s with step := .inStringEscU }, .scanContinue)
    else s.fail
  | .inStringEscU =>
    if isHex c then ({ s with step := .inStringEscU1 }, .scanContinue) else s.fail
  | .inStringEscU1 =>
    if isHex c then ({ s with step := .inStringEscU12 }, .scanContinue) else s.fail
  | .inStringEscU12 =>
    if isHex c then ({ s with step := .inStringEscU123 }, .scanContinue) else s.fail
  | .inStringEscU123 =>
    if isHex c then ({ s with step := .inString }, .scanContinue) else s.fail
  | .neg =>
    if c = 48 then ({ s with step := .s0 }, .scanContinue)
    else if 49 ≤ c ∧ c ≤ 57 then ({ s with step := .s1 }, .scanContinue)
    else s.fail
  | .s1 => if isDigit c then ({ s with step := .s1 }, .scanContinue) else state0 s c
  | .s0 => state0 s c
  | .dot => if isDigit c then ({ s with step := .dot0 }, .scanContinue) else s.fail
  | .dot0 =>
    if isDigit c then (s, .scanContinue)
    else if c = 101 ∨ c = 69 then ({ s with step := .e }, .scanContinue)
    else stateEndValue s c
  | .e =>
    if c = 43 ∨ c = 45 then ({ s with step := .eSign }, .scanContinue)
    else stateESign s c
  | .eSign => stateESign s c
  | .e0 => if isDigit c then (s, .scanContinue) else stateEndValue s c
  | .t => expectByte s c 114 .tr
  | .tr => expectByte s c 117 .tru
  | .tru => expectByte s c 101 .endValue
  | .f => expectByte s c 97 .fa
  | .fa => expectByte s c 108 .fal
  | .fal => expectByte s c 115 .fals
  | .fals => expectByte s c 101 .endValue
  | .n => expectByte s c 117 .nu
  | .nu => expectByte s c 108 .nul
  | .nul => expectByte s c 108 .endValue
  | .error => (s, .scanError)

/-- The method `scanner.eof`: `true` when it returns `scanEnd`. -/
def Scanner.eof (s : Scanner) : Bool :=
  if s.err then false
  else if s.endTop then true
  else (s.next 32).1.endTop

/-- The loop of `checkValid`. -/
def checkValidFrom : Bytes → Scanner → Bool
  | [], s => s.eof
  | c :: rest, s =>
    match s.next c with
    | (_, .scanError) => false
    | (s2, _) => checkValidFrom rest s2

/-- The function `json.Valid`. -/
def jsonValid (data : Bytes) : Bool := checkValidFrom data Scanner.reset

/-! ## Outcomes and errors -/

/-- A Go `error` value.  `errorString` is an error made by `errors.New` or
`fmt.Errorf`, with its message; the errors of `encoding/json` and `io` are told
apart by kind only. -/
inductive GoError
  | errorString (msg : Bytes)
  | syntaxError
  | unmarshalTypeError
  | unsupportedTypeError
  | eof
  | unexpectedEOF
  deriving DecidableEq, Repr

/-- How a Go call ends: it returns, or it panics. -/
inductive Outcome (α : Type)
  | ret (a : α)
  | panics
  deriving DecidableEq, Repr

/-- How a call into `encoding/json` ends: normally, with an error, or in a
panic. -/
inductive Res (α : Type)
  | ok (a : α)
  | err (e : GoError)
  | panics
  deriving DecidableEq, Repr

/-- The variable `ErrInvalidDecodeReference`. -/
def ErrInvalidDecodeReference : GoError :=
  .errorString (bytesOf "decode reference should be struct")

/-- The variable `ErrInvalidOldField`. -/
def ErrInvalidOldField : GoError := .errorString (bytesOf "invalid old field")

/-- The message of `ErrFieldNotFound`. -/
def fieldNotFoundText : Bytes := bytesOf "cannot find the field in the struct"

/-- The variable `ErrFieldNotFound`. -/
def ErrFieldNotFound : GoError := .errorString fieldNotFoundText

/-- The error `fmt.Errorf("%v: %s", ErrFieldNotFound, key)`. -/
def fieldNotFound (key : Bytes) : GoError :=
  .errorString (fieldNotFoundText ++ bytesOf ": " ++ key)

/-! ## Types and values -/

/-- The types a struct field has in this embedding: `int` (64 bits), `string`,
`bool`, a channel type, and pointers to these. -/
inductive FType
  | int | string | bool | chan
  | ptr (elem : FType)
  deriving DecidableEq, Repr

/-- The values of the field types.  `nilPtr t` is the nil pointer of type `*t`;
`chan c` is a channel (0 the nil channel). -/
inductive GoValue
  | int (n : Int)
  | str (s : Bytes)
  | bool (b : Bool)
  | chan (c : Nat)
  | nilPtr (elem : FType)
  | ptr (v : GoValue)
  deriving DecidableEq, Repr

/-- The dynamic type of a value. -/
def GoValue.type : GoValue → FType
  | .int _ => .int
  | .str _ => .string
  | .bool _ => .bool
  | .chan _ => .chan
  | .nilPtr t => .ptr t
  | .ptr v => .ptr v.type

/-- The zero value of a type. -/
def FType.zero : FType → GoValue
  | .int => .int 0
  | .string => .str []
  | .bool => .bool false
  | .chan => .chan 0
  | .ptr t => .nilPtr t

/-- A `time.Time`: seconds and nanoseconds since the Unix epoch, and the zone
offset in seconds east of UTC. -/
structure GoTime where
  sec : Int
  nsec : Nat
  offset : Int
  deriving DecidableEq, Repr

/-- A value of type `interface{}`: the untyped nil, a value of a field type, or
a `time.Time` (which only the legacy format produces). -/
inductive Iface
  | nil
  | val (v : GoValue)
  | time (t : GoTime)
  deriving DecidableEq, Repr

/-- What the embedding takes from the standard library as given:
`time.Parse(time.RFC3339Nano, ·)` (`none` when it returns an error) and whether
`strconv.ParseFloat(·, 64)` rejects a JSON number as out of range. -/
structure Env where
  timeParse : Bytes → Option GoTime
  floatOutOfRange : Bytes → Bool

/-- The readings of `time.Now().UTC()`: `clock i` is what the call returns while
the `i`-th legacy segment is being reverted. -/
abbrev Clock := Nat → GoTime

/-! ## reflect -/

/-- A field of a struct type (`reflect.StructField`): its name, whether it is
exported (`PkgPath == ""`), and its type. -/
structure StructField where
  name : Bytes
  exported : Bool
  type : FType
  deriving DecidableEq, Repr

/-- A struct type: its fields in declaration order (no embedded fields). -/
abbrev StructType := List StructField

/-- The kinds of `reflect.Kind` other than `Ptr`, `Slice` and `Struct`. -/
inductive Kind
  | invalid | bool | int | uint | float64 | complex128 | string
  | array | chan | func | interface | map | unsafePointer
  deriving DecidableEq, Repr

/-- A `reflect.Type` as `NewCursorDecoder` sees it: a struct type, a pointer or
slice type, or a type of another kind. -/
inductive RType
  | struct (fields : StructType)
  | ptr (elem : RType)
  | slice (elem : RType)
  | other (k : Kind)
  deriving DecidableEq, Repr

/-- The method `FieldByName` of a struct `reflect.Type`: the first field of
that name, whether it is exported or not; a blank field `_` is found like any
other. -/
def StructType.FieldByName (t : StructType) (name : Bytes) : Option StructField :=
  t.find? (fun f => f.name = name)

/-- A field of a struct value: the field and the value it holds. -/
structure FieldValue where
  name : Bytes
  exported : Bool
  value : GoValue
  deriving DecidableEq, Repr

/-- A `reflect.Value` as `Encode` sees it: a struct value, a pointer (nil or
not), or anything else (the zero `Value` of a nil interface included). -/
inductive RValue
  | struct (fields : List FieldValue)
  | ptr (v : RValue)
  | nilPtr
  | other
  deriving DecidableEq, Repr

/-- The struct type of a struct value. -/
def structTypeOf (fields : List FieldValue) : StructType :=
  fields.map (fun f => { name := f.name, exported := f.exported, type := f.value.type })

/-- Modelled from the spec: `toReflectValue` is called by both source files but
defined in neither.  The spec has the codec built "from a schema reference (a
sample instance or type of the record)" and `Encode` take "a record instance
(or reference to one)", so the helper is the reflected value of its argument;
values are already reflected in this embedding. -/
def toReflectValue {α : Type} (v : α) : α := v

/-! ## unicode/utf8 and unicode/utf16 -/

/-- The rune `utf8.RuneError`, U+FFFD. -/
def runeError : Nat := 65533

/-- The function `utf8.DecodeRune`: the first rune of `p` and its width in
bytes; `(RuneError, 1)` for an invalid encoding, `(RuneError, 0)` for no
bytes. -/
def decodeRune : Bytes → Nat × Nat
  | [] => (runeError, 0)
  | p0 :: rest =>
    if p0 < 128 then (p0, 1)
    else if p0 < 194 ∨ 245 ≤ p0 then (runeError, 1)
    else
      let sz := if p0 < 224 then 2 else if p0 < 240 then 3 else 4
      let lo := if p0 = 224 then 160 else if p0 = 240 then 144 else 128
      let hi := if p0 = 237 then 159 else if p0 = 244 then 143 else 191
      if rest.length + 1 < sz then (runeError, 1)
      else
        match rest with
        | [] => (runeError, 1)
        | b1 :: r1 =>
          if b1 < lo ∨ hi < b1 then (runeError, 1)
          else if sz ≤ 2 then (p0 % 32 * 64 + b1 % 64, 2)
          else
            match r1 with
            | [] => (runeError, 1)
            | b2 :: r2 =>
              if b2 < 128 ∨ 191 < b2 then (runeError, 1)
              else if sz ≤ 3 then (p0 % 16 * 4096 + b1 % 64 * 64 + b2 % 64, 3)
              else
                match r2 with
                | [] => (runeError, 1)
                | b3 :: _ =>
                  if b3 < 128 ∨ 191 < b3 then (runeError, 1)
                  else (p0 % 8 * 262144 + b1 % 64 * 4096 + b2 % 64 * 64 + b3 % 64, 4)

/-- The function `utf8.EncodeRune`: a surrogate or a rune above U+10FFFF is
written as U+FFFD. -/
def encodeRune (r : Nat) : Bytes :=
  if r ≤ 127 then [r]
  else if r ≤ 2047 then [192 + r / 64, 128 + r % 64]
  else if 1114111 < r ∨ (55296 ≤ r ∧ r ≤ 57343) then [239, 191, 189]
  else if r ≤ 65535 then [224 + r / 4096, 128 + r / 64 % 64, 128 + r % 64]
  else [240 + r / 262144, 128 + r / 4096 % 64, 128 + r / 64 % 64, 128 + r % 64]

/-- The function `utf16.IsSurrogate`. -/
def isSurrogate (r : Nat) : Bool := 55296 ≤ r && r < 57344

/-- The function `utf16.DecodeRune` on a first half and what `getu4` found
after it (`none` when it found no escape). -/
def utf16DecodeRune (r1 : Nat) (r2 : Option Nat) : Nat :=
  match r2 with
  | some r2 =>
    if 55296 ≤ r1 ∧ r1 < 56320 ∧ 56320 ≤ r2 ∧ r2 < 57344 then
      (r1 - 55296) * 1024 + (r2 - 56320) + 65536
    else runeError
  | none => runeError

/-! ## strconv -/

/-- The digits of `strconv.FormatUint(n, 10)`, prepended to `acc`; `fuel` bounds
the number of digits. -/
def formatUintAux : Nat → Nat → Bytes → Bytes
  | 0, _, acc => acc
  | fuel + 1, n, acc =>
    if n / 10 = 0 then (48 + n % 10) :: acc
    else formatUintAux fuel (n / 10) ((48 + n % 10) :: acc)

/-- The function `strconv.FormatUint(n, 10)`. -/
def formatUint (n : Nat) : Bytes := formatUintAux (n + 1) n []

/-- The function `strconv.AppendInt(nil, n, 10)`. -/
def formatInt (n : Int) : Bytes :=
  if n < 0 then 45 :: formatUint n.natAbs else formatUint n.natAbs

/-- The digit loop of `strconv.ParseUint(s, 10, 64)`, without its bound. -/
def parseDigits : Bytes → Nat → Option Nat
  | [], acc => some acc
  | c :: rest, acc => if isDigit c then parseDigits rest (acc * 10 + (c - 48)) else none

/-- The function `strconv.ParseInt(s, 10, 64)`; `none` when it returns an error
(syntax or range). -/
def parseInt (s : Bytes) : Option Int :=
  match s with
  | [] => none
  | c :: rest =>
    let neg := decide (c = 45)
    let digits := if c = 43 ∨ c = 45 then rest else s
    match digits with
    | [] => none
    | _ :: _ =>
      match parseDigits digits 0 with
      | none => none
      | some un =>
        if neg then (if un ≤ 9223372036854775808 then some (-(un : Int)) else none)
        else (if un < 9223372036854775808 then some (un : Int) else none)

/-! ## encoding/json: Marshal -/

/-- The digit `"0123456789abcdef"[v]`. -/
def hexDigit (v : Nat) : Nat := if v < 10 then 48 + v else 87 + v

/-- What `appendString` (with `escapeHTML`, as `json.Marshal` sets it) writes for
a byte below 0x80: the byte itself when it is in `htmlSafeSet`, a two-byte
escape for the quote, the backslash and `\b \f \n \r \t`, a `\u00XX` escape
otherwise (the other control bytes, and `<`, `>`, `&`).  Releases of Go before
1.22 write `\u0008` and `\u000c` for `\b` and `\f`; both forms decode to the same
byte. -/
def escapeByte (b : Nat) : Bytes :=
  if 32 ≤ b ∧ b ≠ 34 ∧ b ≠ 92 ∧ b ≠ 60 ∧ b ≠ 62 ∧ b ≠ 38 then [b]
  else if b = 92 ∨ b = 34 then [92, b]
  else if b = 8 then [92, 98]
  else if b = 12 then [92, 102]
  else if b = 10 then [92, 110]
  else if b = 13 then [92, 114]
  else if b = 9 then [92, 116]
  else [92, 117, 48, 48, hexDigit (b / 16), hexDigit (b % 16)]

/-- The loop of `appendString`.  `skip` counts the bytes still to pass of the
rune at hand, copied as they are when `copy` holds: an invalid byte becomes the
replacement rune U+FFFD, written as its three bytes of UTF-8, U+2028 and U+2029
are escaped, every other rune is copied.  The encoder of encoding/json before
json/v2 writes the six bytes of the escape of U+FFFD for an invalid byte; both
forms decode to the same rune. -/
def appendStringAux : Bytes → Nat → Bool → Bytes
  | [], _, _ => []
  | c :: rest, k + 1, copy =>
    if copy then c :: appendStringAux rest k copy else appendStringAux rest k copy
  | c :: rest, 0, _ =>
    if c < 128 then escapeByte c ++ appendStringAux rest 0 true
    else
      let rs := decodeRune (c :: rest)
      if rs.1 = runeError ∧ rs.2 = 1 then
        [239, 191, 189] ++ appendStringAux rest 0 true
      else if rs.1 = 8232 ∨ rs.1 = 8233 then
        [92, 117, 50, 48, 50, hexDigit (rs.1 % 16)] ++ appendStringAux rest (rs.2 - 1) false
      else c :: appendStringAux rest (rs.2 - 1) true

/-- The function `appendString`: the JSON string literal of a Go string. -/
def appendString (s : Bytes) : Bytes := 34 :: (appendStringAux s 0 true ++ [34])

/-- The encoder `json.Marshal` picks for a value of a field type: decimal digits
for an `int`, a string literal, `true` or `false`, `null` for a nil pointer, the
encoding of the pointee for another pointer; a channel has no encoding
(`UnsupportedTypeError`). -/
def marshalValue : GoValue → Except GoError Bytes
  | .int n => .ok (formatInt n)
  | .str s => .ok (appendString s)
  | .bool b => .ok (if b then [116, 114, 117, 101] else [102, 97, 108, 115, 101])
  | .chan _ => .error .unsupportedTypeError
  | .nilPtr _ => .ok [110, 117, 108, 108]
  | .ptr v => marshalValue v

/-- The elements of the array `json.Marshal` writes for a `[]interface{}`, each
preceded by a comma except the first (the loop of `arrayEncoder.encode`). -/
def marshalElems : List GoValue → Bool → Except GoError Bytes
  | [], _ => .ok []
  | v :: vs, first =>
    match marshalValue v with
    | .error e => .error e
    | .ok b =>
      match marshalElems vs false with
      | .error e => .error e
      | .ok bs => .ok ((if first then b else 44 :: b) ++ bs)

/-- The function `json.Marshal` on a non-nil `[]interface{}` holding values of
field types. -/
def jsonMarshal (fields : List GoValue) : Except GoError Bytes :=
  match marshalElems fields true with
  | .error e => .error e
  | .ok bs => .ok (91 :: (bs ++ [93]))

/-! ## encoding/json: Unmarshal -/

/-- The value of a hexadecimal digit. -/
def hexVal (c : Nat) : Option Nat :=
  if 48 ≤ c ∧ c ≤ 57 then some (c - 48)
  else if 97 ≤ c ∧ c ≤ 102 then some (c - 87)
  else if 65 ≤ c ∧ c ≤ 70 then some (c - 55)
  else none

/-- The function `getu4`: the rune of a leading `\uXXXX`, `none` for -1. -/
def getu4 (s : Bytes) : Option Nat :=
  match s with
  | b0 :: b1 :: h1 :: h2 :: h3 :: h4 :: _ =>
    if b0 = 92 ∧ b1 = 117 then
      match hexVal h1, hexVal h2, hexVal h3, hexVal h4 with
      | some a, some b, some c, some d => some (((a * 16 + b) * 16 + c) * 16 + d)
      | _, _, _, _ => none
    else none
  | _ => none

/-- The first loop of `unquoteBytes`: the string has no escape, quote or control
byte and is valid UTF-8, so it is returned as it is. -/
def isPlainAux : Bytes → Nat → Bool
  | [], _ => true
  | _ :: rest, k + 1 => isPlainAux rest k
  | c :: rest, 0 =>
    if c = 92 ∨ c = 34 ∨ c < 32 then false
    else if c < 128 then isPlainAux rest 0
    else
      let rs := decodeRune (c :: rest)
      if rs.1 = runeError ∧ rs.2 = 1 then false else isPlainAux rest (rs.2 - 1)

/-- The second loop of `unquoteBytes`: escapes are replaced, invalid UTF-8 is
coerced to U+FFFD; `none` when the loop returns `ok = false`.  `skip` counts
the bytes still to pass of the escape or rune at hand. -/
def unquoteAux : Bytes → Nat → Option Bytes
  | [], _ => some []
  | _ :: rest, k + 1 => unquoteAux rest k
  | c :: rest, 0 =>
    if c = 92 then
      match rest with
      | [] => none
      | e :: _ =>
        if e = 34 ∨ e = 92 ∨ e = 47 ∨ e = 39 then (unquoteAux rest 1).map (e :: ·)
        else if e = 98 then (unquoteAux rest 1).map (8 :: ·)
        else if e = 102 then (unquoteAux rest 1).map (12 :: ·)
        else if e = 110 then (unquoteAux rest 1).map (10 :: ·)
        else if e = 114 then (unquoteAux rest 1).map (13 :: ·)
        else if e = 116 then (unquoteAux rest 1).map (9 :: ·)
        else if e = 117 then
          match getu4 (c :: rest) with
          | none => none
          | some rr =>
            if isSurrogate rr then
              let dec := utf16DecodeRune rr (getu4 (rest.drop 5))
              if dec ≠ runeError then (unquoteAux rest 11).map (encodeRune dec ++ ·)
              else (unquoteAux rest 5).map (encodeRune runeError ++ ·)
            else (unquoteAux rest 5).map (encodeRune rr ++ ·)
        else none
    else if c = 34 ∨ c < 32 then none
    else if c < 128 then (unquoteAux rest 0).map (c :: ·)
    else
      let rs := decodeRune (c :: rest)
      (unquoteAux rest (rs.2 - 1)).map (encodeRune rs.1 ++ ·)

/-- The function `unquoteBytes` on a literal with its quotes. -/
def unquoteBytes (item : Bytes) : Option Bytes :=
  if item.length < 2 ∨ item.head? ≠ some 34 ∨ item.getLast? ≠ some 34 then none
  else
    let s := (item.drop 1).dropLast
    if isPlainAux s 0 then some s else unquoteAux s 0

/-- The string case of `rescanLiteral`: the bytes after the opening quote up to
and with the closing quote, a backslash passing the byte after it. -/
def stringLiteralRest : Bytes → Bool → Bytes
  | [], _ => []
  | c :: rest, true => c :: stringLiteralRest rest false
  | c :: rest, false =>
    if c = 92 then c :: stringLiteralRest rest true
    else if c = 34 then [c]
    else c :: stringLiteralRest rest false

/-- A byte of a number as `rescanLiteral` reads one: a digit or one of `.eE+-`. -/
def isNumberByte (c : Nat) : Bool :=
  isDigit c || c = 46 || c = 101 || c = 69 || c = 43 || c = 45

/-- The method `rescanLiteral`: the literal that begins at the head of `data`. -/
def literalItem (data : Bytes) : Bytes :=
  match data with
  | [] => []
  | c :: rest =>
    if c = 34 then c :: stringLiteralRest rest false
    else if isDigit c ∨ c = 45 then c :: rest.takeWhile isNumberByte
    else if c = 116 then data.take 4
    else if c = 102 then data.take 5
    else if c = 110 then data.take 4
    else [c]

/-- The loop `scanWhile(scanSkipSpace)`: drop the leading space. -/
def skipSpace : Bytes → Bytes
  | c :: rest => if isSpace c then skipSpace rest else c :: rest
  | [] => []

/-- A byte on which `stateBeginValue` answers `scanBeginLiteral`. -/
def beginsLiteral (c : Nat) : Bool :=
  c = 34 || c = 45 || isDigit c || c = 116 || c = 102 || c = 110

/-- The method `literalStore` for a literal other than `null`, and the methods
`array` and `object`, on a target of type `t` that `indirect` has reached by
allocating every pointer on the way.  `data` begins at the first byte of the
value.  A literal of the wrong kind, an array and an object are an
`UnmarshalTypeError`; a string that does not unquote and a literal that begins
like none are the decoder's "out of sync" panic. -/
def decodeValue : FType → Bytes → Res GoValue
  | .ptr t, data =>
    match decodeValue t data with
    | .ok v => .ok (.ptr v)
    | .err e => .err e
    | .panics => .panics
  | t, data =>
    match data with
    | [] => .panics
    | c :: _ =>
      if c = 91 ∨ c = 123 then .err .unmarshalTypeError
      else if c = 116 ∨ c = 102 then
        (if t = .bool then .ok (.bool (decide (c = 116))) else .err .unmarshalTypeError)
      else if c = 34 then
        match unquoteBytes (literalItem data) with
        | none => .panics
        | some s => if t = .string then .ok (.str s) else .err .unmarshalTypeError
      else if c = 45 ∨ isDigit c then
        (if t = .int then
          match parseInt (literalItem data) with
          | some n => .ok (.int n)
          | none => .err .unmarshalTypeError
        else .err .unmarshalTypeError)
      else .panics

/-- The method `decodeState.unmarshal` as `Decode` of the cursor decoder calls it:
the target is `&v` where `v` is an `interface{}` holding a fresh `*objType`.
The result is what `v` holds afterwards: `some x` when it still holds the
pointer, now to `x`; `none` when `v` is the nil interface.  On `null`,
`indirect` stops at the first settable pointer or interface: that is `v` itself
unless `objType` is a pointer type, and `literalStore` sets it to its zero
value. -/
def unmarshalHolder (objType : FType) (data : Bytes) : Res (Option GoValue) :=
  match skipSpace data with
  | [] => .panics
  | c :: rest =>
    if c = 110 then
      match objType with
      | .ptr t => .ok (some (.nilPtr t))
      | _ => .ok none
    else if c = 91 ∨ c = 123 ∨ beginsLiteral c then
      match decodeValue objType (c :: rest) with
      | .ok v => .ok (some v)
      | .err e => .err e
      | .panics => .panics
    else .panics

/-- The method `decodeState.unmarshal` into `&x` with `x` a nil `interface{}`
or a `string`, as `Token` calls it on a value that begins a literal: only the
error matters.  A number that `strconv.ParseFloat` finds out of range is an
`UnmarshalTypeError` when `x` is an interface. -/
def unmarshalToken (env : Env) (intoString : Bool) (data : Bytes) : Res Unit :=
  match skipSpace data with
  | [] => .panics
  | c :: rest =>
    if c = 110 then .ok ()
    else if c = 116 ∨ c = 102 then (if intoString then .err .unmarshalTypeError else .ok ())
    else if c = 34 then
      match unquoteBytes (literalItem (c :: rest)) with
      | none => .panics
      | some _ => .ok ()
    else if c = 45 ∨ isDigit c then
      (if intoString ∨ env.floatOutOfRange (literalItem (c :: rest)) then
        .err .unmarshalTypeError
      else .ok ())
    else if c = 91 ∨ c = 123 then
      (if intoString then .err .unmarshalTypeError else .ok ())
    else .panics

/-! ## encoding/json: the stream decoder (`stream.go`) -/

/-- The token states of `json.Decoder`. -/
inductive TokenState
  | tokenTopValue | tokenArrayStart | tokenArrayValue | tokenArrayComma
  | tokenObjectStart | tokenObjectKey | tokenObjectColon | tokenObjectValue
  | tokenObjectComma
  deriving DecidableEq, Repr

/-- A `json.Decoder` reading from a byte buffer: `buf` is the input not yet
consumed, `err` the error that stops all further decoding. -/
structure Decoder where
  buf : Bytes
  tokenState : TokenState
  tokenStack : List TokenState
  err : Option GoError
  deriving DecidableEq, Repr

/-- The decoder `json.NewDecoder(bytes.NewBuffer(b))`. -/
def NewDecoder (b : Bytes) : Decoder :=
  { buf := b, tokenState := .tokenTopValue, tokenStack := [], err := none }

/-- The method `tokenValueAllowed`. -/
def tokenValueAllowed (s : TokenState) : Bool :=
  s = .tokenTopValue || s = .tokenArrayStart || s = .tokenArrayValue ||
    s = .tokenObjectValue

/-- The method `tokenValueEnd`. -/
def tokenValueEnd (s : TokenState) : TokenState :=
  match s with
  | .tokenArrayStart => .tokenArrayComma
  | .tokenArrayValue => .tokenArrayComma
  | .tokenObjectValue => .tokenObjectComma
  | s => s

/-- The loop of `readValue`: scan one value with a fresh scanner and split the
input after it.  At the end of the input the value is complete when a space
would end it; otherwise the error is `io.EOF` when nothing but space was left
(`blank`), `io.ErrUnexpectedEOF` when not. -/
def readValueAux (blank : Bool) : Bytes → Scanner → Except GoError (Bytes × Bytes)
  | [], s =>
    if (s.next 32).2 = .scanEnd then .ok ([], [])
    else .error (if blank then .eof else .unexpectedEOF)
  | c :: rest, s =>
    let r := s.next c
    if r.2 = .scanEnd then .ok ([], c :: rest)
    else if (r.2 = .scanEndObject ∨ r.2 = .scanEndArray) ∧
        (stateEndValue r.1 32).2 = .scanEnd then .ok ([c], rest)
    else if r.2 = .scanError then .error .syntaxError
    else
      match readValueAux blank rest r.1 with
      | .ok (v, tail) => .ok (c :: v, tail)
      | .error e => .error e

/-- The method `readValue`: the next value and the input after it. -/
def readValue (buf : Bytes) : Except GoError (Bytes × Bytes) :=
  readValueAux (skipSpace buf = []) buf Scanner.reset

/-- The method `tokenPrepareForDecode`: after an array element a comma is due,
after an object key a colon. -/
def tokenPrepareForDecode (dec : Decoder) : Except GoError Decoder :=
  match dec.tokenState with
  | .tokenArrayComma =>
    match skipSpace dec.buf with
    | [] => .error .eof
    | c :: rest =>
      if c = 44 then .ok { dec with buf := rest, tokenState := .tokenArrayValue }
      else .error .syntaxError
  | .tokenObjectColon =>
    match skipSpace dec.buf with
    | [] => .error .eof
    | c :: rest =>
      if c = 58 then .ok { dec with buf := rest, tokenState := .tokenObjectValue }
      else .error .syntaxError
  | _ => .ok dec

/-- The method `Decoder.Decode`, with the unmarshalling of the value read left
to `unmarshal`: the decoder afterwards and how the call ends.  This is `Decode`
of `stream.go`, which allows a value at the top level, in an array and after the
colon of an object member; right after `Token` has read the brace that opens an
object it returns a syntax error.  The decoder of encoding/json with json/v2
reads, in that place, the names and values of the members one after the
other. -/
def Decoder.Decode {α : Type} (dec : Decoder) (unmarshal : Bytes → Res α) :
    Decoder × Res α :=
  match dec.err with
  | some e => (dec, .err e)
  | none =>
    match tokenPrepareForDecode dec with
    | .error e => (dec, .err e)
    | .ok dec1 =>
      if tokenValueAllowed dec1.tokenState then
        match readValue dec1.buf with
        | .error e => ({ dec1 with err := some e }, .err e)
        | .ok (data, rest) =>
          ({ dec1 with buf := rest, tokenState := tokenValueEnd dec1.tokenState },
            unmarshal data)
      else (dec1, .err .syntaxError)

/-- The method `Decoder.Token`, its token dropped: the decoder afterwards and
how the call ends.  The first argument is the input left to `peek`. -/
def tokenAux (env : Env) : Bytes → Decoder → Decoder × Res Unit
  | [], dec => ({ dec with buf := [] }, .err .eof)
  | c :: rest, dec =>
    let st := dec.tokenState
    if isSpace c then tokenAux env rest dec
    else if c = 91 then
      if tokenValueAllowed st then
        ({ dec with buf := rest, tokenStack := st :: dec.tokenStack,
                    tokenState := .tokenArrayStart }, .ok ())
      else ({ dec with buf := c :: rest }, .err .syntaxError)
    else if c = 93 then
      if st = .tokenArrayStart ∨ st = .tokenArrayComma then
        ({ dec with buf := rest, tokenState := tokenValueEnd (dec.tokenStack.headD st),
                    tokenStack := dec.tokenStack.tail }, .ok ())
      else ({ dec with buf := c :: rest }, .err .syntaxError)
    else if c = 123 then
      if tokenValueAllowed st then
        ({ dec with buf := rest, tokenStack := st :: dec.tokenStack,
                    tokenState := .tokenObjectStart }, .ok ())
      else ({ dec with buf := c :: rest }, .err .syntaxError)
    else if c = 125 then
      if st = .tokenObjectStart ∨ st = .tokenObjectComma then
        ({ dec with buf := rest, tokenState := tokenValueEnd (dec.tokenStack.headD st),
                    tokenStack := dec.tokenStack.tail }, .ok ())
      else ({ dec with buf := c :: rest }, .err .syntaxError)
    else if c = 58 then
      if st = .tokenObjectColon then tokenAux env rest { dec with tokenState := .tokenObjectValue }
      else ({ dec with buf := c :: rest }, .err .syntaxError)
    else if c = 44 then
      if st = .tokenArrayComma then tokenAux env rest { dec with tokenState := .tokenArrayValue }
      else if st = .tokenObjectComma then
        tokenAux env rest { dec with tokenState := .tokenObjectKey }
      else ({ dec with buf := c :: rest }, .err .syntaxError)
    else if c = 34 ∧ (st = .tokenObjectStart ∨ st = .tokenObjectKey) then
      let r := Decoder.Decode { dec with buf := c :: rest, tokenState := .tokenTopValue }
        (unmarshalToken env true)
      match r.2 with
      | .ok _ => ({ r.1 with tokenState := .tokenObjectColon }, .ok ())
      | other => ({ r.1 with tokenState := st }, other)
    else if tokenValueAllowed st then
      Decoder.Decode { dec with buf := c :: rest } (unmarshalToken env false)
    else ({ dec with buf := c :: rest }, .err .syntaxError)

/-- The method `Decoder.Token`. -/
def Decoder.Token (env : Env) (dec : Decoder) : Decoder × Res Unit :=
  tokenAux env dec.buf dec

/-! ## strings -/

/-- The function `strings.Split(s, ",")`, for any one-byte separator: the
pieces between the separators, one more than there are separators. -/
def stringsSplit (sep : Nat) : Bytes → List Bytes
  | [] => [[]]
  | c :: rest =>
    if c = sep then [] :: stringsSplit sep rest
    else
      match stringsSplit sep rest with
      | [] => [[c]]
      | seg :: segs => (c :: seg) :: segs

/-- The function `strings.LastIndex(s, "?")`, for any one-byte substring:
`none` for -1. -/
def stringsLastIndex (c : Nat) : Bytes → Option Nat
  | [] => none
  | x :: rest =>
    match stringsLastIndex c rest with
    | some i => some (i + 1)
    | none => if x = c then some 0 else none

/-! ## cursor_decoder.go -/

/-- The struct `cursorDecoder`. -/
structure cursorDecoder where
  ref : StructType
  keys : List Bytes
  deriving DecidableEq, Repr

/-- The loop `for rt.Kind() == reflect.Slice || rt.Kind() == reflect.Ptr` of
`NewCursorDecoder`. -/
def reduceType : RType → RType
  | .ptr e => reduceType e
  | .slice e => reduceType e
  | t => t

/-- The function `NewCursorDecoder`; `ref` is the type of the reference. -/
def NewCursorDecoder (ref : RType) (keys : List Bytes) :
    Option cursorDecoder × Option GoError :=
  let rt := reduceType (toReflectValue ref)
  match rt with
  | .struct fields => (some { ref := fields, keys := keys }, none)
  | _ => (none, some ErrInvalidDecodeReference)

/-- The constant `fieldString`. -/
def fieldString : Bytes := bytesOf "STRING"

/-- The constant `fieldTime`. -/
def fieldTime : Bytes := bytesOf "TIME"

/-- The function `parse`. -/
def parse (fieldWithType : Bytes) : Bytes × Bytes × Option GoError :=
  match stringsLastIndex 63 fieldWithType with
  | none => ([], fieldString, some ErrInvalidOldField)
  | some sep => (fieldWithType.take sep, fieldWithType.drop (sep + 1), none)

/-- The function `revert`; `now` is what `time.Now().UTC()` returns. -/
def revert (env : Env) (now : GoTime) (fieldWithType : Bytes) : Iface × Option GoError :=
  match parse fieldWithType with
  | (_, _, some err) => (.nil, some err)
  | (field, fieldType, none) =>
    if fieldType = fieldTime then
      match env.timeParse field with
      | some t => (.time t, none)
      | none => (.time now, none)
    else (.val (.str field), none)

/-- The loop of `decodeOld` from segment `i` on; `none` is the nil slice. -/
def decodeOldLoop (env : Env) (clock : Clock) : List Bytes → Nat → Option (List Iface)
  | [], _ => some []
  | fieldWithType :: segs, i =>
    match revert env (clock i) fieldWithType with
    | (_, some _) => none
    | (v, none) =>
      match decodeOldLoop env clock segs (i + 1) with
      | none => none
      | some fields => some (v :: fields)

/-- The function `decodeOld`. -/
def decodeOld (env : Env) (clock : Clock) (b : Bytes) : Option (List Iface) :=
  decodeOldLoop env clock (stringsSplit 44 b) 0

/-- Whether a field type is a pointer type (`objType.Kind() == reflect.Ptr`). -/
def FType.isPtr : FType → Bool
  | .ptr _ => true
  | _ => false

/-- The type `objType` of `Decode`: the pointee of a pointer type, the type
itself otherwise. -/
def FType.objType : FType → FType
  | .ptr t => t
  | t => t

/-- The body of the loop of `Decode` for one key: the value stored in
`result[i]` and the decoder afterwards, or the error returned, or a panic.
`reflect.ValueOf(v).Elem()` panics when `v` is the nil interface. -/
def decodeKey (ref : StructType) (key : Bytes) (dec : Decoder) :
    Outcome (Except GoError (Iface × Decoder)) :=
  match ref.FieldByName key with
  | none => .ret (.error (fieldNotFound key))
  | some field =>
    let isPtr := field.type.isPtr
    let objType := field.type.objType
    match dec.Decode (unmarshalHolder objType) with
    | (_, .err err) => .ret (.error err)
    | (_, .panics) => .panics
    | (dec2, .ok v) =>
      if isPtr then
        .ret (.ok (match v with
          | some x => (.val (.ptr x), dec2)
          | none => (.nil, dec2)))
      else
        match v with
        | some x => .ret (.ok (.val x, dec2))
        | none => .panics

/-- The loop `for i, key := range d.keys` of `Decode`: what the call returns, or
a panic. -/
def decodeKeys (ref : StructType) : List Bytes → Decoder →
    Outcome (Option (List Iface) × Option GoError)
  | [], _ => .ret (some [], none)
  | key :: keys, dec =>
    match decodeKey ref key dec with
    | .panics => .panics
    | .ret (.error err) => .ret (none, some err)
    | .ret (.ok (x, dec2)) =>
      match decodeKeys ref keys dec2 with
      | .ret (some result, none) => .ret (some (x :: result), none)
      | other => other

/-- The method `cursorDecoder.Decode`: the pair it returns (`none` for a nil
slice, `none` for a nil error), or a panic. -/
def cursorDecoder.Decode (env : Env) (clock : Clock) (d : cursorDecoder) (cursor : Bytes) :
    Outcome (Option (List Iface) × Option GoError) :=
  match b64Decode cursor with
  | none => .ret (none, none)
  | some b =>
    if !jsonValid b then .ret (decodeOld env clock b, none)
    else
      match (NewDecoder b).Token env with
      | (_, .err err) => .ret (none, some err)
      | (_, .panics) => .panics
      | (dec, .ok _) => decodeKeys d.ref d.keys dec

/-! ## cursor_encoder.go -/

/-- The struct `cursorEncoder`; `overKeys` is `none` for a nil map. -/
structure cursorEncoder where
  keys : List Bytes
  overKeys : Option (List (Bytes × Bytes))
  deriving DecidableEq, Repr

/-- The function `NewCursorEncoder`. -/
def NewCursorEncoder (overKeys : Option (List (Bytes × Bytes))) (keys : List Bytes) :
    cursorEncoder :=
  { keys := keys, overKeys := overKeys }

/-- The loop `for rv.Kind() == reflect.Ptr { rv = rv.Elem() }`: the fields of
the struct reached, `none` when what is reached is not a struct (the zero
`Value` under a nil pointer included). -/
def derefValue : RValue → Option (List FieldValue)
  | .struct fields => some fields
  | .ptr v => derefValue v
  | .nilPtr => none
  | .other => none

/-- The expression `rv.FieldByName(key).Interface()`.  `FieldByName` panics on
a value that is not a struct and returns the zero `Value` for a name that is no
field; `Interface` panics on the zero `Value` and on an unexported field.  The
blank name `_` names no field or an unexported one (an exported name begins
with an upper-case letter), so the expression panics on it. -/
def fieldInterface (rv : Option (List FieldValue)) (key : Bytes) : Outcome GoValue :=
  match rv with
  | none => .panics
  | some fields =>
    if key = [95] then .panics
    else
      match fields.find? (fun f => f.name = key) with
      | none => .panics
      | some f => if f.exported then .ret f.value else .panics

/-- The loop `for i, key := range e.keys` of `marshalJSON`. -/
def collectFields (rv : Option (List FieldValue)) : List Bytes → Outcome (List GoValue)
  | [] => .ret []
  | key :: keys =>
    match fieldInterface rv key with
    | .panics => .panics
    | .ret v =>
      match collectFields rv keys with
      | .panics => .panics
      | .ret vs => .ret (v :: vs)

/-- The method `cursorEncoder.marshalJSON`: the bytes or the error it returns,
or a panic. -/
def cursorEncoder.marshalJSON (e : cursorEncoder) (value : RValue) :
    Outcome (Except GoError Bytes) :=
  let rv := derefValue (toReflectValue value)
  match collectFields rv e.keys with
  | .panics => .panics
  | .ret fields => .ret (jsonMarshal fields)

/-- The method `cursorEncoder.Encode`: the pair it returns, or a panic. -/
def cursorEncoder.Encode (e : cursorEncoder) (v : RValue) :
    Outcome (Bytes × Option GoError) :=
  match e.marshalJSON v with
  | .panics => .panics
  | .ret (.error err) => .ret ([], some err)
  | .ret (.ok b) => .ret (b64Encode b, none)

/-- What the legacy encoder takes from the standard library as given: the text
of `t.UTC().Format(time.RFC3339Nano)` for a `time.Time`, and the text `%v`
prints for a non-nil pointer or channel (an address). -/
structure Fmt where
  timeFormat : GoTime → Bytes
  addressText : GoValue → Bytes

/-- The text `fmt.Sprintf("%v", v)` of a value of a field type: decimal digits
for an `int`, the string itself, `true` or `false`, `<nil>` for a nil pointer
and a nil channel, an address for another pointer or channel. -/
def sprintV (fm : Fmt) : GoValue → Bytes
  | .int n => formatInt n
  | .str s => s
  | .bool b => if b then bytesOf "true" else bytesOf "false"
  | .chan c => if c = 0 then bytesOf "<nil>" else fm.addressText (.chan c)
  | .nilPtr _ => bytesOf "<nil>"
  | .ptr v => fm.addressText (.ptr v)

/-- The function `convert`: a `time.Time` is written in UTC with the layout
`time.RFC3339Nano` and tagged `TIME`, any other value is written with `%v` and
tagged `STRING` (`%v` prints `<nil>` for the nil interface). -/
def convert (fm : Fmt) (field : Iface) : Bytes :=
  match field with
  | .time t => fm.timeFormat t ++ [63] ++ fieldTime
  | .nil => bytesOf "<nil>" ++ [63] ++ fieldString
  | .val v => sprintV fm v ++ [63] ++ fieldString

/-- The function `strings.Join(fields, ",")`. -/
def stringsJoin : List Bytes → Bytes
  | [] => []
  | [f] => f
  | f :: rest => f ++ 44 :: stringsJoin rest

/-- The value `reflect.Indirect(rv)` when `rv` is a pointer, `rv` itself
otherwise: one pointer layer is removed, and the fields are those of the struct
then at hand (`none` when it is no struct). -/
def indirectOnce : RValue → Option (List FieldValue)
  | .struct fields => some fields
  | .ptr (.struct fields) => some fields
  | _ => none

/-- The loop of `encodeOld`: the converted fields, or a panic of
`FieldByName` or `Interface`. -/
def encodeOldFields (fm : Fmt) (rv : RValue) : List Bytes → Outcome (List Bytes)
  | [] => .ret []
  | key :: keys =>
    match fieldInterface (indirectOnce rv) key with
    | .panics => .panics
    | .ret v =>
      match encodeOldFields fm rv keys with
      | .panics => .panics
      | .ret fields => .ret (convert fm (.val v) :: fields)

/-- The function `encodeOld`. -/
def encodeOld (fm : Fmt) (rv : RValue) (keys : List Bytes) : Outcome Bytes :=
  match encodeOldFields fm rv keys with
  | .panics => .panics
  | .ret fields => .ret (b64Encode (stringsJoin fields))

/-! ## Vocabulary of the claims -/

/-- What the legacy format promises of the value decoded from a segment: text
verbatim unless the tag is `TIME`, the parsed timestamp when the tag is `TIME`
and the text parses. -/
def LegacyValue (env : Env) (seg : Bytes) (val : Iface) : Prop :=
  ∀ v k, seg = v ++ 63 :: k → 63 ∉ k →
    (k ≠ fieldTime → val = .val (.str v)) ∧
    (k = fieldTime → ∀ t, env.timeParse v = some t → val = .time t)

/-- Stripping slice and pointer layers from a type, repeatedly, until a type
that is neither is reached. -/
inductive StripsTo : RType → RType → Prop
  | struct (fields : StructType) : StripsTo (.struct fields) (.struct fields)
  | other (k : Kind) : StripsTo (.other k) (.other k)
  | ptr {e t : RType} : StripsTo e t → StripsTo (.ptr e) t
  | slice {e t : RType} : StripsTo e t → StripsTo (.slice e) t

/-- The value `v` is a struct with the given fields, or a chain of non-nil
pointers to one. -/
inductive PointsToRecord : RValue → List FieldValue → Prop
  | here (fields : List FieldValue) : PointsToRecord (.struct fields) fields
  | deref {v : RValue} {fields : List FieldValue} :
      PointsToRecord v fields → PointsToRecord (.ptr v) fields

/-- The key names an exported field of the record, and that field holds `val`.
Field names are distinct in a Go struct; should a name repeat, the first field
of that name counts, as for `FieldByName`.  The blank name `_` is no exported
name. -/
def NamesExported (fields : List FieldValue) (key : Bytes) (val : GoValue) : Prop :=
  key ≠ [95] ∧
    ∃ f, fields.find? (fun g => g.name = key) = some f ∧ f.exported = true ∧ f.value = val

/-- The bytes after a three-byte lead `b0` form a well-formed sequence
(Unicode, table 3-7). -/
def utf8Three (b0 b1 b2 : Nat) : Bool :=
  ((b0 = 224 && 160 ≤ b1 && b1 ≤ 191) || (225 ≤ b0 && b0 ≤ 236 && 128 ≤ b1 && b1 ≤ 191) ||
    (b0 = 237 && 128 ≤ b1 && b1 ≤ 159) || (238 ≤ b0 && b0 ≤ 239 && 128 ≤ b1 && b1 ≤ 191)) &&
  (128 ≤ b2 && b2 ≤ 191)

/-- The bytes after a four-byte lead `b0` form a well-formed sequence. -/
def utf8Four (b0 b1 b2 b3 : Nat) : Bool :=
  ((b0 = 240 && 144 ≤ b1 && b1 ≤ 191) || (241 ≤ b0 && b0 ≤ 243 && 128 ≤ b1 && b1 ≤ 191) ||
    (b0 = 244 && 128 ≤ b1 && b1 ≤ 143)) &&
  (128 ≤ b2 && b2 ≤ 191) && (128 ≤ b3 && b3 ≤ 191)

/-- The string is well-formed UTF-8 (what `utf8.Valid` decides): a sequence of
one-byte, two-byte, three-byte and four-byte encodings of Unicode scalar
values, none overlong. -/
def utf8Valid : Bytes → Bool
  | [] => true
  | b0 :: rest =>
    if b0 < 128 then utf8Valid rest
    else
      match rest with
      | [] => false
      | b1 :: rest1 =>
        if 194 ≤ b0 ∧ b0 ≤ 223 ∧ 128 ≤ b1 ∧ b1 ≤ 191 then utf8Valid rest1
        else
          match rest1 with
          | [] => false
          | b2 :: rest2 =>
            if utf8Three b0 b1 b2 then utf8Valid rest2
            else
              match rest2 with
              | [] => false
              | b3 :: rest3 => if utf8Four b0 b1 b2 b3 then utf8Valid rest3 else false

/-- The value has a JSON encoding other than `null` that determines it: an
`int` of 64 bits, a well-formed UTF-8 string, a `bool`, or a non-nil pointer to
such a value. -/
def GoValue.representable : GoValue → Bool
  | .int n => decide (-9223372036854775808 ≤ n ∧ n ≤ 9223372036854775807)
  | .str s => utf8Valid s
  | .bool _ => true
  | .chan _ => false
  | .nilPtr _ => false
  | .ptr v => v.representable

/-- The elements after the first of a JSON array: each preceded by a comma. -/
def tailElems (encs : List Bytes) : Bytes := (encs.map (fun e => 44 :: e)).flatten

/-- The type under all the pointer layers of a field type. -/
def FType.base : FType → FType
  | .ptr t => t.base
  | t => t

/-! ## Notions used in the proofs -/

/-- One rune of a well-formed string, and what `appendString` writes for it: the
rune itself, a two-byte escape, or a `\uXXXX` escape. -/
inductive Chunk : Bytes → Bytes → Prop
  | safe (c : Nat)
      (h : 32 ≤ c ∧ c < 128 ∧ c ≠ 34 ∧ c ≠ 92 ∧ c ≠ 60 ∧ c ≠ 62 ∧ c ≠ 38) : Chunk [c] [c]
  | short (c e : Nat)
      (h : (c = 92 ∧ e = 92) ∨ (c = 34 ∧ e = 34) ∨ (c = 8 ∧ e = 98) ∨ (c = 12 ∧ e = 102) ∨
        (c = 10 ∧ e = 110) ∨ (c = 13 ∧ e = 114) ∨ (c = 9 ∧ e = 116)) : Chunk [c] [92, e]
  | hex (c : Nat) (h : c < 32 ∨ c = 60 ∨ c = 62 ∨ c = 38) :
      Chunk [c] [92, 117, 48, 48, hexDigit (c / 16), hexDigit (c % 16)]
  | two (b0 b1 : Nat) (h : 194 ≤ b0 ∧ b0 ≤ 223 ∧ 128 ≤ b1 ∧ b1 ≤ 191) : Chunk [b0, b1] [b0, b1]
  | three (b0 b1 b2 : Nat) (h : utf8Three b0 b1 b2 = true) : Chunk [b0, b1, b2] [b0, b1, b2]
  | separator (b2 : Nat) (h : b2 = 168 ∨ b2 = 169) :
      Chunk [226, 128, b2] [92, 117, 50, 48, 50, b2 - 112]
  | four (b0 b1 b2 b3 : Nat) (h : utf8Four b0 b1 b2 b3 = true) :
      Chunk [b0, b1, b2, b3] [b0, b1, b2, b3]

/-- A well-formed string rune by rune, and the body of its JSON literal. -/
inductive Chunks : Bytes → Bytes → Prop
  | nil : Chunks [] []
  | cons {o c s b : Bytes} : Chunk o c → Chunks s b → Chunks (o ++ s) (c ++ b)

/-- Run the scanner over bytes that are all inside one literal: the scanner
afterwards, `none` when a step answers something else than `scanContinue` or
`scanBeginLiteral`. -/
def scanQuiet : Scanner → Bytes → Option Scanner
  | s, [] => some s
  | s, c :: rest =>
    if (s.next c).2 = .scanContinue ∨ (s.next c).2 = .scanBeginLiteral then
      scanQuiet (s.next c).1 rest
    else none

/-! ## Sample inputs -/

/-- An environment in which `time.Parse` knows one timestamp text, that of the
legacy example, 2024-01-02T15:04:05.000000001Z (1704207845 seconds and one
nanosecond after the epoch, in UTC), and no number is out of range. -/
def demoEnv : Env :=
  { timeParse := fun s =>
      if s = bytesOf "2024-01-02T15:04:05.000000001Z" then some ⟨1704207845, 1, 0⟩
      else none
    floatOutOfRange := fun _ => false }

/-- A clock that reads `1700000000 + i` seconds at the `i`-th reading. -/
def demoClock : Clock := fun i => ⟨1700000000 + i, 0, 0⟩

/-- A clock that reads one hour later than `demoClock`. -/
def laterClock : Clock := fun i => ⟨1700003600 + i, 0, 0⟩

/-- A formatter whose timestamps all read as the legacy example and whose
addresses all read `0xc000010000`. -/
def demoFmt : Fmt :=
  { timeFormat := fun _ => bytesOf "2024-01-02T15:04:05.000000001Z"
    addressText := fun _ => bytesOf "0xc000010000" }

/-- The struct type
`struct { ID int; Name string; Ref *int; Done chan int; secret int }`. -/
def demoStruct : StructType :=
  [⟨bytesOf "ID", true, .int⟩, ⟨bytesOf "Name", true, .string⟩,
   ⟨bytesOf "Ref", true, .ptr .int⟩, ⟨bytesOf "Done", true, .chan⟩,
   ⟨bytesOf "secret", false, .int⟩]

/-- The record `{ID: 5, Name: "foo", Ref: nil, Done: nil, secret: 7}` of type
`demoStruct`. -/
def demoRecord : List FieldValue :=
  [⟨bytesOf "ID", true, .int 5⟩, ⟨bytesOf "Name", true, .str (bytesOf "foo")⟩,
   ⟨bytesOf "Ref", true, .nilPtr .int⟩, ⟨bytesOf "Done", true, .chan 0⟩,
   ⟨bytesOf "secret", false, .int 7⟩]

/-- A decoder for `demoStruct` with the keys `ID`, `Name`. -/
def demoDecoder : cursorDecoder := { ref := demoStruct, keys := [bytesOf "ID", bytesOf "Name"] }

/-! ## Legacy format: lemmas -/

theorem stringsLastIndex_eq_none (c : Nat) (s : Bytes) :
    stringsLastIndex c s = none ↔ c ∉ s := by
  induction s with
  | nil => simp [stringsLastIndex]
  | cons x rest ih =>
    unfold stringsLastIndex
    cases h : stringsLastIndex c rest with
    | some i =>
      have : ¬ (c ∉ rest) := fun hc => by simp [ih.mpr hc] at h
      simp only [reduceCtorEq, List.mem_cons, not_or, false_iff, not_and]
      intro _
      exact this
    | none =>
      have hc : c ∉ rest := ih.mp h
      by_cases hx : x = c
      · simp [hx]
      · simp [hx, hc, Ne.symm hx]

theorem stringsLastIndex_append (c : Nat) (v k : Bytes) (hk : c ∉ k) :
    stringsLastIndex c (v ++ c :: k) = some v.length := by
  induction v with
  | nil =>
    have := (stringsLastIndex_eq_none c k).mpr hk
    simp [stringsLastIndex, this]
  | cons x rest ih => simp [stringsLastIndex, ih]

theorem parse_append (v k : Bytes) (hk : 63 ∉ k) :
    parse (v ++ 63 :: k) = (v, k, none) := by
  simp [parse, stringsLastIndex_append 63 v k hk]

theorem parse_no_mark (s : Bytes) (h : 63 ∉ s) :
    parse s = ([], fieldString, some ErrInvalidOldField) := by
  simp [parse, (stringsLastIndex_eq_none 63 s).mpr h]

theorem exists_split_of_mem (s : Bytes) (h : 63 ∈ s) :
    ∃ v k, s = v ++ 63 :: k ∧ 63 ∉ k := by
  induction s with
  | nil => simp at h
  | cons x rest ih =>
    by_cases hr : 63 ∈ rest
    · obtain ⟨v, k, hv, hk⟩ := ih hr
      exact ⟨x :: v, k, by simp [hv], hk⟩
    · have hx : x = 63 := by
        rcases List.mem_cons.mp h with h1 | h1
        · exact h1.symm
        · exact absurd h1 hr
      exact ⟨[], rest, by simp [hx], hr⟩

theorem decodeOldLoop_malformed (env : Env) (clock : Clock) (segs : List Bytes) (i : Nat)
    (h : ∃ seg ∈ segs, 63 ∉ seg) : decodeOldLoop env clock segs i = none := by
  induction segs generalizing i with
  | nil => simp at h
  | cons seg rest ih =>
    unfold decodeOldLoop
    by_cases hs : 63 ∈ seg
    · have hr : ∃ s ∈ rest, 63 ∉ s := by
        obtain ⟨s, hmem, hno⟩ := h
        rcases List.mem_cons.mp hmem with h1 | h1
        · exact absurd (h1 ▸ hs) hno
        · exact ⟨s, h1, hno⟩
      rw [ih (i + 1) hr]
      cases revert env (clock i) seg with
      | mk v e => cases e <;> rfl
    · simp [revert, parse_no_mark seg hs]

theorem revert_legacyValue (env : Env) (now : GoTime) (seg : Bytes) (h : 63 ∈ seg) :
    ∃ val, revert env now seg = (val, none) ∧ LegacyValue env seg val := by
  obtain ⟨v, k, rfl, hk⟩ := exists_split_of_mem seg h
  have key : ∀ v2 k2, v ++ 63 :: k = v2 ++ 63 :: k2 → 63 ∉ k2 → v2 = v ∧ k2 = k := by
    intro v2 k2 heq hk2
    have h1 := parse_append v k hk
    have h2 := parse_append v2 k2 hk2
    rw [heq, h2] at h1
    simp only [Prod.mk.injEq, and_true] at h1
    exact h1
  by_cases ht : k = fieldTime
  · cases hp : env.timeParse v with
    | some t =>
      refine ⟨.time t, by simp only [revert, parse_append v k hk]; simp [ht, hp], ?_⟩
      intro v2 k2 heq hk2
      obtain ⟨rfl, rfl⟩ := key v2 k2 heq hk2
      exact ⟨fun hne => absurd ht hne, fun _ t2 h2 => by rw [hp] at h2; cases h2; rfl⟩
    | none =>
      refine ⟨.time now, by simp only [revert, parse_append v k hk]; simp [ht, hp], ?_⟩
      intro v2 k2 heq hk2
      obtain ⟨rfl, rfl⟩ := key v2 k2 heq hk2
      exact ⟨fun hne => absurd ht hne, fun _ t2 h2 => by rw [hp] at h2; cases h2⟩
  · refine ⟨.val (.str v), by simp only [revert, parse_append v k hk]; simp [ht], ?_⟩
    intro v2 k2 heq hk2
    obtain ⟨rfl, rfl⟩ := key v2 k2 heq hk2
    exact ⟨fun _ => rfl, fun h2 => absurd h2 ht⟩

theorem decodeOldLoop_wellformed (env : Env) (clock : Clock) (segs : List Bytes) (i : Nat)
    (h : ∀ seg ∈ segs, 63 ∈ seg) :
    ∃ vals, decodeOldLoop env clock segs i = some vals ∧
      List.Forall₂ (LegacyValue env) segs vals := by
  induction segs generalizing i with
  | nil => exact ⟨[], rfl, List.Forall₂.nil⟩
  | cons seg rest ih =>
    obtain ⟨val, hval, hlv⟩ := revert_legacyValue env (clock i) seg (h seg (by simp))
    obtain ⟨vals, hvals, hall⟩ := ih (i + 1) (fun s hs => h s (by simp [hs]))
    exact ⟨val :: vals, by simp [decodeOldLoop, hval, hvals], List.Forall₂.cons hlv hall⟩

/-! ## Transport: what `DecodeString` rejects -/

theorem skipNewlines_foreign (s : Bytes) (c : Nat) (hc : c ∈ s) (h10 : c ≠ 10) (h13 : c ≠ 13) :
    c ∈ skipNewlines s := by
  induction s with
  | nil => simp at hc
  | cons x rest ih =>
    unfold skipNewlines
    split_ifs with hx
    · rcases List.mem_cons.mp hc with h | h
      · subst h; omega
      · exact ih h
    · exact hc

theorem skipNewlines_ne_nil (s : Bytes) (c : Nat) (hc : c ∈ s) (h10 : c ≠ 10) (h13 : c ≠ 13) :
    skipNewlines s ≠ [] := by
  intro h
  have := skipNewlines_foreign s c hc h10 h13
  rw [h] at this
  simp at this

theorem padding_foreign (rest : Bytes) (c : Nat) (hc : c ∈ rest) (h61 : c ≠ 61)
    (h10 : c ≠ 10) (h13 : c ≠ 13) (out : Bytes) :
    (match skipNewlines rest with
      | 61 :: rest2 => if skipNewlines rest2 = [] then some out else none
      | _ => none) = none := by
  have hsk := skipNewlines_foreign rest c hc h10 h13
  split
  · rename_i rest2 heq
    rw [heq] at hsk
    have hrest2 : c ∈ rest2 := by
      rcases List.mem_cons.mp hsk with h | h
      · exact absurd h h61
      · exact h
    simp [skipNewlines_ne_nil rest2 c hrest2 h10 h13]
  · rfl

/-- A byte outside the alphabet that is neither `=` nor a line break makes
`DecodeString` fail, wherever it stands. -/
theorem b64DecodeAux_foreign (s : Bytes) (q : List Nat) (c : Nat) (hc : c ∈ s)
    (hidx : b64Index c = none) (h61 : c ≠ 61) (h10 : c ≠ 10) (h13 : c ≠ 13) :
    b64DecodeAux s q = none := by
  induction s generalizing q with
  | nil => simp at hc
  | cons x rest ih =>
    by_cases hxc : x = c
    · subst hxc
      have hnl : ¬ (x = 10 ∨ x = 13) := by omega
      rcases q with _ | ⟨a, _ | ⟨b, _ | ⟨d, _ | ⟨e, q2⟩⟩⟩⟩ <;>
        simp [b64DecodeAux, hidx, hnl, h61]
    · have hrest : c ∈ rest := by
        rcases List.mem_cons.mp hc with h | h
        · exact absurd h.symm hxc
        · exact h
      have hpad := fun out => padding_foreign rest c hrest h61 h10 h13 out
      have hsk := skipNewlines_ne_nil rest c hrest h10 h13
      cases hx : b64Index x with
      | some v =>
        rcases q with _ | ⟨a, _ | ⟨b, _ | ⟨d, _ | ⟨e, q2⟩⟩⟩⟩ <;>
          simp [b64DecodeAux, hx, ih _ hrest]
      | none =>
        by_cases hnl : x = 10 ∨ x = 13
        · rcases q with _ | ⟨a, _ | ⟨b, _ | ⟨d, _ | ⟨e, q2⟩⟩⟩⟩ <;>
            simp [b64DecodeAux, hx, hnl, ih _ hrest]
        · by_cases hx61 : x = 61
          · subst hx61
            rcases q with _ | ⟨a, _ | ⟨b, _ | ⟨d, _ | ⟨e, q2⟩⟩⟩⟩ <;>
              simp only [b64DecodeAux, hx] <;>
              first
                | exact hpad _
                | simp [hsk]
          · rcases q with _ | ⟨a, _ | ⟨b, _ | ⟨d, _ | ⟨e, q2⟩⟩⟩⟩ <;>
              simp [b64DecodeAux, hx, hnl, hx61]

theorem b64Decode_foreign (s : Bytes) (c : Nat) (hc : c ∈ s)
    (hidx : b64Index c = none) (h61 : c ≠ 61) (h10 : c ≠ 10) (h13 : c ≠ 13) :
    b64Decode s = none :=
  b64DecodeAux_foreign s [] c hc hidx h61 h10 h13

/-! ## Claims on the legacy format and the transport -/

/-- C4 (transport resilience).  Whatever the decoder (schema, key list), a
cursor that `base64.StdEncoding` does not decode (padded standard alphabet; the
decoder of the library ignores line breaks) makes `Decode` return the nil
slice and the nil error.  By `b64Decode_foreign`, every cursor that holds a
byte foreign to the alphabet, other than `=` and line breaks, is such a
cursor. -/
theorem C4_transport_resilience (env : Env) (clock : Clock) (d : cursorDecoder)
    (cursor : Bytes) (h : b64Decode cursor = none) :
    d.Decode env clock cursor = .ret (none, none) := by
  simp [cursorDecoder.Decode, h]

/-- C4 at the cursor `not-base64!!`. -/
theorem C4_transport_resilience_witness :
    b64Decode (bytesOf "not-base64!!") = none ∧
    demoDecoder.Decode demoEnv demoClock (bytesOf "not-base64!!") = .ret (none, none) :=
  ⟨by decide, C4_transport_resilience demoEnv demoClock demoDecoder _ (by decide)⟩

/-- C5 (legacy decode).  When the payload of the cursor is not valid JSON and
each of its comma-separated segments holds a `?`, `Decode` returns no error and
one value per segment, in order: for a segment `v?K` (`K` without `?`) the text
`v` when `K` is not `TIME`, and the timestamp `time.Parse` reads from `v` when
`K` is `TIME` and `v` parses. -/
theorem C5_legacy_decode (env : Env) (clock : Clock) (d : cursorDecoder)
    (cursor b : Bytes) (hb : b64Decode cursor = some b) (hj : jsonValid b = false)
    (hq : ∀ seg ∈ stringsSplit 44 b, 63 ∈ seg) :
    ∃ vals, d.Decode env clock cursor = .ret (some vals, none) ∧
      List.Forall₂ (LegacyValue env) (stringsSplit 44 b) vals := by
  obtain ⟨vals, hvals, hall⟩ := decodeOldLoop_wellformed env clock (stringsSplit 44 b) 0 hq
  exact ⟨vals, by simp [cursorDecoder.Decode, hb, hj, decodeOld, hvals], hall⟩

/-- C5 at the payload `5?STRING,2024-01-02T15:04:05.000000001Z?TIME`: the
values are the text `5` and the timestamp. -/
theorem C5_legacy_decode_witness :
    b64Decode (bytesOf "NT9TVFJJTkcsMjAyNC0wMS0wMlQxNTowNDowNS4wMDAwMDAwMDFaP1RJTUU=") =
      some (bytesOf "5?STRING,2024-01-02T15:04:05.000000001Z?TIME") ∧
    jsonValid (bytesOf "5?STRING,2024-01-02T15:04:05.000000001Z?TIME") = false ∧
    (∃ vals, demoDecoder.Decode demoEnv demoClock
        (bytesOf "NT9TVFJJTkcsMjAyNC0wMS0wMlQxNTowNDowNS4wMDAwMDAwMDFaP1RJTUU=") =
          .ret (some vals, none) ∧
      List.Forall₂ (LegacyValue demoEnv)
        (stringsSplit 44 (bytesOf "5?STRING,2024-01-02T15:04:05.000000001Z?TIME")) vals) ∧
    demoDecoder.Decode demoEnv demoClock
        (bytesOf "NT9TVFJJTkcsMjAyNC0wMS0wMlQxNTowNDowNS4wMDAwMDAwMDFaP1RJTUU=") =
      .ret (some [.val (.str (bytesOf "5")), .time ⟨1704207845, 1, 0⟩], none) :=
  ⟨by decide, by decide,
    C5_legacy_decode demoEnv demoClock demoDecoder _ _ (by decide) (by decide) (by decide),
    by decide⟩

/-- C6 (legacy malformed segment).  When the payload of the cursor is not valid
JSON and one of its comma-separated segments holds no `?`, `Decode` returns the
nil slice and the nil error: the well-formed segments are dropped too. -/
theorem C6_legacy_malformed (env : Env) (clock : Clock) (d : cursorDecoder)
    (cursor b : Bytes) (hb : b64Decode cursor = some b) (hj : jsonValid b = false)
    (hq : ∃ seg ∈ stringsSplit 44 b, 63 ∉ seg) :
    d.Decode env clock cursor = .ret (none, none) := by
  simp [cursorDecoder.Decode, hb, hj, decodeOld,
    decodeOldLoop_malformed env clock (stringsSplit 44 b) 0 hq]

/-- C6 at the payload `5?STRING,nope`, and at the empty cursor, whose payload is
empty. -/
theorem C6_legacy_malformed_witness :
    (b64Decode (bytesOf "NT9TVFJJTkcsbm9wZQ==") = some (bytesOf "5?STRING,nope") ∧
      demoDecoder.Decode demoEnv demoClock (bytesOf "NT9TVFJJTkcsbm9wZQ==") =
        .ret (none, none)) ∧
    (b64Decode [] = some [] ∧ demoDecoder.Decode demoEnv demoClock [] = .ret (none, none)) :=
  ⟨⟨by decide, C6_legacy_malformed demoEnv demoClock demoDecoder _ _
      (by decide : b64Decode (bytesOf "NT9TVFJJTkcsbm9wZQ==") = some (bytesOf "5?STRING,nope"))
      (by decide) (by decide)⟩,
   ⟨by decide, C6_legacy_malformed demoEnv demoClock demoDecoder [] []
      (by decide) (by decide) (by decide)⟩⟩

theorem revert_clock_free (env : Env) (now1 now2 : GoTime) (seg : Bytes)
    (h : ∀ v, seg = v ++ 63 :: fieldTime → env.timeParse v ≠ none) :
    revert env now1 seg = revert env now2 seg := by
  by_cases hs : 63 ∈ seg
  · obtain ⟨v, k, rfl, hk⟩ := exists_split_of_mem seg hs
    simp only [revert, parse_append v k hk]
    by_cases ht : k = fieldTime
    · subst ht
      cases hp : env.timeParse v with
      | some t => simp
      | none => exact absurd hp (h v rfl)
    · simp [ht]
  · simp [revert, parse_no_mark seg hs]

theorem decodeOldLoop_clock_free (env : Env) (c1 c2 : Clock) (segs : List Bytes) (i : Nat)
    (h : ∀ seg ∈ segs, ∀ v, seg = v ++ 63 :: fieldTime → env.timeParse v ≠ none) :
    decodeOldLoop env c1 segs i = decodeOldLoop env c2 segs i := by
  induction segs generalizing i with
  | nil => rfl
  | cons seg rest ih =>
    unfold decodeOldLoop
    rw [revert_clock_free env (c1 i) (c2 i) seg (h seg (by simp)),
      ih (i + 1) (fun s hs => h s (by simp [hs]))]

/-- C7, as stated, fails: on the legacy payload `x?TIME`, whose timestamp text
does not parse, two calls of `Decode` made at different times return different
values. -/
theorem C7_counterexample :
    demoDecoder.Decode demoEnv demoClock (bytesOf "eD9USU1F") ≠
      demoDecoder.Decode demoEnv laterClock (bytesOf "eD9USU1F") := by
  decide

/-- C7, amended (determinism of `Decode`).  Two calls of `Decode` on the same
cursor, made at any two times, return the same values and the same error,
provided that in a legacy payload every segment tagged `TIME` holds a
timestamp text that parses. -/
theorem C7_decode_deterministic (env : Env) (c1 c2 : Clock) (d : cursorDecoder)
    (cursor : Bytes)
    (h : ∀ b, b64Decode cursor = some b → jsonValid b = false →
      ∀ seg ∈ stringsSplit 44 b, ∀ v, seg = v ++ 63 :: fieldTime → env.timeParse v ≠ none) :
    d.Decode env c1 cursor = d.Decode env c2 cursor := by
  unfold cursorDecoder.Decode
  cases hb : b64Decode cursor with
  | none => rfl
  | some b =>
    cases hj : jsonValid b with
    | true => simp [hj]
    | false =>
      simp only [hj, Bool.not_false, if_true, decodeOld]
      rw [decodeOldLoop_clock_free env c1 c2 (stringsSplit 44 b) 0 (h b hb hj)]

/-- C7, amended, at the legacy example payload, read at two different times. -/
theorem C7_decode_deterministic_witness :
    (∀ b, b64Decode (bytesOf "NT9TVFJJTkcsMjAyNC0wMS0wMlQxNTowNDowNS4wMDAwMDAwMDFaP1RJTUU=")
        = some b → jsonValid b = false →
      ∀ seg ∈ stringsSplit 44 b, ∀ v, seg = v ++ 63 :: fieldTime →
        demoEnv.timeParse v ≠ none) ∧
    demoDecoder.Decode demoEnv demoClock
        (bytesOf "NT9TVFJJTkcsMjAyNC0wMS0wMlQxNTowNDowNS4wMDAwMDAwMDFaP1RJTUU=") =
      demoDecoder.Decode demoEnv laterClock
        (bytesOf "NT9TVFJJTkcsMjAyNC0wMS0wMlQxNTowNDowNS4wMDAwMDAwMDFaP1RJTUU=") := by
  have hdec : b64Decode
      (bytesOf "NT9TVFJJTkcsMjAyNC0wMS0wMlQxNTowNDowNS4wMDAwMDAwMDFaP1RJTUU=") =
      some (bytesOf "5?STRING,2024-01-02T15:04:05.000000001Z?TIME") := by decide
  have hyp : ∀ b, b64Decode
      (bytesOf "NT9TVFJJTkcsMjAyNC0wMS0wMlQxNTowNDowNS4wMDAwMDAwMDFaP1RJTUU=") = some b →
      jsonValid b = false → ∀ seg ∈ stringsSplit 44 b, ∀ v, seg = v ++ 63 :: fieldTime →
        demoEnv.timeParse v ≠ none := by
    intro b hb _ seg hseg v hv
    rw [hdec] at hb
    cases hb
    have hsegs : stringsSplit 44 (bytesOf "5?STRING,2024-01-02T15:04:05.000000001Z?TIME") =
        [bytesOf "5?STRING", bytesOf "2024-01-02T15:04:05.000000001Z?TIME"] := by decide
    rw [hsegs] at hseg
    simp only [List.mem_cons, List.mem_singleton, List.not_mem_nil, or_false] at hseg
    rcases hseg with rfl | rfl
    · exfalso
      have h1 := parse_append v fieldTime (by decide)
      rw [← hv] at h1
      have h2 : parse (bytesOf "5?STRING") = (bytesOf "5", fieldString, none) := by decide
      rw [h2] at h1
      have h3 : fieldString = fieldTime := congrArg (fun p => p.2.1) h1
      exact absurd h3 (by decide)
    · have h1 := parse_append v fieldTime (by decide)
      rw [← hv] at h1
      have h2 : parse (bytesOf "2024-01-02T15:04:05.000000001Z?TIME") =
          (bytesOf "2024-01-02T15:04:05.000000001Z", fieldTime, none) := by decide
      rw [h2] at h1
      simp only [Prod.mk.injEq, and_true] at h1
      rw [← h1]
      decide
  exact ⟨hyp, C7_decode_deterministic demoEnv demoClock laterClock demoDecoder _ hyp⟩

/-! ## Claims on construction and on the current format -/

theorem reduceType_of_stripsTo {ref t : RType} (h : StripsTo ref t) : reduceType ref = t := by
  induction h with
  | struct fields => rfl
  | other k => rfl
  | ptr _ ih => simpa [reduceType] using ih
  | slice _ ih => simpa [reduceType] using ih

theorem stripsTo_reduceType (ref : RType) : StripsTo ref (reduceType ref) := by
  induction ref with
  | struct fields => exact StripsTo.struct fields
  | other k => exact StripsTo.other k
  | ptr e ih => exact StripsTo.ptr ih
  | slice e ih => exact StripsTo.slice ih

theorem decodeKeys_absent (ref : StructType) (pre : List Bytes) (absent : Bytes)
    (post : List Bytes) (dec : Decoder) (vals : List Iface)
    (h : decodeKeys ref pre dec = .ret (some vals, none))
    (ha : ref.FieldByName absent = none) :
    decodeKeys ref (pre ++ absent :: post) dec = .ret (none, some (fieldNotFound absent)) := by
  induction pre generalizing dec vals with
  | nil => simp [decodeKeys, decodeKey, ha]
  | cons k ks ih =>
    simp only [List.cons_append, decodeKeys] at h ⊢
    cases hk : decodeKey ref k dec with
    | panics => simp [hk] at h
    | ret r =>
      cases r with
      | error e => simp [hk] at h
      | ok p =>
        obtain ⟨x, dec2⟩ := p
        simp only [hk] at h ⊢
        cases hrest : decodeKeys ref ks dec2 with
        | panics => simp [hrest] at h
        | ret q =>
          obtain ⟨l, e⟩ := q
          cases l with
          | none => simp [hrest] at h
          | some r2 =>
            cases e with
            | some e2 => simp [hrest] at h
            | none =>
              have hi := ih dec2 r2 hrest
              simp only [List.append_eq] at hi ⊢
              rw [hi]

/-- C8 (unknown key).  `NewCursorDecoder` accepts a struct reference whatever
the keys.  When a key names no field of the struct (`FieldByName` finds none,
exported or not), then on every cursor
whose payload is valid JSON and on which the keys before that key decode
without error, `Decode` returns the nil slice and an error whose message is
`cannot find the field in the struct`, then `: `, then the key. -/
theorem C8_unknown_key (env : Env) (clock : Clock) (ref : StructType)
    (pre : List Bytes) (absent : Bytes) (post : List Bytes) (cursor b : Bytes)
    (vals : List Iface)
    (ha : ref.FieldByName absent = none)
    (hb : b64Decode cursor = some b) (hj : jsonValid b = true)
    (hpre : cursorDecoder.Decode env clock { ref := ref, keys := pre } cursor =
      .ret (some vals, none)) :
    NewCursorDecoder (.struct ref) (pre ++ absent :: post) =
      (some { ref := ref, keys := pre ++ absent :: post }, none) ∧
    cursorDecoder.Decode env clock { ref := ref, keys := pre ++ absent :: post } cursor =
      .ret (none, some (.errorString
        (bytesOf "cannot find the field in the struct" ++ bytesOf ": " ++ absent))) := by
  refine ⟨rfl, ?_⟩
  simp only [cursorDecoder.Decode, hb, hj, Bool.not_true, Bool.false_eq_true, if_false] at hpre ⊢
  cases ht : (NewDecoder b).Token env with
  | mk dec r =>
    cases r with
    | err e => simp [ht] at hpre
    | panics => simp [ht] at hpre
    | ok u =>
      simp only [ht] at hpre ⊢
      exact decodeKeys_absent ref pre absent post dec vals hpre ha

/-- C8 at the cursor of `[5,"foo"]`, with the keys `ID`, `Nope`, `Name` on
`demoStruct`.  A blank field is a field like any other: on
`struct { _ int; ID int }` the key `_` names the first field, and the cursor
`Wzdd` of `[7]` decodes to 7. -/
theorem C8_unknown_key_witness :
    demoStruct.FieldByName (bytesOf "Nope") = none ∧
    cursorDecoder.Decode demoEnv demoClock
        { ref := demoStruct, keys := [bytesOf "ID"] } (bytesOf "WzUsImZvbyJd") =
      .ret (some [.val (.int 5)], none) ∧
    (NewCursorDecoder (.struct demoStruct) ([bytesOf "ID"] ++ bytesOf "Nope" :: [bytesOf "Name"]) =
      (some { ref := demoStruct, keys := [bytesOf "ID"] ++ bytesOf "Nope" :: [bytesOf "Name"] },
        none) ∧
    cursorDecoder.Decode demoEnv demoClock
        { ref := demoStruct, keys := [bytesOf "ID"] ++ bytesOf "Nope" :: [bytesOf "Name"] }
        (bytesOf "WzUsImZvbyJd") =
      .ret (none, some (.errorString
        (bytesOf "cannot find the field in the struct" ++ bytesOf ": " ++ bytesOf "Nope")))) ∧
    StructType.FieldByName [⟨bytesOf "_", false, .int⟩, ⟨bytesOf "ID", true, .int⟩]
        (bytesOf "_") = some ⟨bytesOf "_", false, .int⟩ ∧
    cursorDecoder.Decode demoEnv demoClock
        { ref := [⟨bytesOf "_", false, .int⟩, ⟨bytesOf "ID", true, .int⟩],
          keys := [bytesOf "_"] } (bytesOf "Wzdd") =
      .ret (some [.val (.int 7)], none) :=
  ⟨by decide, by decide,
    C8_unknown_key demoEnv demoClock demoStruct [bytesOf "ID"] (bytesOf "Nope") [bytesOf "Name"]
      (bytesOf "WzUsImZvbyJd") (bytesOf "[5,\"foo\"]") [.val (.int 5)]
      (by decide) (by decide) (by decide) (by decide),
    by decide, by decide⟩

/-- C9 (invalid schema reference).  `NewCursorDecoder` returns
`(nil, ErrInvalidDecodeReference)` exactly when stripping the slice and pointer
layers of the type of the reference does not end in a struct type; when it
ends in the struct type `T` the result is the decoder of `T` with the given
keys and no error; so `T`, `*T`, `**T` and `[]T` give the same decoder. -/
theorem C9_invalid_reference (ref : RType) (keys : List Bytes) :
    (NewCursorDecoder ref keys = (none, some ErrInvalidDecodeReference) ↔
      ¬ ∃ fields, StripsTo ref (.struct fields)) ∧
    (∀ fields, StripsTo ref (.struct fields) →
      NewCursorDecoder ref keys = (some { ref := fields, keys := keys }, none)) ∧
    (∀ T : StructType,
      NewCursorDecoder (.ptr (.struct T)) keys = NewCursorDecoder (.struct T) keys ∧
      NewCursorDecoder (.ptr (.ptr (.struct T))) keys = NewCursorDecoder (.struct T) keys ∧
      NewCursorDecoder (.slice (.struct T)) keys = NewCursorDecoder (.struct T) keys) ∧
    NewCursorDecoder (.other .int) keys = (none, some ErrInvalidDecodeReference) ∧
    NewCursorDecoder (.other .map) keys = (none, some ErrInvalidDecodeReference) := by
  refine ⟨?_, ?_, fun T => ⟨rfl, rfl, rfl⟩, rfl, rfl⟩
  · constructor
    · rintro h ⟨fields, hs⟩
      have hr := reduceType_of_stripsTo hs
      simp [NewCursorDecoder, toReflectValue, hr] at h
    · intro h
      have hs := stripsTo_reduceType ref
      unfold NewCursorDecoder toReflectValue
      cases hr : reduceType ref with
      | struct fields => exact absurd ⟨fields, hr ▸ hs⟩ h
      | ptr e => rfl
      | slice e => rfl
      | other k => rfl
  · intro fields hs
    simp [NewCursorDecoder, toReflectValue, reduceType_of_stripsTo hs]

/-- C3, at its failing input: on the cursor of `[null]`, with the key `ID` of
type `int`, `Decode` panics (`reflect.ValueOf(v).Elem()` on the nil
interface), and so it does on the cursor of `[5,null]` with the keys `ID`,
`Name`.  The other kinds of malformed cursor the claim lists end normally: a
cursor that is not base64, the payloads `{}` and `5`, which are JSON but no
array, and the array `[]`, which has too few elements. -/
theorem C3_decode_panics_on_null :
    cursorDecoder.Decode demoEnv demoClock
      { ref := demoStruct, keys := [bytesOf "ID"] } (bytesOf "W251bGxd") = .panics ∧
    demoDecoder.Decode demoEnv demoClock (bytesOf "WzUsbnVsbF0=") = .panics ∧
    demoDecoder.Decode demoEnv demoClock (bytesOf "not-base64!!") = .ret (none, none) ∧
    demoDecoder.Decode demoEnv demoClock (bytesOf "e30=") = .ret (none, some .syntaxError) ∧
    demoDecoder.Decode demoEnv demoClock (bytesOf "NQ==") = .ret (none, some .eof) ∧
    demoDecoder.Decode demoEnv demoClock (bytesOf "W10=") = .ret (none, some .syntaxError) :=
  ⟨by decide, by decide, by decide, by decide, by decide, by decide⟩

/-- C10, at its failing input: on the cursor of `[null]`, with the key `Ref`
of type `*int`, `Decode` succeeds and the value returned is the untyped nil,
which is no value of type `*int`; on the cursor of `[7]` the value returned is
a pointer to the `int` 7, of type `*int`. -/
theorem C10_null_is_untyped :
    cursorDecoder.Decode demoEnv demoClock
      { ref := demoStruct, keys := [bytesOf "Ref"] } (bytesOf "W251bGxd") =
        .ret (some [.nil], none) ∧
    (∀ v : GoValue, Iface.nil ≠ Iface.val v) ∧
    cursorDecoder.Decode demoEnv demoClock
      { ref := demoStruct, keys := [bytesOf "Ref"] } (bytesOf "Wzdd") =
        .ret (some [.val (.ptr (.int 7))], none) ∧
    (GoValue.ptr (.int 7)).type = .ptr .int := by
  exact ⟨by decide, fun v h => Iface.noConfusion h, by decide, rfl⟩

/-! ## The encoder -/

theorem derefValue_of_pointsTo {v : RValue} {fields : List FieldValue}
    (h : PointsToRecord v fields) : derefValue v = some fields := by
  induction h with
  | here fields => rfl
  | deref _ ih => simpa [derefValue] using ih

theorem fieldInterface_of_names (fields : List FieldValue) (key : Bytes) (val : GoValue)
    (h : NamesExported fields key val) :
    fieldInterface (some fields) key = .ret val := by
  obtain ⟨hkey, f, hfind, hexp, hval⟩ := h
  simp [fieldInterface, hkey, hfind, hexp, hval]

theorem collectFields_of_names (fields : List FieldValue) (keys : List Bytes)
    (vals : List GoValue)  (h : List.Forall₂ (NamesExported fields) keys vals) :
    collectFields (some fields) keys = .ret vals := by
  induction h with
  | nil => rfl
  | cons hk _ ih => simp [collectFields, fieldInterface_of_names fields _ _ hk, ih]

theorem intercalate_cons (e : Bytes) (es : List Bytes) :
    List.intercalate [44] (e :: es) = e ++ tailElems es := by
  induction es generalizing e with
  | nil => simp [List.intercalate, tailElems]
  | cons e2 rest ih =>
    have h := ih e2
    simp only [List.intercalate, List.intersperse_cons₂, List.flatten_cons] at h ⊢
    rw [h]
    simp [tailElems]

theorem marshalElems_tail (vals : List GoValue) (encs : List Bytes)
    (h : List.Forall₂ (fun val enc => marshalValue val = .ok enc) vals encs) :
    marshalElems vals false = .ok (tailElems encs) := by
  induction h with
  | nil => rfl
  | cons hv _ ih => simp [marshalElems, hv, ih, tailElems]

theorem jsonMarshal_of_encs (vals : List GoValue) (encs : List Bytes)
    (h : List.Forall₂ (fun val enc => marshalValue val = .ok enc) vals encs) :
    jsonMarshal vals = .ok (91 :: (List.intercalate [44] encs ++ [93])) := by
  cases h with
  | nil => rfl
  | cons hv hrest =>
    simp [jsonMarshal, marshalElems, hv, marshalElems_tail _ _ hrest, intercalate_cons]

theorem encode_of_encs (overKeys : Option (List (Bytes × Bytes))) (keys : List Bytes)
    (v : RValue) (fields : List FieldValue) (vals : List GoValue) (encs : List Bytes)
    (hv : PointsToRecord v fields)  (hk : List.Forall₂ (NamesExported fields) keys vals)
    (he : List.Forall₂ (fun val enc => marshalValue val = .ok enc) vals encs) :
    (NewCursorEncoder overKeys keys).Encode v =
      .ret (b64Encode (91 :: (List.intercalate [44] encs ++ [93])), none) := by
  simp [cursorEncoder.Encode, cursorEncoder.marshalJSON, NewCursorEncoder, toReflectValue,
    derefValue_of_pointsTo hv, collectFields_of_names fields keys vals hk,
    jsonMarshal_of_encs vals encs he]

/-- C2, as stated, fails: a key that names an unexported field makes `Encode`
panic, and a keyed field that holds a channel, which has no JSON encoding, makes
it return an error and no cursor. -/
theorem C2_counterexample :
    (NewCursorEncoder none [bytesOf "secret"]).Encode (.struct demoRecord) = .panics ∧
    (NewCursorEncoder none [bytesOf "ID", bytesOf "Done"]).Encode (.struct demoRecord) =
      .ret ([], some .unsupportedTypeError) := by
  decide

/-- C2, amended (`Encode` is base64 of the JSON array of the keyed values).  For
a record, or a chain of pointers to one, and keys `k1..kN` that each name an
exported field whose value has a JSON encoding, `Encode` returns, with no error,
the padded standard base64 text of `[`, the encodings of the fields `k1..kN` in
key order separated by commas, `]`: one element per key.  `Encode` is a function
of the keys and the record, so the result is the same on every call. -/
theorem C2_encode_exact (overKeys : Option (List (Bytes × Bytes))) (keys : List Bytes)
    (v : RValue) (fields : List FieldValue) (vals : List GoValue) (encs : List Bytes)
    (hv : PointsToRecord v fields)  (hk : List.Forall₂ (NamesExported fields) keys vals)
    (he : List.Forall₂ (fun val enc => marshalValue val = .ok enc) vals encs) :
    (NewCursorEncoder overKeys keys).Encode v =
      .ret (b64Encode ([91] ++ List.intercalate [44] encs ++ [93]), none) ∧
    encs.length = keys.length :=
  ⟨by simpa using encode_of_encs overKeys keys v fields vals encs hv hk he,
   by rw [← List.Forall₂.length_eq he, ← List.Forall₂.length_eq hk]⟩

/-- C2, amended, at the record `{ID: 5, Name: "foo", ...}` with the keys `ID`,
`Name`: the cursor is `WzUsImZvbyJd`, the base64 text of `[5,"foo"]`.  A string
of ill-formed UTF-8 has a JSON encoding too: for the record `{Name: "\xff"}`
and the key `Name` the cursor is `WyLvv70iXQ==`, the base64 text of the array of
the string literal that holds U+FFFD. -/
theorem C2_encode_exact_witness :
    (NewCursorEncoder none [bytesOf "ID", bytesOf "Name"]).Encode (.ptr (.struct demoRecord)) =
      .ret (b64Encode ([91] ++ List.intercalate [44] [bytesOf "5", bytesOf "\"foo\""] ++ [93]),
        none) ∧
    b64Encode ([91] ++ List.intercalate [44] [bytesOf "5", bytesOf "\"foo\""] ++ [93]) =
      bytesOf "WzUsImZvbyJd" ∧
    marshalValue (.str [255]) = .ok [34, 239, 191, 189, 34] ∧
    (NewCursorEncoder none [bytesOf "Name"]).Encode
        (.struct [⟨bytesOf "Name", true, .str [255]⟩]) =
      .ret (bytesOf "WyLvv70iXQ==", none) :=
  ⟨(C2_encode_exact none [bytesOf "ID", bytesOf "Name"] (.ptr (.struct demoRecord)) demoRecord
      [.int 5, .str (bytesOf "foo")] [bytesOf "5", bytesOf "\"foo\""]
      (PointsToRecord.deref (PointsToRecord.here demoRecord))
      (List.Forall₂.cons ⟨by decide, ⟨bytesOf "ID", true, .int 5⟩, by decide, rfl, rfl⟩
        (List.Forall₂.cons
          ⟨by decide, ⟨bytesOf "Name", true, .str (bytesOf "foo")⟩, by decide, rfl, rfl⟩
          List.Forall₂.nil))
      (List.Forall₂.cons (by rfl) (List.Forall₂.cons (by rfl) List.Forall₂.nil))).1,
   by decide, by rfl, by decide⟩

/-! ## Round trip: base64 -/

theorem b64Index_b64Char (v : Nat) (h : v < 64) : b64Index (b64Char v) = some v := by
  revert v
  decide

theorem b64_roundtrip_aux (bs : Bytes) (h : IsBytes bs) :
    b64DecodeAux (b64Encode bs) [] = some bs := by
  induction bs using b64Encode.induct with
  | case1 a b c rest ih =>
    have ha : a < 256 := h a (by simp)
    have hb : b < 256 := h b (by simp)
    have hc : c < 256 := h c (by simp)
    have hrest : IsBytes rest := fun x hx => h x (by simp [hx])
    simp only [b64Encode, b64DecodeAux]
    rw [b64Index_b64Char _ (Nat.mod_lt _ (by decide))]
    simp only [List.nil_append, b64DecodeAux]
    rw [b64Index_b64Char _ (Nat.mod_lt _ (by decide))]
    simp only [List.cons_append, List.nil_append, b64DecodeAux]
    rw [b64Index_b64Char _ (Nat.mod_lt _ (by decide))]
    simp only [List.cons_append, List.nil_append, b64DecodeAux]
    rw [b64Index_b64Char _ (Nat.mod_lt _ (by decide))]
    simp only [ih hrest, Option.map_some', Option.some.injEq, List.cons.injEq, and_true]
    refine ⟨?_, ?_, ?_⟩ <;> omega
  | case2 a b =>
    have ha : a < 256 := h a (by simp)
    have hb : b < 256 := h b (by simp)
    simp only [b64Encode, b64DecodeAux]
    rw [b64Index_b64Char _ (Nat.mod_lt _ (by decide))]
    simp only [List.nil_append, b64DecodeAux]
    rw [b64Index_b64Char _ (Nat.mod_lt _ (by decide))]
    simp only [List.cons_append, List.nil_append, b64DecodeAux]
    rw [b64Index_b64Char _ (Nat.mod_lt _ (by decide))]
    simp [b64DecodeAux, b64Index, skipNewlines]
    omega
  | case3 a =>
    have ha : a < 256 := h a (by simp)
    simp only [b64Encode, b64DecodeAux]
    rw [b64Index_b64Char _ (Nat.mod_lt _ (by decide))]
    simp only [List.nil_append, b64DecodeAux]
    rw [b64Index_b64Char _ (Nat.mod_lt _ (by decide))]
    simp [b64DecodeAux, b64Index, skipNewlines]
    omega
  | case4 => rfl

/-! ## Round trip: strconv -/

theorem parseDigits_append_digit (ds : Bytes) (d : Nat) (tl : Bytes) (a : Nat)
    (hd : isDigit d = true) :
    parseDigits (ds ++ d :: tl) a =
      (parseDigits ds a).bind (fun x => parseDigits tl (x * 10 + (d - 48))) := by
  induction ds generalizing a with
  | nil => simp [parseDigits, hd]
  | cons c rest ih =>
    simp only [List.cons_append, parseDigits]
    split
    · exact ih _
    · rfl

/-- The shape of `strconv.FormatUint(n, 10)`: decimal digits, no leading zero,
that read back as `n`. -/
theorem formatUintAux_spec (fuel n : Nat) (acc : Bytes) (h : n < fuel) :
    ∃ d ds, formatUintAux fuel n acc = d :: ds ++ acc ∧
      (∀ x ∈ d :: ds, isDigit x = true) ∧
      (n = 0 → d = 48 ∧ ds = []) ∧ (n ≠ 0 → 49 ≤ d) ∧
      (∀ a, parseDigits (d :: ds) a = some (a * 10 ^ (ds.length + 1) + n)) := by
  induction fuel generalizing n acc with
  | zero => omega
  | succ fuel ih =>
    unfold formatUintAux
    by_cases h0 : n / 10 = 0
    · have hn : n < 10 := by omega
      refine ⟨48 + n % 10, [], by simp [h0], ?_, ?_, ?_, ?_⟩
      · intro x hx
        simp only [List.mem_singleton] at hx
        subst hx
        simp [isDigit]
        omega
      · intro hz
        subst hz
        simp
      · intro hz
        omega
      · intro a
        simp only [parseDigits, isDigit]
        have : (decide (48 ≤ 48 + n % 10) && decide (48 + n % 10 ≤ 57)) = true := by
          simp
          omega
        simp only [this, if_true, List.length_nil, Nat.zero_add, pow_one, Option.some.injEq]
        omega
    · have hlt : n / 10 < fuel := by omega
      obtain ⟨d, ds, heq, hdig, _, hnz, hparse⟩ := ih (n / 10) ((48 + n % 10) :: acc) hlt
      have hlast : isDigit (48 + n % 10) = true := by
        simp [isDigit]
        omega
      refine ⟨d, ds ++ [48 + n % 10], by simp [h0, heq], ?_, ?_, ?_, ?_⟩
      · intro x hx
        simp only [List.mem_cons, List.mem_append, List.mem_singleton, List.not_mem_nil,
          or_false] at hx
        rcases hx with h1 | h1 | h1
        · exact hdig x (by simp [h1])
        · exact hdig x (by simp [h1])
        · rw [h1]; exact hlast
      · intro hz
        omega
      · intro _
        exact hnz h0
      · intro a
        have := parseDigits_append_digit (d :: ds) (48 + n % 10) [] a hlast
        simp only [List.cons_append] at this
        rw [this, hparse a]
        simp only [Option.some_bind, parseDigits, List.length_append, List.length_singleton,
          Option.some.injEq]
        have h1 : 48 + n % 10 - 48 = n % 10 := by omega
        rw [h1, pow_succ (n := ds.length + 1), ← Nat.mul_assoc]
        have h2 := Nat.div_add_mod n 10
        omega

theorem formatUint_spec (n : Nat) :
    ∃ d ds, formatUint n = d :: ds ∧
      (∀ x ∈ d :: ds, isDigit x = true) ∧
      (n = 0 → d = 48 ∧ ds = []) ∧ (n ≠ 0 → 49 ≤ d) ∧
      parseDigits (d :: ds) 0 = some n := by
  obtain ⟨d, ds, heq, hdig, hz, hnz, hparse⟩ := formatUintAux_spec (n + 1) n [] (by omega)
  exact ⟨d, ds, by simpa [formatUint] using heq, hdig, hz, hnz, by simpa using hparse 0⟩

theorem parseInt_formatInt (n : Int)
    (h : -9223372036854775808 ≤ n ∧ n ≤ 9223372036854775807) :
    parseInt (formatInt n) = some n := by
  obtain ⟨d, ds, heq, hdig, _, _, hparse⟩ := formatUint_spec n.natAbs
  have hd : isDigit d = true := hdig d (by simp)
  have hd2 : 48 ≤ d ∧ d ≤ 57 := by simpa [isDigit] using hd
  unfold formatInt
  by_cases hneg : n < 0
  · simp only [hneg, if_true, heq, parseInt]
    simp only [decide_True, or_true, if_true, hparse]
    have : n.natAbs ≤ 9223372036854775808 := by omega
    simp only [this, if_true, Option.some.injEq]
    omega
  · simp only [hneg, if_false, heq, parseInt]
    have h1 : ¬ (d = 43 ∨ d = 45) := by omega
    have h2 : decide (d = 45) = false := by simp; omega
    simp only [h1, if_false, hparse, h2]
    have : n.natAbs < 9223372036854775808 := by omega
    simp only [this, if_true, Bool.false_eq_true, if_false, Option.some.injEq]
    omega

/-! ## Round trip: UTF-8 -/

theorem utf8_induction (P : Bytes → Prop) (hnil : P [])
    (h1 : ∀ c rest, c < 128 → P rest → P (c :: rest))
    (h2 : ∀ b0 b1 rest, 194 ≤ b0 ∧ b0 ≤ 223 ∧ 128 ≤ b1 ∧ b1 ≤ 191 → P rest →
      P (b0 :: b1 :: rest))
    (h3 : ∀ b0 b1 b2 rest, utf8Three b0 b1 b2 = true → P rest → P (b0 :: b1 :: b2 :: rest))
    (h4 : ∀ b0 b1 b2 b3 rest, utf8Four b0 b1 b2 b3 = true → P rest →
      P (b0 :: b1 :: b2 :: b3 :: rest))
    (s : Bytes) (hs : utf8Valid s = true) : P s := by
  induction s using utf8Valid.induct with
  | case1 => exact hnil
  | case2 p0 rest hp ih =>
    unfold utf8Valid at hs
    simp only [hp, if_true] at hs
    exact h1 p0 rest hp (ih hs)
  | case3 p0 hp =>
    unfold utf8Valid at hs
    simp [hp] at hs
  | case4 p0 hp b1 tail hc ih =>
    unfold utf8Valid at hs
    simp only [hp, if_false, hc, and_self, if_true] at hs
    exact h2 p0 b1 tail hc (ih hs)
  | case5 p0 hp b1 hc =>
    unfold utf8Valid at hs
    simp [hp, hc] at hs
  | case6 p0 hp b1 hc b2 tail h3c ih =>
    unfold utf8Valid at hs
    simp only [hp, if_false, hc, h3c, if_true] at hs
    exact h3 p0 b1 b2 tail h3c (ih hs)
  | case7 p0 hp b1 hc b2 h3c =>
    unfold utf8Valid at hs
    simp [hp, hc, h3c] at hs
  | case8 p0 hp b1 hc b2 h3c b3 tail h4c ih =>
    unfold utf8Valid at hs
    simp only [hp, if_false, hc, h3c, h4c, if_true] at hs
    exact h4 p0 b1 b2 b3 tail h4c (ih hs)
  | case9 p0 hp b1 hc b2 h3c b3 tail h4c =>
    unfold utf8Valid at hs
    simp [hp, hc, h3c, h4c] at hs

theorem utf8Three_bounds {b0 b1 b2 : Nat} (h : utf8Three b0 b1 b2 = true) :
    224 ≤ b0 ∧ b0 ≤ 239 ∧ 128 ≤ b1 ∧ b1 ≤ 191 ∧ 128 ≤ b2 ∧ b2 ≤ 191 ∧
    (b0 = 224 → 160 ≤ b1) ∧ (b0 = 237 → b1 ≤ 159) := by
  simp only [utf8Three, Bool.and_eq_true, Bool.or_eq_true, decide_eq_true_eq] at h
  omega

theorem utf8Four_bounds {b0 b1 b2 b3 : Nat} (h : utf8Four b0 b1 b2 b3 = true) :
    240 ≤ b0 ∧ b0 ≤ 244 ∧ 128 ≤ b1 ∧ b1 ≤ 191 ∧ 128 ≤ b2 ∧ b2 ≤ 191 ∧ 128 ≤ b3 ∧ b3 ≤ 191 ∧
    (b0 = 240 → 144 ≤ b1) ∧ (b0 = 244 → b1 ≤ 143) := by
  simp only [utf8Four, Bool.and_eq_true, Bool.or_eq_true, decide_eq_true_eq] at h
  omega

theorem decodeRune_two (b0 b1 : Nat) (rest : Bytes)
    (h : 194 ≤ b0 ∧ b0 ≤ 223 ∧ 128 ≤ b1 ∧ b1 ≤ 191) :
    decodeRune (b0 :: b1 :: rest) = (b0 % 32 * 64 + b1 % 64, 2) := by
  have c1 : ¬ b0 < 128 := by omega
  have c2 : ¬ (b0 < 194 ∨ 245 ≤ b0) := by omega
  have c3 : b0 < 224 := by omega
  have c4 : ¬ b0 = 224 := by omega
  have c5 : ¬ b0 = 240 := by omega
  have c6 : ¬ b0 = 237 := by omega
  have c7 : ¬ b0 = 244 := by omega
  have c8 : ¬ (b1 < 128 ∨ 191 < b1) := by omega
  simp [decodeRune, c1, c2, c3, c4, c5, c6, c7, c8]

theorem decodeRune_three (b0 b1 b2 : Nat) (rest : Bytes) (h : utf8Three b0 b1 b2 = true) :
    decodeRune (b0 :: b1 :: b2 :: rest) = (b0 % 16 * 4096 + b1 % 64 * 64 + b2 % 64, 3) := by
  have hb := utf8Three_bounds h
  have c1 : ¬ b0 < 128 := by omega
  have c2 : ¬ (b0 < 194 ∨ 245 ≤ b0) := by omega
  have c3 : ¬ b0 < 224 := by omega
  have c3b : b0 < 240 := by omega
  have c5 : ¬ b0 = 240 := by omega
  have c7 : ¬ b0 = 244 := by omega
  have c9 : ¬ (b2 < 128 ∨ 191 < b2) := by omega
  have c8 : ¬ (b1 < (if b0 = 224 then 160 else 128) ∨ (if b0 = 237 then 159 else 191) < b1) := by
    split_ifs <;> omega
  simp [decodeRune, c1, c2, c3, c3b, c5, c7, c8, c9]

theorem decodeRune_four (b0 b1 b2 b3 : Nat) (rest : Bytes) (h : utf8Four b0 b1 b2 b3 = true) :
    decodeRune (b0 :: b1 :: b2 :: b3 :: rest) =
      (b0 % 8 * 262144 + b1 % 64 * 4096 + b2 % 64 * 64 + b3 % 64, 4) := by
  have hb := utf8Four_bounds h
  have c1 : ¬ b0 < 128 := by omega
  have c2 : ¬ (b0 < 194 ∨ 245 ≤ b0) := by omega
  have c3 : ¬ b0 < 224 := by omega
  have c3b : ¬ b0 < 240 := by omega
  have c4 : ¬ b0 = 224 := by omega
  have c6 : ¬ b0 = 237 := by omega
  have c9 : ¬ (b2 < 128 ∨ 191 < b2) := by omega
  have c10 : ¬ (b3 < 128 ∨ 191 < b3) := by omega
  have c8 : ¬ (b1 < (if b0 = 240 then 144 else 128) ∨ (if b0 = 244 then 143 else 191) < b1) := by
    split_ifs <;> omega
  simp [decodeRune, c1, c2, c3, c3b, c4, c6, c8, c9, c10]

theorem encodeRune_two (b0 b1 : Nat) (h : 194 ≤ b0 ∧ b0 ≤ 223 ∧ 128 ≤ b1 ∧ b1 ≤ 191) :
    encodeRune (b0 % 32 * 64 + b1 % 64) = [b0, b1] := by
  have c1 : ¬ (b0 % 32 * 64 + b1 % 64 ≤ 127) := by omega
  have c2 : b0 % 32 * 64 + b1 % 64 ≤ 2047 := by omega
  simp only [encodeRune, c1, c2, if_false, if_true, List.cons.injEq, and_true]
  constructor <;> omega

theorem encodeRune_three (b0 b1 b2 : Nat) (h : utf8Three b0 b1 b2 = true) :
    encodeRune (b0 % 16 * 4096 + b1 % 64 * 64 + b2 % 64) = [b0, b1, b2] := by
  have hb := utf8Three_bounds h
  have c1 : ¬ (b0 % 16 * 4096 + b1 % 64 * 64 + b2 % 64 ≤ 127) := by omega
  have c2 : ¬ (b0 % 16 * 4096 + b1 % 64 * 64 + b2 % 64 ≤ 2047) := by omega
  have c3 : ¬ (1114111 < b0 % 16 * 4096 + b1 % 64 * 64 + b2 % 64 ∨
      (55296 ≤ b0 % 16 * 4096 + b1 % 64 * 64 + b2 % 64 ∧
        b0 % 16 * 4096 + b1 % 64 * 64 + b2 % 64 ≤ 57343)) := by omega
  have c4 : b0 % 16 * 4096 + b1 % 64 * 64 + b2 % 64 ≤ 65535 := by omega
  simp only [encodeRune, c1, c2, c3, c4, if_false, if_true, List.cons.injEq, and_true]
  refine ⟨?_, ?_, ?_⟩ <;> omega

theorem encodeRune_four (b0 b1 b2 b3 : Nat) (h : utf8Four b0 b1 b2 b3 = true) :
    encodeRune (b0 % 8 * 262144 + b1 % 64 * 4096 + b2 % 64 * 64 + b3 % 64) =
      [b0, b1, b2, b3] := by
  have hb := utf8Four_bounds h
  have c1 : ¬ (b0 % 8 * 262144 + b1 % 64 * 4096 + b2 % 64 * 64 + b3 % 64 ≤ 127) := by omega
  have c2 : ¬ (b0 % 8 * 262144 + b1 % 64 * 4096 + b2 % 64 * 64 + b3 % 64 ≤ 2047) := by omega
  have c3 : ¬ (1114111 < b0 % 8 * 262144 + b1 % 64 * 4096 + b2 % 64 * 64 + b3 % 64 ∨
      (55296 ≤ b0 % 8 * 262144 + b1 % 64 * 4096 + b2 % 64 * 64 + b3 % 64 ∧
        b0 % 8 * 262144 + b1 % 64 * 4096 + b2 % 64 * 64 + b3 % 64 ≤ 57343)) := by omega
  have c4 : ¬ (b0 % 8 * 262144 + b1 % 64 * 4096 + b2 % 64 * 64 + b3 % 64 ≤ 65535) := by omega
  simp only [encodeRune, c1, c2, c3, c4, if_false, List.cons.injEq, and_true]
  refine ⟨?_, ?_, ?_, ?_⟩ <;> omega

/-! ## Round trip: string literals -/

theorem appendStringAux_zero (s : Bytes) (copy : Bool) :
    appendStringAux s 0 copy = appendStringAux s 0 true := by
  cases s with
  | nil => simp [appendStringAux]
  | cons c rest => simp [appendStringAux]

theorem chunk_escapeByte (c : Nat) (h : c < 128) : Chunk [c] (escapeByte c) := by
  unfold escapeByte
  split_ifs with h1 h2 h3 h4 h5 h6 h7
  · exact Chunk.safe c (by omega)
  · rcases h2 with h2 | h2
    · subst h2; exact Chunk.short 92 92 (by simp)
    · subst h2; exact Chunk.short 34 34 (by simp)
  · exact Chunk.short c 98 (by simp [h3])
  · exact Chunk.short c 102 (by simp [h4])
  · exact Chunk.short c 110 (by simp [h5])
  · exact Chunk.short c 114 (by simp [h6])
  · exact Chunk.short c 116 (by simp [h7])
  · exact Chunk.hex c (by omega)

theorem chunks_of_valid (s : Bytes) (hs : utf8Valid s = true) :
    Chunks s (appendStringAux s 0 true) := by
  refine utf8_induction (fun s => Chunks s (appendStringAux s 0 true)) ?_ ?_ ?_ ?_ ?_ s hs
  · simpa [appendStringAux] using Chunks.nil
  · intro c rest hc ih
    have : appendStringAux (c :: rest) 0 true = escapeByte c ++ appendStringAux rest 0 true := by
      simp [appendStringAux, hc]
    rw [this]
    exact Chunks.cons (o := [c]) (chunk_escapeByte c hc) ih
  · intro b0 b1 rest h ih
    have c1 : ¬ b0 < 128 := by omega
    have e : appendStringAux (b0 :: b1 :: rest) 0 true =
        [b0, b1] ++ appendStringAux rest 0 true := by
      have hr : ¬ (b0 % 32 * 64 + b1 % 64 = 8232 ∨ b0 % 32 * 64 + b1 % 64 = 8233) := by omega
      have hr2 : ¬ (b0 % 32 * 64 + b1 % 64 = runeError) := by unfold runeError; omega
      simp [appendStringAux, c1, decodeRune_two b0 b1 rest h, hr, hr2]
    rw [e]
    exact Chunks.cons (o := [b0, b1]) (Chunk.two b0 b1 h) ih
  · intro b0 b1 b2 rest h ih
    have hb := utf8Three_bounds h
    have c1 : ¬ b0 < 128 := by omega
    by_cases hsep : b0 % 16 * 4096 + b1 % 64 * 64 + b2 % 64 = 8232 ∨
        b0 % 16 * 4096 + b1 % 64 * 64 + b2 % 64 = 8233
    · have h0 : b0 = 226 := by omega
      have h1 : b1 = 128 := by omega
      have h2 : b2 = 168 ∨ b2 = 169 := by omega
      have hx : hexDigit ((b0 % 16 * 4096 + b1 % 64 * 64 + b2 % 64) % 16) = b2 - 112 := by
        unfold hexDigit
        split_ifs <;> omega
      have e : appendStringAux (b0 :: b1 :: b2 :: rest) 0 true =
          [92, 117, 50, 48, 50, b2 - 112] ++ appendStringAux rest 0 true := by
        simp [appendStringAux, c1, decodeRune_three b0 b1 b2 rest h, hsep, hx,
          appendStringAux_zero rest false]
      rw [e, h0, h1]
      exact Chunks.cons (o := [226, 128, b2]) (Chunk.separator b2 h2) ih
    · have e : appendStringAux (b0 :: b1 :: b2 :: rest) 0 true =
          [b0, b1, b2] ++ appendStringAux rest 0 true := by
        simp [appendStringAux, c1, decodeRune_three b0 b1 b2 rest h, hsep]
      rw [e]
      exact Chunks.cons (o := [b0, b1, b2]) (Chunk.three b0 b1 b2 h) ih
  · intro b0 b1 b2 b3 rest h ih
    have hb := utf8Four_bounds h
    have c1 : ¬ b0 < 128 := by omega
    have e : appendStringAux (b0 :: b1 :: b2 :: b3 :: rest) 0 true =
        [b0, b1, b2, b3] ++ appendStringAux rest 0 true := by
      have hr : ¬ (b0 % 8 * 262144 + b1 % 64 * 4096 + b2 % 64 * 64 + b3 % 64 = 8232 ∨
          b0 % 8 * 262144 + b1 % 64 * 4096 + b2 % 64 * 64 + b3 % 64 = 8233) := by omega
      simp [appendStringAux, c1, decodeRune_four b0 b1 b2 b3 rest h, hr]
    rw [e]
    exact Chunks.cons (o := [b0, b1, b2, b3]) (Chunk.four b0 b1 b2 b3 h) ih

theorem hexDigit_isHex (v : Nat) (h : v < 16) : isHex (hexDigit v) = true := by
  revert v; decide

theorem hexVal_hexDigit (v : Nat) (h : v < 16) : hexVal (hexDigit v) = some v := by
  revert v; decide

theorem hexDigit_bounds (v : Nat) (h : v < 16) :
    48 ≤ hexDigit v ∧ hexDigit v ≤ 102 ∧ hexDigit v ≠ 92 := by
  revert v; decide

/-- The scanner inside a string literal, on a byte, with the step it moves to. -/
theorem next_inString (endTop : Bool) (ps : List ParseState) (err : Bool)
    (c : Nat) :
    (Scanner.mk .inString endTop ps err).next c =
      if c = 34 then (Scanner.mk .endValue endTop ps err, .scanContinue)
      else if c = 92 then (Scanner.mk .inStringEsc endTop ps err, .scanContinue)
      else if c < 32 then (Scanner.mk .error endTop ps true, .scanError)
      else (Scanner.mk .inString endTop ps err, .scanContinue) := by
  simp [Scanner.next, Scanner.fail]

theorem next_escU (endTop : Bool) (ps : List ParseState) (err : Bool) (c : Nat)
    (h : isHex c = true) :
    (Scanner.mk .inStringEscU endTop ps err).next c =
        (Scanner.mk .inStringEscU1 endTop ps err, .scanContinue) ∧
    (Scanner.mk .inStringEscU1 endTop ps err).next c =
        (Scanner.mk .inStringEscU12 endTop ps err, .scanContinue) ∧
    (Scanner.mk .inStringEscU12 endTop ps err).next c =
        (Scanner.mk .inStringEscU123 endTop ps err, .scanContinue) ∧
    (Scanner.mk .inStringEscU123 endTop ps err).next c =
        (Scanner.mk .inString endTop ps err, .scanContinue) := by
  simp [Scanner.next, h]

theorem next_esc (endTop : Bool) (ps : List ParseState) (err : Bool) :
    (Scanner.mk .inString endTop ps err).next 92 =
        (Scanner.mk .inStringEsc endTop ps err, .scanContinue) ∧
    (Scanner.mk .inStringEsc endTop ps err).next 117 =
        (Scanner.mk .inStringEscU endTop ps err, .scanContinue) := by
  simp [Scanner.next]

theorem scanQuiet_uescape (endTop : Bool) (ps : List ParseState) (err : Bool)
    (h1 h2 h3 h4 : Nat) (x1 : isHex h1 = true) (x2 : isHex h2 = true) (x3 : isHex h3 = true)
    (x4 : isHex h4 = true) :
    scanQuiet (Scanner.mk .inString endTop ps err) [92, 117, h1, h2, h3, h4] =
      some (Scanner.mk .inString endTop ps err) := by
  simp [scanQuiet, (next_esc endTop ps err).1, (next_esc endTop ps err).2,
    (next_escU endTop ps err h1 x1).1, (next_escU endTop ps err h2 x2).2.1,
    (next_escU endTop ps err h3 x3).2.2.1, (next_escU endTop ps err h4 x4).2.2.2]

theorem scanQuiet_chunk (endTop : Bool) (ps : List ParseState) (err : Bool) {o c : Bytes}
    (h : Chunk o c) :
    scanQuiet (Scanner.mk .inString endTop ps err) c = some (Scanner.mk .inString endTop ps err) := by
  cases h with
  | safe c h =>
    have h1 : ¬ c = 34 := by omega
    have h2 : ¬ c = 92 := by omega
    have h3 : ¬ c < 32 := by omega
    simp [scanQuiet, Scanner.next, h1, h2, h3]
  | short c e h =>
    have he : e = 98 ∨ e = 102 ∨ e = 110 ∨ e = 114 ∨ e = 116 ∨ e = 92 ∨ e = 47 ∨ e = 34 := by
      omega
    simp [scanQuiet, Scanner.next, he]
  | hex c h =>
    have hc : c < 128 := by omega
    exact scanQuiet_uescape endTop ps err 48 48 _ _ (by decide) (by decide)
      (hexDigit_isHex (c / 16) (by omega)) (hexDigit_isHex (c % 16) (by omega))
  | two b0 b1 h =>
    have h1 : ¬ b0 = 34 := by omega
    have h2 : ¬ b0 = 92 := by omega
    have h3 : ¬ b0 < 32 := by omega
    have h4 : ¬ b1 = 34 := by omega
    have h5 : ¬ b1 = 92 := by omega
    have h6 : ¬ b1 < 32 := by omega
    simp [scanQuiet, Scanner.next, h1, h2, h3, h4, h5, h6]
  | three b0 b1 b2 h =>
    have hb := utf8Three_bounds h
    have h1 : ¬ b0 = 34 := by omega
    have h2 : ¬ b0 = 92 := by omega
    have h3 : ¬ b0 < 32 := by omega
    have h4 : ¬ b1 = 34 := by omega
    have h5 : ¬ b1 = 92 := by omega
    have h6 : ¬ b1 < 32 := by omega
    have h7 : ¬ b2 = 34 := by omega
    have h8 : ¬ b2 = 92 := by omega
    have h9 : ¬ b2 < 32 := by omega
    simp [scanQuiet, Scanner.next, h1, h2, h3, h4, h5, h6, h7, h8, h9]
  | separator b2 h =>
    have x : isHex (b2 - 112) = true := by rcases h with h | h <;> subst h <;> decide
    exact scanQuiet_uescape endTop ps err 50 48 50 _ (by decide) (by decide) (by decide) x
  | four b0 b1 b2 b3 h =>
    have hb := utf8Four_bounds h
    have h1 : ¬ b0 = 34 := by omega
    have h2 : ¬ b0 = 92 := by omega
    have h3 : ¬ b0 < 32 := by omega
    have h4 : ¬ b1 = 34 := by omega
    have h5 : ¬ b1 = 92 := by omega
    have h6 : ¬ b1 < 32 := by omega
    have h7 : ¬ b2 = 34 := by omega
    have h8 : ¬ b2 = 92 := by omega
    have h9 : ¬ b2 < 32 := by omega
    have h10 : ¬ b3 = 34 := by omega
    have h11 : ¬ b3 = 92 := by omega
    have h12 : ¬ b3 < 32 := by omega
    simp [scanQuiet, Scanner.next, h1, h2, h3, h4, h5, h6, h7, h8, h9, h10, h11, h12]

theorem scanQuiet_append (s : Scanner) (a b : Bytes) :
    scanQuiet s (a ++ b) = (scanQuiet s a).bind (fun s2 => scanQuiet s2 b) := by
  induction a generalizing s with
  | nil => simp [scanQuiet]
  | cons c rest ih =>
    simp only [List.cons_append, scanQuiet]
    split_ifs
    · exact ih _
    · rfl

theorem scanQuiet_chunks (endTop : Bool) (ps : List ParseState) (err : Bool) {s b : Bytes}
    (h : Chunks s b) :
    scanQuiet (Scanner.mk .inString endTop ps err) b = some (Scanner.mk .inString endTop ps err) := by
  induction h with
  | nil => rfl
  | cons hc _ ih => rw [scanQuiet_append, scanQuiet_chunk endTop ps err hc]; exact ih

theorem chunk_isBytes {o c : Bytes} (h : Chunk o c) : IsBytes c := by
  cases h with
  | safe c h => intro x hx; simp at hx; omega
  | short c e h => intro x hx; simp at hx; omega
  | hex c h =>
    have hc : c < 128 := by omega
    have h1 := hexDigit_bounds (c / 16) (by omega)
    have h2 := hexDigit_bounds (c % 16) (by omega)
    intro x hx
    simp at hx
    omega
  | two b0 b1 h => intro x hx; simp at hx; omega
  | three b0 b1 b2 h =>
    have hb := utf8Three_bounds h
    intro x hx; simp at hx; omega
  | separator b2 h => intro x hx; simp at hx; omega
  | four b0 b1 b2 b3 h =>
    have hb := utf8Four_bounds h
    intro x hx; simp at hx; omega

theorem chunks_isBytes {s b : Bytes} (h : Chunks s b) : IsBytes b := by
  induction h with
  | nil => intro x hx; simp at hx
  | cons hc _ ih =>
    intro x hx
    rcases List.mem_append.mp hx with h1 | h1
    · exact chunk_isBytes hc x h1
    · exact ih x h1

theorem stringLiteralRest_plain (c : Nat) (rest : Bytes) (h1 : c ≠ 92) (h2 : c ≠ 34) :
    stringLiteralRest (c :: rest) false = c :: stringLiteralRest rest false := by
  simp [stringLiteralRest, h1, h2]

theorem stringLiteralRest_esc (e : Nat) (rest : Bytes) :
    stringLiteralRest (92 :: e :: rest) false = 92 :: e :: stringLiteralRest rest false := by
  simp [stringLiteralRest]

theorem stringLiteralRest_chunk {o c : Bytes} (h : Chunk o c) (y : Bytes) :
    stringLiteralRest (c ++ y) false = c ++ stringLiteralRest y false := by
  cases h with
  | safe c h => exact stringLiteralRest_plain c y (by omega) (by omega)
  | short c e h => exact stringLiteralRest_esc e y
  | hex c h =>
    have hc : c < 128 := by omega
    have h1 := hexDigit_bounds (c / 16) (by omega)
    have h2 := hexDigit_bounds (c % 16) (by omega)
    simp only [List.cons_append, List.nil_append]
    rw [stringLiteralRest_esc, stringLiteralRest_plain 48 _ (by decide) (by decide),
      stringLiteralRest_plain 48 _ (by decide) (by decide),
      stringLiteralRest_plain _ _ (by omega) (by omega),
      stringLiteralRest_plain _ _ (by omega) (by omega)]
  | two b0 b1 h =>
    simp only [List.cons_append, List.nil_append]
    rw [stringLiteralRest_plain _ _ (by omega) (by omega),
      stringLiteralRest_plain _ _ (by omega) (by omega)]
  | three b0 b1 b2 h =>
    have hb := utf8Three_bounds h
    simp only [List.cons_append, List.nil_append]
    rw [stringLiteralRest_plain _ _ (by omega) (by omega),
      stringLiteralRest_plain _ _ (by omega) (by omega),
      stringLiteralRest_plain _ _ (by omega) (by omega)]
  | separator b2 h =>
    simp only [List.cons_append, List.nil_append]
    rw [stringLiteralRest_esc, stringLiteralRest_plain 50 _ (by decide) (by decide),
      stringLiteralRest_plain 48 _ (by decide) (by decide),
      stringLiteralRest_plain 50 _ (by decide) (by decide),
      stringLiteralRest_plain _ _ (by omega) (by omega)]
  | four b0 b1 b2 b3 h =>
    have hb := utf8Four_bounds h
    simp only [List.cons_append, List.nil_append]
    rw [stringLiteralRest_plain _ _ (by omega) (by omega),
      stringLiteralRest_plain _ _ (by omega) (by omega),
      stringLiteralRest_plain _ _ (by omega) (by omega),
      stringLiteralRest_plain _ _ (by omega) (by omega)]

theorem stringLiteralRest_chunks {s b : Bytes} (h : Chunks s b) (y : Bytes) :
    stringLiteralRest (b ++ 34 :: y) false = b ++ [34] := by
  induction h with
  | nil => simp [stringLiteralRest]
  | cons hc _ ih => rw [List.append_assoc, stringLiteralRest_chunk hc, ih, List.append_assoc]

theorem isPlainAux_raw (c : Nat) (rest : Bytes) (r n : Nat) (h : 128 ≤ c)
    (hd : decodeRune (c :: rest) = (r, n)) (hn : n ≠ 1) :
    isPlainAux (c :: rest) 0 = isPlainAux rest (n - 1) := by
  have h1 : ¬ (c = 92 ∨ c = 34 ∨ c < 32) := by omega
  have h2 : ¬ c < 128 := by omega
  simp [isPlainAux, h1, h2, hd, hn]

theorem isPlainAux_chunks {s b : Bytes} (h : Chunks s b) (hp : isPlainAux b 0 = true) :
    b = s := by
  induction h with
  | nil => rfl
  | cons hc _ ih =>
    cases hc with
    | safe c h =>
      have h1 : ¬ (c = 92 ∨ c = 34 ∨ c < 32) := by omega
      have h2 : c < 128 := by omega
      simp only [List.cons_append, List.nil_append, isPlainAux, h1, h2, if_false, if_true] at hp
      rw [ih hp]
    | short c e h => simp [isPlainAux] at hp
    | hex c h => simp [isPlainAux] at hp
    | two b0 b1 h =>
      simp only [List.cons_append, List.nil_append] at hp ⊢
      rw [isPlainAux_raw b0 _ _ 2 (by omega) (decodeRune_two b0 b1 _ h) (by decide)] at hp
      simp only [isPlainAux] at hp
      rw [ih hp]
    | three b0 b1 b2 h =>
      have hb := utf8Three_bounds h
      simp only [List.cons_append, List.nil_append] at hp ⊢
      rw [isPlainAux_raw b0 _ _ 3 (by omega) (decodeRune_three b0 b1 b2 _ h) (by decide)] at hp
      simp only [isPlainAux] at hp
      rw [ih hp]
    | separator b2 h => simp [isPlainAux] at hp
    | four b0 b1 b2 b3 h =>
      have hb := utf8Four_bounds h
      simp only [List.cons_append, List.nil_append] at hp ⊢
      rw [isPlainAux_raw b0 _ _ 4 (by omega) (decodeRune_four b0 b1 b2 b3 _ h) (by decide)] at hp
      simp only [isPlainAux] at hp
      rw [ih hp]

theorem unquoteAux_skip (bs y : Bytes) :
    unquoteAux (bs ++ y) bs.length = unquoteAux y 0 := by
  induction bs with
  | nil => rfl
  | cons c rest ih => simpa [unquoteAux] using ih

theorem unquoteAux_short (c e : Nat) (y : Bytes)
    (h : (c = 92 ∧ e = 92) ∨ (c = 34 ∧ e = 34) ∨ (c = 8 ∧ e = 98) ∨ (c = 12 ∧ e = 102) ∨
      (c = 10 ∧ e = 110) ∨ (c = 13 ∧ e = 114) ∨ (c = 9 ∧ e = 116)) :
    unquoteAux (92 :: e :: y) 0 = (unquoteAux y 0).map (fun t => c :: t) := by
  rcases h with ⟨rfl, rfl⟩ | ⟨rfl, rfl⟩ | ⟨rfl, rfl⟩ | ⟨rfl, rfl⟩ | ⟨rfl, rfl⟩ | ⟨rfl, rfl⟩ |
    ⟨rfl, rfl⟩ <;> simp [unquoteAux]

theorem unquoteAux_uescape (h1 h2 h3 h4 a b c d r : Nat) (y : Bytes)
    (x1 : hexVal h1 = some a) (x2 : hexVal h2 = some b) (x3 : hexVal h3 = some c)
    (x4 : hexVal h4 = some d) (hr : ((a * 16 + b) * 16 + c) * 16 + d = r)
    (hs : isSurrogate r = false) :
    unquoteAux (92 :: 117 :: h1 :: h2 :: h3 :: h4 :: y) 0 =
      (unquoteAux y 0).map (fun t => encodeRune r ++ t) := by
  have hy := unquoteAux_skip [117, h1, h2, h3, h4] y
  simp only [List.cons_append, List.nil_append, List.length_cons, List.length_nil] at hy
  have hg : getu4 (92 :: 117 :: h1 :: h2 :: h3 :: h4 :: y) = some r := by
    simp [getu4, x1, x2, x3, x4, hr]
  rw [unquoteAux]
  simp only [if_true]
  have e1 : ¬ (117 = 34 ∨ 117 = 92 ∨ 117 = 47 ∨ 117 = 39) := by decide
  simp only [e1, if_false, show ¬ (117 = 98) by decide, show ¬ (117 = 102) by decide,
    show ¬ (117 = 110) by decide, show ¬ (117 = 114) by decide, show ¬ (117 = 116) by decide,
    if_true, hg, hs, Bool.false_eq_true]
  exact congrArg _ hy

theorem unquoteAux_raw (c : Nat) (rest : Bytes) (r n : Nat) (h : 128 ≤ c)
    (hd : decodeRune (c :: rest) = (r, n)) :
    unquoteAux (c :: rest) 0 = (unquoteAux rest (n - 1)).map (fun t => encodeRune r ++ t) := by
  have h1 : ¬ c = 92 := by omega
  have h2 : ¬ (c = 34 ∨ c < 32) := by omega
  have h3 : ¬ c < 128 := by omega
  simp [unquoteAux, h1, h2, h3, hd]

theorem unquoteAux_chunk {o c : Bytes} (h : Chunk o c) (y : Bytes) :
    unquoteAux (c ++ y) 0 = (unquoteAux y 0).map (fun t => o ++ t) := by
  cases h with
  | safe c h =>
    have h1 : ¬ c = 92 := by omega
    have h2 : ¬ (c = 34 ∨ c < 32) := by omega
    have h3 : c < 128 := by omega
    simp [unquoteAux, h1, h2, h3]
  | short c e h => exact unquoteAux_short c e y h
  | hex c h =>
    have hc : c < 128 := by omega
    have x3 : hexVal (hexDigit (c / 16)) = some (c / 16) := hexVal_hexDigit _ (by omega)
    have x4 : hexVal (hexDigit (c % 16)) = some (c % 16) := hexVal_hexDigit _ (by omega)
    have hv : ((0 * 16 + 0) * 16 + c / 16) * 16 + c % 16 = c := by omega
    have hsur : isSurrogate c = false := by simp [isSurrogate]; omega
    have e := unquoteAux_uescape 48 48 (hexDigit (c / 16)) (hexDigit (c % 16)) 0 0 (c / 16)
      (c % 16) c y (by decide) (by decide) x3 x4 hv hsur
    have henc : encodeRune c = [c] := by simp [encodeRune]; omega
    rw [henc] at e
    exact e
  | two b0 b1 h =>
    simp only [List.cons_append, List.nil_append]
    rw [unquoteAux_raw b0 _ _ 2 (by omega) (decodeRune_two b0 b1 y h), encodeRune_two b0 b1 h]
    simp [unquoteAux]
  | three b0 b1 b2 h =>
    have hb := utf8Three_bounds h
    simp only [List.cons_append, List.nil_append]
    rw [unquoteAux_raw b0 _ _ 3 (by omega) (decodeRune_three b0 b1 b2 y h),
      encodeRune_three b0 b1 b2 h]
    simp [unquoteAux]
  | separator b2 h =>
    rcases h with rfl | rfl
    · exact unquoteAux_uescape 50 48 50 56 2 0 2 8 8232 y (by decide) (by decide) (by decide)
        (by decide) (by decide) (by decide)
    · exact unquoteAux_uescape 50 48 50 57 2 0 2 9 8233 y (by decide) (by decide) (by decide)
        (by decide) (by decide) (by decide)
  | four b0 b1 b2 b3 h =>
    have hb := utf8Four_bounds h
    simp only [List.cons_append, List.nil_append]
    rw [unquoteAux_raw b0 _ _ 4 (by omega) (decodeRune_four b0 b1 b2 b3 y h),
      encodeRune_four b0 b1 b2 b3 h]
    simp [unquoteAux]

theorem unquoteAux_chunks {s b : Bytes} (h : Chunks s b) : unquoteAux b 0 = some s := by
  induction h with
  | nil => rfl
  | cons hc _ ih => rw [unquoteAux_chunk hc, ih]; simp

theorem unquoteBytes_appendString (s : Bytes) (hs : utf8Valid s = true) :
    unquoteBytes (appendString s) = some s := by
  have hc := chunks_of_valid s hs
  have h1 : (appendString s).length ≥ 2 := by simp [appendString]
  have h2 : (appendString s).head? = some 34 := by simp [appendString]
  have h3 : (appendString s).getLast? = some 34 := by
    have e : appendString s = (34 :: appendStringAux s 0 true) ++ [34] := rfl
    rw [e, List.getLast?_append]
    rfl
  have h4 : ((appendString s).drop 1).dropLast = appendStringAux s 0 true := by
    simp [appendString]
  have hcond : ¬ ((appendString s).length < 2 ∨ (appendString s).head? ≠ some 34 ∨
      (appendString s).getLast? ≠ some 34) := by
    simp [h2, h3]; omega
  unfold unquoteBytes
  simp only [hcond, if_false, h4]
  by_cases hp : isPlainAux (appendStringAux s 0 true) 0 = true
  · rw [if_pos hp, isPlainAux_chunks hc hp]
  · rw [if_neg hp, unquoteAux_chunks hc]

theorem literalItem_appendString (s : Bytes) (hs : utf8Valid s = true) :
    literalItem (appendString s) = appendString s := by
  have hc := chunks_of_valid s hs
  have := stringLiteralRest_chunks hc []
  simp [literalItem, appendString, this]

/-! ## Round trip: the scanner on encoded values -/

theorem scanQuiet_digits (endTop : Bool) (ps : List ParseState) (err : Bool) (ds : Bytes)
    (h : ∀ x ∈ ds, isDigit x = true) :
    scanQuiet (Scanner.mk .s1 endTop ps err) ds = some (Scanner.mk .s1 endTop ps err) := by
  induction ds with
  | nil => rfl
  | cons d rest ih =>
    have hd : isDigit d = true := h d (by simp)
    simp only [scanQuiet, Scanner.next, hd, if_true, true_or]
    exact ih (fun x hx => h x (by simp [hx]))

theorem stateBeginValue_step (step0 : ScanStep) (endTop : Bool) (ps : List ParseState)
    (err : Bool) (c : Nat) (h0 : step0 = .beginValue ∨ step0 = .beginValueOrEmpty)
    (hs : isSpace c = false) (hc : c ≠ 93) :
    (Scanner.mk step0 endTop ps err).next c =
      stateBeginValue (Scanner.mk step0 endTop ps err) c := by
  rcases h0 with rfl | rfl <;> simp [Scanner.next, hs, hc]

theorem scanQuiet_formatInt (n : Int) (step0 : ScanStep) (endTop : Bool)
    (ps : List ParseState) (err : Bool)
    (h0 : step0 = .beginValue ∨ step0 = .beginValueOrEmpty) :
    ∃ st, (st = ScanStep.endValue ∨ st = .s1 ∨ st = .s0) ∧
      scanQuiet (Scanner.mk step0 endTop ps err) (formatInt n) =
        some (Scanner.mk st endTop ps err) := by
  obtain ⟨d, ds, heq, hdig, hz, hnz, _⟩ := formatUint_spec n.natAbs
  have hd : isDigit d = true := hdig d (by simp)
  have hd2 : 48 ≤ d ∧ d ≤ 57 := by simpa [isDigit] using hd
  have hds : ∀ x ∈ ds, isDigit x = true := fun x hx => hdig x (by simp [hx])
  unfold formatInt
  by_cases hneg : n < 0
  · have hne : n.natAbs ≠ 0 := by omega
    have hd3 := hnz hne
    refine ⟨.s1, Or.inr (Or.inl rfl), ?_⟩
    simp only [hneg, if_true, heq, scanQuiet]
    rw [stateBeginValue_step step0 endTop ps err 45 h0 (by decide) (by decide)]
    have e1 : stateBeginValue (Scanner.mk step0 endTop ps err) 45 =
        (Scanner.mk .neg endTop ps err, .scanBeginLiteral) := by
      simp [stateBeginValue, isSpace]
    have hd48 : ¬ d = 48 := by omega
    have hd49 : 49 ≤ d ∧ d ≤ 57 := by omega
    have e2 : (Scanner.mk .neg endTop ps err).next d =
        (Scanner.mk .s1 endTop ps err, .scanContinue) := by
      simp [Scanner.next, hd48, hd49]
    simp only [e1, e2, or_true, true_or, if_true]
    exact scanQuiet_digits endTop ps err ds hds
  · simp only [hneg, if_false, heq, scanQuiet]
    have hsp : isSpace d = false := by simp [isSpace]; omega
    rw [stateBeginValue_step step0 endTop ps err d h0 hsp (by omega)]
    by_cases hzero : n.natAbs = 0
    · obtain ⟨rfl, rfl⟩ := hz hzero
      refine ⟨.s0, Or.inr (Or.inr rfl), ?_⟩
      simp [stateBeginValue, isSpace, scanQuiet]
    · have hd3 := hnz hzero
      refine ⟨.s1, Or.inr (Or.inl rfl), ?_⟩
      have e1 : stateBeginValue (Scanner.mk step0 endTop ps err) d =
          (Scanner.mk .s1 endTop ps err, .scanBeginLiteral) := by
        have a1 : ¬ d = 123 := by omega
        have a2 : ¬ d = 91 := by omega
        have a3 : ¬ d = 34 := by omega
        have a4 : ¬ d = 45 := by omega
        have a5 : ¬ d = 48 := by omega
        have a6 : ¬ d = 116 := by omega
        have a7 : ¬ d = 102 := by omega
        have a8 : ¬ d = 110 := by omega
        have a9 : 49 ≤ d ∧ d ≤ 57 := by omega
        simp [stateBeginValue, hsp, a1, a2, a3, a4, a5, a6, a7, a8, a9]
      simp only [e1, or_true, if_true]
      exact scanQuiet_digits endTop ps err ds hds

theorem scanQuiet_appendString (s : Bytes) (hs : utf8Valid s = true) (step0 : ScanStep)
    (endTop : Bool) (ps : List ParseState) (err : Bool)
    (h0 : step0 = .beginValue ∨ step0 = .beginValueOrEmpty) :
    scanQuiet (Scanner.mk step0 endTop ps err) (appendString s) =
      some (Scanner.mk .endValue endTop ps err) := by
  have hc := chunks_of_valid s hs
  unfold appendString
  simp only [scanQuiet]
  rw [stateBeginValue_step step0 endTop ps err 34 h0 (by decide) (by decide)]
  have e1 : stateBeginValue (Scanner.mk step0 endTop ps err) 34 =
      (Scanner.mk .inString endTop ps err, .scanBeginLiteral) := by
    simp [stateBeginValue, isSpace]
  simp only [e1, or_true, if_true]
  rw [scanQuiet_append, scanQuiet_chunks endTop ps err hc]
  simp [scanQuiet, Scanner.next]

theorem scanQuiet_bool (b : Bool) (step0 : ScanStep) (endTop : Bool) (ps : List ParseState)
    (err : Bool) (h0 : step0 = .beginValue ∨ step0 = .beginValueOrEmpty) :
    scanQuiet (Scanner.mk step0 endTop ps err)
        (if b then [116, 114, 117, 101] else [102, 97, 108, 115, 101]) =
      some (Scanner.mk .endValue endTop ps err) := by
  cases b
  · simp only [Bool.false_eq_true, if_false, scanQuiet]
    rw [stateBeginValue_step step0 endTop ps err 102 h0 (by decide) (by decide)]
    simp [stateBeginValue, isSpace, Scanner.next, expectByte]
  · simp only [if_true, scanQuiet]
    rw [stateBeginValue_step step0 endTop ps err 116 h0 (by decide) (by decide)]
    simp [stateBeginValue, isSpace, Scanner.next, expectByte]

theorem scanQuiet_value (v : GoValue) (e : Bytes) (hr : v.representable = true)
    (hm : marshalValue v = .ok e) (step0 : ScanStep) (endTop : Bool) (ps : List ParseState)
    (err : Bool) (h0 : step0 = .beginValue ∨ step0 = .beginValueOrEmpty) :
    ∃ st, (st = ScanStep.endValue ∨ st = .s1 ∨ st = .s0) ∧
      scanQuiet (Scanner.mk step0 endTop ps err) e = some (Scanner.mk st endTop ps err) := by
  induction v with
  | int n =>
    simp only [marshalValue, Except.ok.injEq] at hm
    subst hm
    exact scanQuiet_formatInt n step0 endTop ps err h0
  | str s =>
    simp only [marshalValue, Except.ok.injEq] at hm
    subst hm
    exact ⟨.endValue, Or.inl rfl, scanQuiet_appendString s hr step0 endTop ps err h0⟩
  | bool b =>
    simp only [marshalValue, Except.ok.injEq] at hm
    subst hm
    exact ⟨.endValue, Or.inl rfl, scanQuiet_bool b step0 endTop ps err h0⟩
  | chan c => simp [GoValue.representable] at hr
  | nilPtr t => simp [GoValue.representable] at hr
  | ptr w ih => exact ih hr hm

theorem readValueAux_quiet (blank : Bool) (e rest : Bytes) (s s2 : Scanner)
    (h : scanQuiet s e = some s2) :
    readValueAux blank (e ++ rest) s =
      match readValueAux blank rest s2 with
      | .ok (v, tail) => .ok (e ++ v, tail)
      | .error err => .error err := by
  induction e generalizing s with
  | nil =>
    simp only [scanQuiet, Option.some.injEq] at h
    subst h
    simp only [List.nil_append]
    cases readValueAux blank rest s with
    | ok p => rfl
    | error err => rfl
  | cons c e2 ih =>
    simp only [scanQuiet] at h
    split_ifs at h with hq
    have h1 : ¬ (s.next c).2 = .scanEnd := by rcases hq with hq | hq <;> simp [hq]
    have h2 : ¬ ((s.next c).2 = .scanEndObject ∨ (s.next c).2 = .scanEndArray) := by
      rcases hq with hq | hq <;> simp [hq]
    have h3 : ¬ (s.next c).2 = .scanError := by rcases hq with hq | hq <;> simp [hq]
    simp only [List.cons_append, readValueAux, h1, h2, h3, if_false, false_and, List.append_eq]
    rw [ih (s.next c).1 h]
    cases readValueAux blank rest s2 with
    | ok p => rfl
    | error err => rfl

theorem next_after_value (st : ScanStep) (hst : st = .endValue ∨ st = .s1 ∨ st = .s0)
    (endTop : Bool) (ps : List ParseState) (err : Bool) (c : Nat) (hc : c = 44 ∨ c = 93) :
    (Scanner.mk st endTop ps err).next c = stateEndValue (Scanner.mk st endTop ps err) c := by
  rcases hst with rfl | rfl | rfl <;> rcases hc with rfl | rfl <;>
    simp [Scanner.next, state0, isDigit]

theorem readValue_value (v : GoValue) (e : Bytes) (hr : v.representable = true)
    (hm : marshalValue v = .ok e) (c : Nat) (hc : c = 44 ∨ c = 93) (rest : Bytes) :
    readValue (e ++ c :: rest) = .ok (e, c :: rest) := by
  obtain ⟨st, hst, hq⟩ := scanQuiet_value v e hr hm .beginValue false [] false (Or.inl rfl)
  unfold readValue
  rw [show Scanner.reset = Scanner.mk .beginValue false [] false from rfl,
    readValueAux_quiet _ e (c :: rest) _ _ hq]
  have hend : ((Scanner.mk st false [] false).next c).2 = .scanEnd := by
    rw [next_after_value st hst false [] false c hc]
    rcases hc with rfl | rfl <;> simp [stateEndValue, stateEndTop, isSpace]
  simp [readValueAux, hend]

theorem checkValidFrom_quiet (e rest : Bytes) (s s2 : Scanner) (h : scanQuiet s e = some s2) :
    checkValidFrom (e ++ rest) s = checkValidFrom rest s2 := by
  induction e generalizing s with
  | nil =>
    simp only [scanQuiet, Option.some.injEq] at h
    subst h
    rfl
  | cons c e2 ih =>
    simp only [scanQuiet] at h
    split_ifs at h with hq
    simp only [List.cons_append, checkValidFrom]
    rw [← ih (s.next c).1 h]
    rcases hq with hq | hq
    · cases hn : s.next c with
      | mk s3 op =>
        rw [hn] at hq
        simp only at hq
        subst hq
        rfl
    · cases hn : s.next c with
      | mk s3 op =>
        rw [hn] at hq
        simp only at hq
        subst hq
        rfl

theorem checkValidFrom_tail (vals : List GoValue) (encs : List Bytes)
    (hr : ∀ v ∈ vals, v.representable = true)
    (he : List.Forall₂ (fun val enc => marshalValue val = .ok enc) vals encs)
    (st : ScanStep) (hst : st = .endValue ∨ st = .s1 ∨ st = .s0) :
    checkValidFrom (tailElems encs ++ [93]) (Scanner.mk st false [.parseArrayValue] false) =
      true := by
  induction he generalizing st with
  | nil =>
    simp only [tailElems, List.map_nil, List.flatten_nil, List.nil_append, checkValidFrom]
    rw [next_after_value st hst false _ false 93 (Or.inr rfl)]
    simp [stateEndValue, isSpace, Scanner.pop, checkValidFrom, Scanner.eof]
  | @cons v e vs es hv _ ih =>
    have hrv : v.representable = true := hr v (by simp)
    obtain ⟨st2, hst2, hq⟩ :=
      scanQuiet_value v e hrv hv .beginValue false [.parseArrayValue] false (Or.inl rfl)
    have e1 : tailElems (e :: es) ++ [93] = 44 :: (e ++ (tailElems es ++ [93])) := by
      simp [tailElems]
    rw [e1]
    simp only [checkValidFrom]
    rw [next_after_value st hst false _ false 44 (Or.inl rfl)]
    have e2 : stateEndValue (Scanner.mk st false [.parseArrayValue] false) 44 =
        (Scanner.mk .beginValue false [.parseArrayValue] false, .scanArrayValue) := by
      simp [stateEndValue, isSpace]
    rw [e2]
    simp only
    rw [checkValidFrom_quiet e _ _ _ hq]
    exact ih (fun w hw => hr w (by simp [hw])) st2 hst2

theorem jsonValid_array (vals : List GoValue) (encs : List Bytes)
    (hr : ∀ v ∈ vals, v.representable = true)
    (he : List.Forall₂ (fun val enc => marshalValue val = .ok enc) vals encs) :
    jsonValid (91 :: (List.intercalate [44] encs ++ [93])) = true := by
  have e0 : Scanner.reset.next 91 =
      (Scanner.mk .beginValueOrEmpty false [.parseArrayValue] false, .scanBeginArray) := by
    simp [Scanner.reset, Scanner.next, stateBeginValue, isSpace, Scanner.push, maxNestingDepth]
  unfold jsonValid
  simp only [checkValidFrom, e0]
  cases he with
  | nil =>
    simp [List.intercalate, checkValidFrom, Scanner.next, isSpace, stateEndValue, Scanner.pop,
      Scanner.eof]
  | @cons v e vs es hv hrest =>
    have hrv : v.representable = true := hr v (by simp)
    obtain ⟨st2, hst2, hq⟩ :=
      scanQuiet_value v e hrv hv .beginValueOrEmpty false [.parseArrayValue] false (Or.inr rfl)
    rw [intercalate_cons, List.append_assoc, checkValidFrom_quiet e _ _ _ hq]
    exact checkValidFrom_tail vs es (fun w hw => hr w (by simp [hw])) hrest st2 hst2

/-! ## Round trip: decoding an encoded value -/

theorem value_head (v : GoValue) (e : Bytes) (hr : v.representable = true)
    (hm : marshalValue v = .ok e) :
    ∃ c rest, e = c :: rest ∧ isSpace c = false ∧ c ≠ 110 ∧ c ≠ 91 ∧ c ≠ 123 ∧
      beginsLiteral c = true := by
  induction v with
  | int n =>
    simp only [marshalValue, Except.ok.injEq] at hm
    subst hm
    obtain ⟨d, ds, heq, hdig, _, _, _⟩ := formatUint_spec n.natAbs
    have hd : isDigit d = true := hdig d (by simp)
    have hd2 : 48 ≤ d ∧ d ≤ 57 := by simpa [isDigit] using hd
    unfold formatInt
    by_cases hneg : n < 0
    · exact ⟨45, formatUint n.natAbs, by simp [hneg], by decide, by decide, by decide,
        by decide, by decide⟩
    · refine ⟨d, ds, by simp [hneg, heq], ?_, by omega, by omega, by omega, ?_⟩
      · simp [isSpace]; omega
      · simp [beginsLiteral, hd]
  | str s =>
    simp only [marshalValue, Except.ok.injEq] at hm
    subst hm
    exact ⟨34, _, rfl, by decide, by decide, by decide, by decide, by decide⟩
  | bool b =>
    simp only [marshalValue, Except.ok.injEq] at hm
    subst hm
    cases b
    · exact ⟨102, _, rfl, by decide, by decide, by decide, by decide, by decide⟩
    · exact ⟨116, _, rfl, by decide, by decide, by decide, by decide, by decide⟩
  | chan c => simp [GoValue.representable] at hr
  | nilPtr t => simp [GoValue.representable] at hr
  | ptr w ih => exact ih hr hm

theorem value_isBytes (v : GoValue) (e : Bytes) (hr : v.representable = true)
    (hm : marshalValue v = .ok e) : IsBytes e := by
  induction v with
  | int n =>
    simp only [marshalValue, Except.ok.injEq] at hm
    subst hm
    obtain ⟨d, ds, heq, hdig, _, _, _⟩ := formatUint_spec n.natAbs
    have hall : ∀ x ∈ formatUint n.natAbs, x < 256 := by
      intro x hx
      rw [heq] at hx
      have := hdig x hx
      simp [isDigit] at this
      omega
    unfold formatInt
    intro x hx
    split_ifs at hx
    · rcases List.mem_cons.mp hx with h1 | h1
      · omega
      · exact hall x h1
    · exact hall x hx
  | str s =>
    simp only [marshalValue, Except.ok.injEq] at hm
    subst hm
    have hc := chunks_isBytes (chunks_of_valid s hr)
    intro x hx
    simp only [appendString, List.mem_cons, List.mem_append, List.mem_singleton,
      List.not_mem_nil, or_false] at hx
    rcases hx with h1 | h1 | h1
    · omega
    · exact hc x h1
    · omega
  | bool b =>
    simp only [marshalValue, Except.ok.injEq] at hm
    subst hm
    cases b <;> intro x hx <;> simp at hx <;> omega
  | chan c => simp [GoValue.representable] at hr
  | nilPtr t => simp [GoValue.representable] at hr
  | ptr w ih => exact ih hr hm

theorem takeWhile_all (p : Nat → Bool) (l : Bytes) (h : ∀ x ∈ l, p x = true) :
    l.takeWhile p = l := by
  induction l with
  | nil => rfl
  | cons c rest ih =>
    simp [List.takeWhile, h c (by simp), ih (fun x hx => h x (by simp [hx]))]

theorem literalItem_formatInt (n : Int) : literalItem (formatInt n) = formatInt n := by
  obtain ⟨d, ds, heq, hdig, _, _, _⟩ := formatUint_spec n.natAbs
  have hd : isDigit d = true := hdig d (by simp)
  have hnum : ∀ x ∈ d :: ds, isNumberByte x = true := by
    intro x hx
    simp [isNumberByte, hdig x hx]
  have hd2 : 48 ≤ d ∧ d ≤ 57 := by simpa [isDigit] using hd
  unfold formatInt
  by_cases hneg : n < 0
  · simp only [hneg, if_true, heq, literalItem]
    simp [takeWhile_all isNumberByte (d :: ds) hnum]
  · simp only [hneg, if_false, heq, literalItem]
    have a1 : ¬ d = 34 := by omega
    simp only [a1, if_false, hd, true_or, if_true]
    rw [takeWhile_all isNumberByte ds (fun x hx => hnum x (by simp [hx]))]

theorem decodeValue_value (v : GoValue) (e : Bytes) (hr : v.representable = true)
    (hm : marshalValue v = .ok e) : decodeValue v.type e = .ok v := by
  induction v generalizing e with
  | int n =>
    simp only [marshalValue, Except.ok.injEq] at hm
    subst hm
    obtain ⟨c, rest, heq, _, h110, h91, h123, hlit⟩ :=
      value_head (.int n) (formatInt n) hr rfl
    have hrange : -9223372036854775808 ≤ n ∧ n ≤ 9223372036854775807 := by
      simpa [GoValue.representable] using hr
    have hp := parseInt_formatInt n hrange
    have hl := literalItem_formatInt n
    have hc : c = 45 ∨ isDigit c = true := by
      obtain ⟨d, ds, heq2, hdig, _, _, _⟩ := formatUint_spec n.natAbs
      have hd : isDigit d = true := hdig d (by simp)
      unfold formatInt at heq
      split_ifs at heq
      · left; simp at heq; exact heq.1.symm
      · right
        rw [heq2] at heq
        simp at heq
        rw [← heq.1]; exact hd
    have hd2 : (c = 45 ∨ 48 ≤ c ∧ c ≤ 57) := by
      rcases hc with h | h
      · exact Or.inl h
      · right; simpa [isDigit] using h
    rw [heq] at hl hp
    rw [heq]
    have a1 : ¬ (c = 91 ∨ c = 123) := by omega
    have a2 : ¬ (c = 116 ∨ c = 102) := by omega
    have a3 : ¬ c = 34 := by omega
    simp only [GoValue.type, decodeValue, a1, a2, a3, if_false, hc, if_true, hl, hp]
  | str s =>
    simp only [marshalValue, Except.ok.injEq] at hm
    subst hm
    have hs : utf8Valid s = true := hr
    have h1 := literalItem_appendString s hs
    have h2 := unquoteBytes_appendString s hs
    rw [show appendString s = 34 :: (appendStringAux s 0 true ++ [34]) from rfl] at h1 h2 ⊢
    simp [GoValue.type, decodeValue, h1, h2]
  | bool b =>
    simp only [marshalValue, Except.ok.injEq] at hm
    subst hm
    cases b <;> simp [GoValue.type, decodeValue]
  | chan c => simp [GoValue.representable] at hr
  | nilPtr t => simp [GoValue.representable] at hr
  | ptr w ih =>
    have := ih e hr hm
    simp [GoValue.type, decodeValue, this]

theorem unmarshalHolder_value (v : GoValue) (e : Bytes) (hr : v.representable = true)
    (hm : marshalValue v = .ok e) :
    unmarshalHolder v.type e = .ok (some v) := by
  obtain ⟨c, rest, heq, hsp, h110, h91, h123, hlit⟩ := value_head v e hr hm
  have hd := decodeValue_value v e hr hm
  rw [heq] at hd ⊢
  simp [unmarshalHolder, skipSpace, hsp, h110, hlit, hd]

/-! ## Round trip: the loop of `Decode` -/

theorem fieldByName_of_names (fields : List FieldValue) (key : Bytes) (val : GoValue)
    (h : NamesExported fields key val) :
    (structTypeOf fields).FieldByName key = some ⟨key, true, val.type⟩ := by
  obtain ⟨_, f, hfind, hexp, hval⟩ := h
  have hname : f.name = key := by simpa using List.find?_some hfind
  have hmap : (structTypeOf fields).find? (fun g => g.name = key) =
      (fields.find? (fun g => g.name = key)).map
        (fun g => { name := g.name, exported := g.exported, type := g.value.type }) := by
    unfold structTypeOf
    rw [List.find?_map]
    rfl
  simp only [StructType.FieldByName, hmap, hfind, Option.map_some', hexp, hval, hname]

theorem holder_value (val : GoValue) (e : Bytes) (hr : val.representable = true)
    (hm : marshalValue val = .ok e) (dec2 : Decoder) :
    (match unmarshalHolder val.type.objType e with
      | .err err => (Outcome.ret (Except.error err) : Outcome (Except GoError (Iface × Decoder)))
      | .panics => .panics
      | .ok v =>
        if val.type.isPtr then
          .ret (.ok (match v with
            | some x => (.val (.ptr x), dec2)
            | none => (.nil, dec2)))
        else
          match v with
          | some x => .ret (.ok (.val x, dec2))
          | none => .panics) = .ret (.ok (.val val, dec2)) := by
  cases val with
  | int n =>
    have := unmarshalHolder_value (.int n) e hr hm
    simp only [GoValue.type] at this
    simp [GoValue.type, FType.objType, FType.isPtr, this]
  | str s =>
    have := unmarshalHolder_value (.str s) e hr hm
    simp only [GoValue.type] at this
    simp [GoValue.type, FType.objType, FType.isPtr, this]
  | bool b =>
    have := unmarshalHolder_value (.bool b) e hr hm
    simp only [GoValue.type] at this
    simp [GoValue.type, FType.objType, FType.isPtr, this]
  | chan c => simp [GoValue.representable] at hr
  | nilPtr t => simp [GoValue.representable] at hr
  | ptr w =>
    have := unmarshalHolder_value w e hr hm
    simp [GoValue.type, FType.objType, FType.isPtr, this]

theorem decodeKey_value (fields : List FieldValue) (key : Bytes) (val : GoValue) (e : Bytes) (hk : NamesExported fields key val)
    (hr : val.representable = true) (hm : marshalValue val = .ok e)
    (c : Nat) (hc : c = 44 ∨ c = 93) (rest : Bytes) (stack : List TokenState)
    (dec : Decoder)
    (hdec : dec = ⟨e ++ c :: rest, .tokenArrayStart, stack, none⟩ ∨
      dec = ⟨44 :: (e ++ c :: rest), .tokenArrayComma, stack, none⟩) :
    decodeKey (structTypeOf fields) key dec =
      .ret (.ok (.val val, ⟨c :: rest, .tokenArrayComma, stack, none⟩)) := by
  have hread := readValue_value val e hr hm c hc rest
  have hdecode : dec.Decode (unmarshalHolder val.type.objType) =
      (⟨c :: rest, .tokenArrayComma, stack, none⟩, unmarshalHolder val.type.objType e) := by
    rcases hdec with rfl | rfl
    · simp [Decoder.Decode, tokenPrepareForDecode, tokenValueAllowed, hread, tokenValueEnd]
    · simp [Decoder.Decode, tokenPrepareForDecode, skipSpace, isSpace, tokenValueAllowed, hread,
        tokenValueEnd]
  have hh := holder_value val e hr hm ⟨c :: rest, .tokenArrayComma, stack, none⟩
  unfold decodeKey
  rw [fieldByName_of_names fields key val hk]
  simp only [hdecode]
  cases hu : unmarshalHolder val.type.objType e with
  | err err => rw [hu] at hh; simp at hh
  | panics => rw [hu] at hh; simp at hh
  | ok v =>
    rw [hu] at hh
    simpa using hh

theorem tail_head (es : List Bytes) (tail : Bytes) :
    ∃ c rest, tailElems es ++ 93 :: tail = c :: rest ∧ (c = 44 ∨ c = 93) := by
  cases es with
  | nil => exact ⟨93, tail, by simp [tailElems], Or.inr rfl⟩
  | cons e rest => exact ⟨44, _, by simp [tailElems]; rfl, Or.inl rfl⟩

theorem decodeKeys_tail (fields : List FieldValue)  (keys : List Bytes) (vals : List GoValue) (encs : List Bytes)
    (hk : List.Forall₂ (NamesExported fields) keys vals)
    (hr : ∀ val ∈ vals, val.representable = true)
    (he : List.Forall₂ (fun val enc => marshalValue val = .ok enc) vals encs)
    (stack : List TokenState) (tail : Bytes) :
    decodeKeys (structTypeOf fields) keys
        ⟨tailElems encs ++ 93 :: tail, .tokenArrayComma, stack, none⟩ =
      .ret (some (vals.map Iface.val), none) := by
  induction hk generalizing encs with
  | nil =>
    cases he
    rfl
  | @cons key val keys vals hkey _ ih =>
    cases he with
    | @cons _ e _ es hv hrest =>
      obtain ⟨c, rest, hcr, hc⟩ := tail_head es tail
      have hbuf : tailElems (e :: es) ++ 93 :: tail = 44 :: (e ++ c :: rest) := by
        rw [← hcr]
        simp [tailElems]
      have hstep := decodeKey_value fields key val e hkey (hr val (by simp)) hv c hc rest
        stack ⟨44 :: (e ++ c :: rest), .tokenArrayComma, stack, none⟩ (Or.inr rfl)
      have hih := ih es (fun w hw => hr w (by simp [hw])) hrest
      rw [hcr] at hih
      rw [hbuf]
      simp only [decodeKeys, hstep, hih, List.map_cons]

theorem marshal_of_representable (v : GoValue) (hr : v.representable = true) :
    ∃ e, marshalValue v = .ok e := by
  induction v with
  | int n => exact ⟨_, rfl⟩
  | str s => exact ⟨_, rfl⟩
  | bool b => exact ⟨_, rfl⟩
  | chan c => simp [GoValue.representable] at hr
  | nilPtr t => simp [GoValue.representable] at hr
  | ptr w ih => exact ih hr

theorem encs_of_representable (vals : List GoValue)
    (hr : ∀ val ∈ vals, val.representable = true) :
    ∃ encs, List.Forall₂ (fun val enc => marshalValue val = .ok enc) vals encs := by
  induction vals with
  | nil => exact ⟨[], List.Forall₂.nil⟩
  | cons v rest ih =>
    obtain ⟨e, he⟩ := marshal_of_representable v (hr v (by simp))
    obtain ⟨es, hes⟩ := ih (fun w hw => hr w (by simp [hw]))
    exact ⟨e :: es, List.Forall₂.cons he hes⟩

theorem tailElems_isBytes (vals : List GoValue) (encs : List Bytes)
    (hr : ∀ val ∈ vals, val.representable = true)
    (he : List.Forall₂ (fun val enc => marshalValue val = .ok enc) vals encs) :
    IsBytes (tailElems encs) := by
  induction he with
  | nil => intro x hx; simp [tailElems] at hx
  | @cons v e vs es hv _ ih =>
    have h1 := value_isBytes v e (hr v (by simp)) hv
    have h2 := ih (fun w hw => hr w (by simp [hw]))
    intro x hx
    have : tailElems (e :: es) = 44 :: (e ++ tailElems es) := by simp [tailElems]
    rw [this] at hx
    simp only [List.mem_cons, List.mem_append] at hx
    rcases hx with h | h | h
    · omega
    · exact h1 x h
    · exact h2 x h

theorem payload_isBytes (vals : List GoValue) (encs : List Bytes)
    (hr : ∀ val ∈ vals, val.representable = true)
    (he : List.Forall₂ (fun val enc => marshalValue val = .ok enc) vals encs) :
    IsBytes (91 :: (List.intercalate [44] encs ++ [93])) := by
  intro x hx
  simp only [List.mem_cons, List.mem_append, List.mem_singleton, List.not_mem_nil, or_false]
    at hx
  rcases hx with h | h | h
  · omega
  · cases he with
    | nil => simp [List.intercalate] at h
    | @cons v e vs es hv hrest =>
      rw [intercalate_cons] at h
      rcases List.mem_append.mp h with h1 | h1
      · exact value_isBytes v e (hr v (by simp)) hv x h1
      · exact tailElems_isBytes vs es (fun w hw => hr w (by simp [hw])) hrest x h1
  · omega

theorem decode_array (env : Env) (clock : Clock) (fields : List FieldValue)
     (keys : List Bytes) (vals : List GoValue) (encs : List Bytes)
    (hk : List.Forall₂ (NamesExported fields) keys vals)
    (hr : ∀ val ∈ vals, val.representable = true)
    (he : List.Forall₂ (fun val enc => marshalValue val = .ok enc) vals encs) :
    cursorDecoder.Decode env clock { ref := structTypeOf fields, keys := keys }
        (b64Encode (91 :: (List.intercalate [44] encs ++ [93]))) =
      .ret (some (vals.map Iface.val), none) := by
  have hb : b64Decode (b64Encode (91 :: (List.intercalate [44] encs ++ [93]))) =
      some (91 :: (List.intercalate [44] encs ++ [93])) :=
    b64_roundtrip_aux _ (payload_isBytes vals encs hr he)
  have hj := jsonValid_array vals encs hr he
  have htok : (NewDecoder (91 :: (List.intercalate [44] encs ++ [93]))).Token env =
      (⟨List.intercalate [44] encs ++ [93], .tokenArrayStart, [.tokenTopValue], none⟩,
        .ok ()) := by
    simp [Decoder.Token, NewDecoder, tokenAux, isSpace, tokenValueAllowed]
  simp only [cursorDecoder.Decode, hb, hj, Bool.not_true, Bool.false_eq_true, if_false, htok]
  cases hk with
  | nil =>
    cases he
    rfl
  | @cons key val keys vals hkey hkeys =>
    cases he with
    | @cons _ e _ es hv hrest =>
      obtain ⟨c, rest, hcr, hc⟩ := tail_head es []
      have hbuf : List.intercalate [44] (e :: es) ++ [93] = e ++ c :: rest := by
        rw [intercalate_cons, List.append_assoc, hcr]
      have hstep := decodeKey_value fields key val e hkey (hr val (by simp)) hv c hc rest
        [.tokenTopValue] ⟨e ++ c :: rest, .tokenArrayStart, [.tokenTopValue], none⟩ (Or.inl rfl)
      have htail := decodeKeys_tail fields keys vals es hkeys
        (fun w hw => hr w (by simp [hw])) hrest [.tokenTopValue] []
      rw [hcr] at htail
      rw [hbuf]
      simp only [decodeKeys, hstep, htail, List.map_cons]

/-! ## The round trip -/

/-- C1, as stated, fails.  A keyed field that holds a nil pointer is encoded as
`null` and decoded as the untyped nil, which is not the nil `*int` the record
holds; and a key that names an unexported field makes `Encode` panic, so there
is no cursor to decode. -/
theorem C1_counterexample :
    ((NewCursorEncoder none [bytesOf "Ref"]).Encode (.struct demoRecord) =
        .ret (bytesOf "W251bGxd", none) ∧
      cursorDecoder.Decode demoEnv demoClock { ref := demoStruct, keys := [bytesOf "Ref"] }
        (bytesOf "W251bGxd") = .ret (some [.nil], none) ∧
      [Iface.nil] ≠ [Iface.val (.nilPtr .int)]) ∧
    (NewCursorEncoder none [bytesOf "ID", bytesOf "secret"]).Encode
        (.ptr (.struct demoRecord)) = .panics := by
  decide

/-- C1, amended (round trip).  Take a record, or a chain of pointers to one, keys
that each name an exported field of it, and let every keyed value be
JSON-representable and not nil; for the field types at hand: an `int`, a
`bool`, a string of well-formed UTF-8, or a pointer to such a value through
non-nil pointers only.  Then `Encode` returns a cursor
and no error, `NewCursorDecoder` accepts every reference whose type strips to the
struct type of the record, and the decoder it returns decodes that cursor, with
no error, to the keyed values in key order.  (Pointers are compared by what they
point to.) -/
theorem C1_round_trip (env : Env) (clock : Clock) (overKeys : Option (List (Bytes × Bytes)))
    (keys : List Bytes) (v : RValue) (ref : RType) (fields : List FieldValue)
    (vals : List GoValue)
    (hv : PointsToRecord v fields) (href : StripsTo ref (.struct (structTypeOf fields)))
     (hk : List.Forall₂ (NamesExported fields) keys vals)
    (hr : ∀ val ∈ vals, val.representable = true) :
    ∃ c d, (NewCursorEncoder overKeys keys).Encode v = .ret (c, none) ∧
      NewCursorDecoder ref keys = (some d, none) ∧
      d.Decode env clock c = .ret (some (vals.map Iface.val), none) := by
  obtain ⟨encs, he⟩ := encs_of_representable vals hr
  refine ⟨b64Encode (91 :: (List.intercalate [44] encs ++ [93])),
    { ref := structTypeOf fields, keys := keys },
    encode_of_encs overKeys keys v fields vals encs hv hk he, ?_,
    decode_array env clock fields keys vals encs hk hr he⟩
  simp [NewCursorDecoder, toReflectValue, reduceType_of_stripsTo href]

/-- C1, amended, at the record `{ID: 5, Name: "foo", ...}` with the keys `ID`,
`Name`: the cursor is `WzUsImZvbyJd` and it decodes to `5` and `foo`. -/
theorem C1_round_trip_witness :
    (∃ c d, (NewCursorEncoder none [bytesOf "ID", bytesOf "Name"]).Encode
          (.ptr (.struct demoRecord)) = .ret (c, none) ∧
        NewCursorDecoder (.ptr (.struct (structTypeOf demoRecord)))
          [bytesOf "ID", bytesOf "Name"] = (some d, none) ∧
        d.Decode demoEnv demoClock c =
          .ret (some ([GoValue.int 5, .str (bytesOf "foo")].map Iface.val), none)) ∧
    (NewCursorEncoder none [bytesOf "ID", bytesOf "Name"]).Encode (.ptr (.struct demoRecord)) =
      .ret (bytesOf "WzUsImZvbyJd", none) ∧
    cursorDecoder.Decode demoEnv demoClock
        { ref := structTypeOf demoRecord, keys := [bytesOf "ID", bytesOf "Name"] }
        (bytesOf "WzUsImZvbyJd") =
      .ret (some [.val (.int 5), .val (.str (bytesOf "foo"))], none) :=
  ⟨C1_round_trip demoEnv demoClock none [bytesOf "ID", bytesOf "Name"]
      (.ptr (.struct demoRecord)) (.ptr (.struct (structTypeOf demoRecord))) demoRecord
      [.int 5, .str (bytesOf "foo")]
      (PointsToRecord.deref (PointsToRecord.here demoRecord))
      (StripsTo.ptr (StripsTo.struct _))
      (List.Forall₂.cons ⟨by decide, ⟨bytesOf "ID", true, .int 5⟩, by decide, rfl, rfl⟩
        (List.Forall₂.cons
          ⟨by decide, ⟨bytesOf "Name", true, .str (bytesOf "foo")⟩, by decide, rfl, rfl⟩
          List.Forall₂.nil))
      (by decide),
    by decide, by decide⟩

/-! ## Legacy format: splitting and joining -/

theorem stringsSplit_length (sep : Nat) (b : Bytes) :
    (stringsSplit sep b).length = b.count sep + 1 := by
  induction b with
  | nil => rfl
  | cons c rest ih =>
    unfold stringsSplit
    by_cases hc : c = sep
    · subst hc
      simp [ih]
    · have hne : (c == sep) = false := by simpa using hc
      rw [if_neg hc, List.count_cons, hne]
      cases hs : stringsSplit sep rest with
      | nil => rw [hs] at ih; simp at ih
      | cons seg segs => rw [hs] at ih; simpa using ih

theorem stringsSplit_no_sep (sep : Nat) (s : Bytes) (h : sep ∉ s) :
    stringsSplit sep s = [s] := by
  induction s with
  | nil => rfl
  | cons c rest ih =>
    have hc : c ≠ sep := fun e => h (by simp [e])
    have hr : sep ∉ rest := fun e => h (by simp [e])
    simp [stringsSplit, hc, ih hr]

theorem stringsSplit_append (sep : Nat) (s rest : Bytes) (h : sep ∉ s) :
    stringsSplit sep (s ++ sep :: rest) = s :: stringsSplit sep rest := by
  induction s with
  | nil => simp [stringsSplit]
  | cons c tl ih =>
    have hc : c ≠ sep := fun e => h (by simp [e])
    have hr : sep ∉ tl := fun e => h (by simp [e])
    simp [stringsSplit, hc, ih hr]

theorem stringsSplit_join (segs : List Bytes) (hne : segs ≠ [])
    (h : ∀ seg ∈ segs, 44 ∉ seg) : stringsSplit 44 (stringsJoin segs) = segs := by
  induction segs with
  | nil => exact absurd rfl hne
  | cons seg rest ih =>
    cases rest with
    | nil => simpa [stringsJoin] using stringsSplit_no_sep 44 seg (h seg (by simp))
    | cons seg2 rest2 =>
      have e : stringsJoin (seg :: seg2 :: rest2) = seg ++ 44 :: stringsJoin (seg2 :: rest2) := rfl
      rw [e, stringsSplit_append 44 seg _ (h seg (by simp)),
        ih (by simp) (fun s hs => h s (by simp [hs]))]

theorem decodeOldLoop_append (env : Env) (clock : Clock) (pre : List Bytes) (seg : Bytes)
    (post : List Bytes) (i : Nat) (valsPre valsPost : List Iface) (val : Iface)
    (hpre : decodeOldLoop env clock pre i = some valsPre)
    (hseg : revert env (clock (i + pre.length)) seg = (val, none))
    (hpost : decodeOldLoop env clock post (i + pre.length + 1) = some valsPost) :
    decodeOldLoop env clock (pre ++ seg :: post) i = some (valsPre ++ val :: valsPost) := by
  induction pre generalizing i valsPre with
  | nil =>
    simp only [decodeOldLoop, Option.some.injEq] at hpre
    subst hpre
    simp only [List.length_nil, Nat.add_zero] at hseg hpost
    simp [decodeOldLoop, hseg, hpost]
  | cons p ps ih =>
    simp only [List.cons_append, decodeOldLoop] at hpre ⊢
    cases hr : revert env (clock i) p with
    | mk v e =>
      rw [hr] at hpre
      cases e with
      | some err => simp at hpre
      | none =>
        simp only at hpre ⊢
        cases hrest : decodeOldLoop env clock ps (i + 1) with
        | none => simp [hrest] at hpre
        | some vs =>
          rw [hrest] at hpre
          simp only [Option.some.injEq] at hpre
          subst hpre
          have hseg2 : revert env (clock (i + 1 + ps.length)) seg = (val, none) := by
            have : i + 1 + ps.length = i + (p :: ps).length := by simp; omega
            rw [this]; exact hseg
          have hpost2 : decodeOldLoop env clock post (i + 1 + ps.length + 1) = some valsPost := by
            have : i + 1 + ps.length + 1 = i + (p :: ps).length + 1 := by simp; omega
            rw [this]; exact hpost
          simp only [List.append_eq]
          rw [ih (i + 1) vs hrest hseg2 hpost2]
          rfl

theorem decodeOldLoop_length (env : Env) (clock : Clock) (segs : List Bytes) (i : Nat)
    (vals : List Iface) (h : decodeOldLoop env clock segs i = some vals) :
    vals.length = segs.length := by
  induction segs generalizing i vals with
  | nil =>
    simp only [decodeOldLoop, Option.some.injEq] at h
    subst h
    rfl
  | cons seg rest ih =>
    simp only [decodeOldLoop] at h
    cases hr : revert env (clock i) seg with
    | mk v e =>
      rw [hr] at h
      cases e with
      | some err => simp at h
      | none =>
        simp only at h
        cases hrest : decodeOldLoop env clock rest (i + 1) with
        | none => simp [hrest] at h
        | some vs =>
          rw [hrest] at h
          simp only [Option.some.injEq] at h
          subst h
          simp [ih (i + 1) vs hrest]

theorem decodeOldLoop_text (env : Env) (clock : Clock) (fm : Fmt) (ss : List Bytes) (i : Nat) :
    decodeOldLoop env clock (ss.map (fun s => convert fm (.val (.str s)))) i =
      some (ss.map (fun s => Iface.val (.str s))) := by
  induction ss generalizing i with
  | nil => rfl
  | cons s rest ih =>
    have hk : 63 ∉ fieldString := by decide
    have hne : fieldString ≠ fieldTime := by decide
    have hr : ∀ now, revert env now (convert fm (.val (.str s))) = (.val (.str s), none) := by
      intro now
      have e : convert fm (.val (.str s)) = s ++ 63 :: fieldString := by
        simp [convert, sprintV]
      rw [e]
      simp only [revert, parse_append s fieldString hk]
      simp [hne]
    simp [decodeOldLoop, hr, ih]

theorem encodeOldFields_of_names (fm : Fmt) (rv : RValue) (fields : List FieldValue)
    (keys : List Bytes) (vals : List GoValue) (hrv : indirectOnce rv = some fields)
    (hk : List.Forall₂ (NamesExported fields) keys vals) :
    encodeOldFields fm rv keys = .ret (vals.map (fun v => convert fm (.val v))) := by
  induction hk with
  | nil => rfl
  | cons h _ ih => simp [encodeOldFields, hrv, fieldInterface_of_names fields _ _ h, ih]

/-! ## Claims on the legacy format: `parse`, `revert`, `decodeOld` -/

/-- C13 (`parse` splits a legacy segment on its last `?`).  When the segment `s`
holds a `?`, `parse` returns no error and a pair `(field, kind)` with
`field ++ "?" ++ kind = s` and no `?` in `kind`, so a `?` inside the value stays
in the value; when `s` holds no `?`, `parse` returns the error
`ErrInvalidOldField` (with the empty text and the kind `STRING`). -/
theorem C13_parse_last_mark (s : Bytes) :
    (63 ∈ s → ∃ field kind, parse s = (field, kind, none) ∧ field ++ 63 :: kind = s ∧
      63 ∉ kind) ∧
    (63 ∉ s → parse s = ([], fieldString, some ErrInvalidOldField) ∧
      ErrInvalidOldField = .errorString (bytesOf "invalid old field")) := by
  constructor
  · intro h
    obtain ⟨v, k, rfl, hk⟩ := exists_split_of_mem s h
    exact ⟨v, k, parse_append v k hk, rfl, hk⟩
  · intro h
    exact ⟨parse_no_mark s h, rfl⟩

/-- C13 at the segments `a?b?STRING`, split into `a?b` and `STRING`, and
`nope`. -/
theorem C13_parse_last_mark_witness :
    (63 ∈ bytesOf "a?b?STRING" ∧
      ∃ field kind, parse (bytesOf "a?b?STRING") = (field, kind, none) ∧
        field ++ 63 :: kind = bytesOf "a?b?STRING" ∧ 63 ∉ kind) ∧
    parse (bytesOf "a?b?STRING") = (bytesOf "a?b", bytesOf "STRING", none) ∧
    (63 ∉ bytesOf "nope" ∧
      parse (bytesOf "nope") = ([], fieldString, some ErrInvalidOldField) ∧
      ErrInvalidOldField = .errorString (bytesOf "invalid old field")) :=
  ⟨⟨by decide, (C13_parse_last_mark (bytesOf "a?b?STRING")).1 (by decide)⟩, by decide,
    ⟨by decide, (C13_parse_last_mark (bytesOf "nope")).2 (by decide)⟩⟩

/-- C14 (legacy bad-timestamp fallback).  For a segment `v?TIME` whose text `v`
`time.Parse` rejects, `revert` returns no error and the timestamp
`time.Now().UTC()` read during the call, which is no text value.  So when such
a segment stands in a payload whose other segments each hold a `?`, `decodeOld`
does not abort: it returns one value per segment, the reading of the clock at
the place of the bad timestamp and the legacy values of the other segments
around it. -/
theorem C14_bad_timestamp_fallback (env : Env) (clock : Clock) (now : GoTime) (v b : Bytes)
    (pre post : List Bytes)
    (hv : env.timeParse v = none)
    (hs : stringsSplit 44 b = pre ++ (v ++ 63 :: fieldTime) :: post)
    (hq : ∀ seg ∈ pre ++ post, 63 ∈ seg) :
    revert env now (v ++ 63 :: fieldTime) = (.time now, none) ∧
    (∀ s, Iface.time now ≠ .val (.str s)) ∧
    ∃ valsPre valsPost,
      decodeOld env clock b = some (valsPre ++ .time (clock pre.length) :: valsPost) ∧
      List.Forall₂ (LegacyValue env) pre valsPre ∧
      List.Forall₂ (LegacyValue env) post valsPost := by
  have hk : 63 ∉ fieldTime := by decide
  have hr : ∀ t, revert env t (v ++ 63 :: fieldTime) = (.time t, none) := by
    intro t
    simp only [revert, parse_append v fieldTime hk]
    simp [hv]
  refine ⟨hr now, fun s h => Iface.noConfusion h, ?_⟩
  obtain ⟨valsPre, h1, h2⟩ := decodeOldLoop_wellformed env clock pre 0
    (fun s hs => hq s (by simp [hs]))
  obtain ⟨valsPost, h3, h4⟩ := decodeOldLoop_wellformed env clock post (0 + pre.length + 1)
    (fun s hs => hq s (by simp [hs]))
  refine ⟨valsPre, valsPost, ?_, h2, h4⟩
  unfold decodeOld
  rw [hs]
  exact decodeOldLoop_append env clock pre _ post 0 valsPre valsPost _ h1
    (by simpa using hr (clock pre.length)) h3

/-- C14 at the payload `5?STRING,x?TIME,7?STRING`: the second value is the
reading of the clock, the first and the third are the texts `5` and `7`. -/
theorem C14_bad_timestamp_fallback_witness :
    (demoEnv.timeParse (bytesOf "x") = none ∧
      stringsSplit 44 (bytesOf "5?STRING,x?TIME,7?STRING") =
        [bytesOf "5?STRING"] ++ (bytesOf "x" ++ 63 :: fieldTime) :: [bytesOf "7?STRING"]) ∧
    (revert demoEnv ⟨1700000000, 0, 0⟩ (bytesOf "x" ++ 63 :: fieldTime) =
        (.time ⟨1700000000, 0, 0⟩, none) ∧
      (∀ s, Iface.time ⟨1700000000, 0, 0⟩ ≠ .val (.str s)) ∧
      ∃ valsPre valsPost,
        decodeOld demoEnv demoClock (bytesOf "5?STRING,x?TIME,7?STRING") =
          some (valsPre ++ .time (demoClock [bytesOf "5?STRING"].length) :: valsPost) ∧
        List.Forall₂ (LegacyValue demoEnv) [bytesOf "5?STRING"] valsPre ∧
        List.Forall₂ (LegacyValue demoEnv) [bytesOf "7?STRING"] valsPost) ∧
    decodeOld demoEnv demoClock (bytesOf "5?STRING,x?TIME,7?STRING") =
      some [.val (.str (bytesOf "5")), .time ⟨1700000001, 0, 0⟩, .val (.str (bytesOf "7"))] :=
  ⟨⟨by decide, by decide⟩,
    C14_bad_timestamp_fallback demoEnv demoClock ⟨1700000000, 0, 0⟩ (bytesOf "x")
      (bytesOf "5?STRING,x?TIME,7?STRING") [bytesOf "5?STRING"] [bytesOf "7?STRING"]
      (by decide) (by decide) (by decide),
    by decide⟩

/-- C15 (legacy decode ignores the key list and the schema).  When the payload
of the cursor is not valid JSON, `Decode` returns `decodeOld` of the payload and
the nil error, whatever the decoder: two decoders, with any schemas and key
lists, return the same result, and no key is looked up.  When every segment
holds a `?`, the values returned are as many as the comma-separated segments,
one more than there are commas in the payload, whatever the number of keys. -/
theorem C15_legacy_ignores_keys (env : Env) (clock : Clock) (d1 d2 : cursorDecoder)
    (cursor b : Bytes) (hb : b64Decode cursor = some b) (hj : jsonValid b = false) :
    d1.Decode env clock cursor = d2.Decode env clock cursor ∧
    d1.Decode env clock cursor = .ret (decodeOld env clock b, none) ∧
    ((∀ seg ∈ stringsSplit 44 b, 63 ∈ seg) →
      ∃ vals, d1.Decode env clock cursor = .ret (some vals, none) ∧
        vals.length = (stringsSplit 44 b).length ∧ vals.length = b.count 44 + 1) := by
  have h : ∀ d : cursorDecoder, d.Decode env clock cursor =
      .ret (decodeOld env clock b, none) := by
    intro d
    simp [cursorDecoder.Decode, hb, hj]
  refine ⟨by rw [h d1, h d2], h d1, ?_⟩
  intro hq
  obtain ⟨vals, hvals, _⟩ := decodeOldLoop_wellformed env clock (stringsSplit 44 b) 0 hq
  have hlen := decodeOldLoop_length env clock _ 0 vals hvals
  refine ⟨vals, ?_, hlen, ?_⟩
  · rw [h d1]
    simp [decodeOld, hvals]
  · rw [hlen, stringsSplit_length]

/-- C15 at the payloads `5?STRING` and `5?STRING,6?STRING,7?STRING`, one and
three segments, read by a decoder with two keys and by one whose only key
names no field. -/
theorem C15_legacy_ignores_keys_witness :
    (b64Decode (bytesOf "NT9TVFJJTkc=") = some (bytesOf "5?STRING") ∧
      jsonValid (bytesOf "5?STRING") = false ∧
      (∀ seg ∈ stringsSplit 44 (bytesOf "5?STRING"), 63 ∈ seg)) ∧
    (demoDecoder.Decode demoEnv demoClock (bytesOf "NT9TVFJJTkc=") =
        cursorDecoder.Decode demoEnv demoClock
          { ref := [], keys := [bytesOf "Nope"] } (bytesOf "NT9TVFJJTkc=") ∧
      demoDecoder.Decode demoEnv demoClock (bytesOf "NT9TVFJJTkc=") =
        .ret (decodeOld demoEnv demoClock (bytesOf "5?STRING"), none) ∧
      ((∀ seg ∈ stringsSplit 44 (bytesOf "5?STRING"), 63 ∈ seg) →
        ∃ vals, demoDecoder.Decode demoEnv demoClock (bytesOf "NT9TVFJJTkc=") =
            .ret (some vals, none) ∧
          vals.length = (stringsSplit 44 (bytesOf "5?STRING")).length ∧
          vals.length = (bytesOf "5?STRING").count 44 + 1)) ∧
    demoDecoder.keys.length = 2 ∧
    demoDecoder.Decode demoEnv demoClock (bytesOf "NT9TVFJJTkc=") =
      .ret (some [.val (.str (bytesOf "5"))], none) ∧
    demoDecoder.Decode demoEnv demoClock (bytesOf "NT9TVFJJTkcsNj9TVFJJTkcsNz9TVFJJTkc=") =
      .ret (some [.val (.str (bytesOf "5")), .val (.str (bytesOf "6")),
        .val (.str (bytesOf "7"))], none) :=
  ⟨⟨by decide, by decide, by decide⟩,
    C15_legacy_ignores_keys demoEnv demoClock demoDecoder
      { ref := [], keys := [bytesOf "Nope"] } (bytesOf "NT9TVFJJTkc=") (bytesOf "5?STRING")
      (by decide) (by decide),
    by decide, by decide, by decide⟩

/-- C17 (legacy round trip for text values).  For a non-empty list of strings
`s1..sN`, none holding a comma (a `?` is allowed), the legacy payload
`convert(s1),...,convert(sN)` is the text `s1?STRING,...,sN?STRING`, and
`decodeOld` of it returns exactly the text values `s1..sN`, in order.  That
payload is what `encodeOld` encodes in base64 for a record, or a pointer to one,
whose keyed fields are exported and hold these strings. -/
theorem C17_legacy_text_round_trip (env : Env) (clock : Clock) (fm : Fmt) (ss : List Bytes)
    (hne : ss ≠ []) (hc : ∀ s ∈ ss, 44 ∉ s) :
    stringsJoin (ss.map (fun s => convert fm (.val (.str s)))) =
      stringsJoin (ss.map (fun s => s ++ bytesOf "?STRING")) ∧
    decodeOld env clock (stringsJoin (ss.map (fun s => convert fm (.val (.str s))))) =
      some (ss.map (fun s => Iface.val (.str s))) ∧
    (∀ rv fields keys, indirectOnce rv = some fields →
      List.Forall₂ (NamesExported fields) keys (ss.map GoValue.str) →
      encodeOld fm rv keys =
        .ret (b64Encode (stringsJoin (ss.map (fun s => convert fm (.val (.str s))))))) := by
  refine ⟨?_, ?_, ?_⟩
  · have hf : (fun s => convert fm (.val (.str s))) = (fun s => s ++ bytesOf "?STRING") := by
      funext s
      have e : bytesOf "?STRING" = [63] ++ fieldString := by decide
      rw [e, ← List.append_assoc]
      rfl
    rw [hf]
  · have hsegs : ∀ seg ∈ ss.map (fun s => convert fm (.val (.str s))), 44 ∉ seg := by
      intro seg hseg
      obtain ⟨s, hs, rfl⟩ := List.mem_map.mp hseg
      have h1 := hc s hs
      have h2 : 44 ∉ fieldString := by decide
      simp only [convert, sprintV, List.mem_append, List.mem_singleton, not_or]
      exact ⟨⟨h1, by decide⟩, h2⟩
    unfold decodeOld
    rw [stringsSplit_join _ (by simpa using hne) hsegs]
    exact decodeOldLoop_text env clock fm ss 0
  · intro rv fields keys hrv hk
    have h := encodeOldFields_of_names fm rv fields keys _ hrv hk
    simp only [List.map_map] at h
    simp only [encodeOld, h]
    rfl

/-- C17 at the strings `a?b` and `5`: the payload is `a?b?STRING,5?STRING`. -/
theorem C17_legacy_text_round_trip_witness :
    ([bytesOf "a?b", bytesOf "5"] ≠ [] ∧ ∀ s ∈ [bytesOf "a?b", bytesOf "5"], 44 ∉ s) ∧
    (stringsJoin ([bytesOf "a?b", bytesOf "5"].map (fun s => convert demoFmt (.val (.str s)))) =
        stringsJoin ([bytesOf "a?b", bytesOf "5"].map (fun s => s ++ bytesOf "?STRING")) ∧
      decodeOld demoEnv demoClock
          (stringsJoin ([bytesOf "a?b", bytesOf "5"].map
            (fun s => convert demoFmt (.val (.str s))))) =
        some ([bytesOf "a?b", bytesOf "5"].map (fun s => Iface.val (.str s))) ∧
      (∀ rv fields keys, indirectOnce rv = some fields →
        List.Forall₂ (NamesExported fields) keys ([bytesOf "a?b", bytesOf "5"].map GoValue.str) →
        encodeOld demoFmt rv keys =
          .ret (b64Encode (stringsJoin ([bytesOf "a?b", bytesOf "5"].map
            (fun s => convert demoFmt (.val (.str s)))))))) ∧
    stringsJoin ([bytesOf "a?b", bytesOf "5"].map (fun s => convert demoFmt (.val (.str s)))) =
      bytesOf "a?b?STRING,5?STRING" ∧
    decodeOld demoEnv demoClock (bytesOf "a?b?STRING,5?STRING") =
      some [.val (.str (bytesOf "a?b")), .val (.str (bytesOf "5"))] ∧
    encodeOld demoFmt (.ptr (.struct demoRecord)) [bytesOf "Name"] =
      .ret (bytesOf "Zm9vP1NUUklORw==") :=
  ⟨⟨by decide, by decide⟩,
    C17_legacy_text_round_trip demoEnv demoClock demoFmt [bytesOf "a?b", bytesOf "5"]
      (by decide) (by decide),
    by decide, by decide, by decide⟩

/-! ## The encoder: failures -/

theorem marshalValue_error (v : GoValue) (e : GoError) (h : marshalValue v = .error e) :
    e = .unsupportedTypeError := by
  induction v with
  | int n => simp [marshalValue] at h
  | str s => simp [marshalValue] at h
  | bool b => simp [marshalValue] at h
  | chan c =>
    simp only [marshalValue, Except.error.injEq] at h
    exact h.symm
  | nilPtr t => simp [marshalValue] at h
  | ptr w ih => exact ih h

theorem marshalElems_unsupported (vals : List GoValue) (first : Bool)
    (h : ∃ val ∈ vals, ∀ enc, marshalValue val ≠ .ok enc) :
    marshalElems vals first = .error .unsupportedTypeError := by
  induction vals generalizing first with
  | nil => simp at h
  | cons v rest ih =>
    unfold marshalElems
    cases hm : marshalValue v with
    | error e => rw [marshalValue_error v e hm]
    | ok b =>
      have hrest : ∃ val ∈ rest, ∀ enc, marshalValue val ≠ .ok enc := by
        obtain ⟨val, hmem, hno⟩ := h
        rcases List.mem_cons.mp hmem with h1 | h1
        · subst h1
          exact absurd hm (hno b)
        · exact ⟨val, h1, hno⟩
      simp [ih false hrest]

theorem collectFields_missing (fields : List FieldValue) (keys : List Bytes)
    (h : ∃ key ∈ keys, ∀ f ∈ fields, f.name ≠ key) :
    collectFields (some fields) keys = .panics := by
  induction keys with
  | nil => simp at h
  | cons k rest ih =>
    unfold collectFields
    cases hf : fieldInterface (some fields) k with
    | panics => rfl
    | ret val =>
      have hrest : ∃ key ∈ rest, ∀ f ∈ fields, f.name ≠ key := by
        obtain ⟨key, hmem, hno⟩ := h
        rcases List.mem_cons.mp hmem with h1 | h1
        · subst h1
          have hfind : fields.find? (fun f => f.name = key) = none := by
            rw [List.find?_eq_none]
            intro f hfm
            simpa using hno f hfm
          simp [fieldInterface, hfind] at hf
        · exact ⟨key, h1, hno⟩
      simp [ih hrest]

/-- C12, as stated, fails: a key that names no field of the record makes `Encode`
panic (`Interface` is called on the zero `Value` that `FieldByName` returns);
no error is returned. -/
theorem C12_counterexample :
    (∀ f ∈ demoRecord, f.name ≠ bytesOf "Nope") ∧
    (NewCursorEncoder none [bytesOf "Nope"]).Encode (.struct demoRecord) = .panics ∧
    (NewCursorEncoder none [bytesOf "ID", bytesOf "Nope"]).Encode (.ptr (.struct demoRecord)) =
      .panics := by
  decide

/-- C12, amended (`Encode` failures).  Whenever `Encode` returns an error, the
cursor it returns with it is the empty string.  For a record, or a chain of
pointers to one: when every key names an exported field and one of the keyed
values has no JSON encoding, `Encode` returns the empty string and the error of
`json.Marshal`; when a key names no field of the record, `Encode` panics and
returns nothing. -/
theorem C12_encode_failures (overKeys : Option (List (Bytes × Bytes))) (keys : List Bytes)
    (v : RValue) :
    (∀ c err, (NewCursorEncoder overKeys keys).Encode v = .ret (c, some err) → c = []) ∧
    (∀ fields vals, PointsToRecord v fields →
      List.Forall₂ (NamesExported fields) keys vals →
      (∃ val ∈ vals, ∀ enc, marshalValue val ≠ .ok enc) →
      (NewCursorEncoder overKeys keys).Encode v = .ret ([], some .unsupportedTypeError)) ∧
    (∀ fields, PointsToRecord v fields →
      (∃ key ∈ keys, ∀ f ∈ fields, f.name ≠ key) →
      (NewCursorEncoder overKeys keys).Encode v = .panics) := by
  refine ⟨?_, ?_, ?_⟩
  · intro c err h
    simp only [cursorEncoder.Encode] at h
    cases hm : (NewCursorEncoder overKeys keys).marshalJSON v with
    | panics => simp [hm] at h
    | ret r =>
      cases r with
      | error e =>
        simp only [hm, Outcome.ret.injEq, Prod.mk.injEq] at h
        exact h.1.symm
      | ok b => simp [hm] at h
  · intro fields vals hv hk hu
    simp [cursorEncoder.Encode, cursorEncoder.marshalJSON, NewCursorEncoder, toReflectValue,
      derefValue_of_pointsTo hv, collectFields_of_names fields keys vals hk, jsonMarshal,
      marshalElems_unsupported vals true hu]
  · intro fields hv hmiss
    simp [cursorEncoder.Encode, cursorEncoder.marshalJSON, NewCursorEncoder, toReflectValue,
      derefValue_of_pointsTo hv, collectFields_missing fields keys hmiss]

/-- C12, amended, at the record `demoRecord` behind a pointer: the keys `ID`,
`Done` (a channel) give the empty string and an error, the keys `ID`, `Nope` a
panic. -/
theorem C12_encode_failures_witness :
    (PointsToRecord (.ptr (.struct demoRecord)) demoRecord ∧
      List.Forall₂ (NamesExported demoRecord) [bytesOf "ID", bytesOf "Done"]
        [.int 5, .chan 0] ∧
      (∃ val ∈ [GoValue.int 5, .chan 0], ∀ enc, marshalValue val ≠ .ok enc)) ∧
    (NewCursorEncoder none [bytesOf "ID", bytesOf "Done"]).Encode (.ptr (.struct demoRecord)) =
      .ret ([], some .unsupportedTypeError) ∧
    (NewCursorEncoder none [bytesOf "ID", bytesOf "Nope"]).Encode (.ptr (.struct demoRecord)) =
      .panics := by
  have hv : PointsToRecord (.ptr (.struct demoRecord)) demoRecord :=
    PointsToRecord.deref (PointsToRecord.here demoRecord)
  have hk : List.Forall₂ (NamesExported demoRecord) [bytesOf "ID", bytesOf "Done"]
      [.int 5, .chan 0] :=
    List.Forall₂.cons ⟨by decide, ⟨bytesOf "ID", true, .int 5⟩, by decide, rfl, rfl⟩
      (List.Forall₂.cons ⟨by decide, ⟨bytesOf "Done", true, .chan 0⟩, by decide, rfl, rfl⟩
        List.Forall₂.nil)
  have hu : ∃ val ∈ [GoValue.int 5, .chan 0], ∀ enc, marshalValue val ≠ .ok enc :=
    ⟨.chan 0, by simp, fun enc h => by simp [marshalValue] at h⟩
  exact ⟨⟨hv, hk, hu⟩,
    (C12_encode_failures none [bytesOf "ID", bytesOf "Done"] (.ptr (.struct demoRecord))).2.1
      demoRecord _ hv hk hu,
    (C12_encode_failures none [bytesOf "ID", bytesOf "Nope"] (.ptr (.struct demoRecord))).2.2
      demoRecord hv ⟨bytesOf "Nope", by simp, by decide⟩⟩

/-- C19 (`Encode` does not depend on `overKeys`).  Two encoders made by
`NewCursorEncoder` with the same keys and any two `overKeys` maps, nil
included, return the same cursor and the same error, or both panic, on every
record: `marshalJSON` reads, for each key in order, the field of that very
name, and `overKeys` is never consulted. -/
theorem C19_encode_ignores_overKeys (m1 m2 : Option (List (Bytes × Bytes)))
    (keys : List Bytes) (v : RValue) :
    (NewCursorEncoder m1 keys).Encode v = (NewCursorEncoder m2 keys).Encode v ∧
    (NewCursorEncoder m1 keys).marshalJSON v =
      (match collectFields (derefValue v) keys with
        | .panics => .panics
        | .ret fields => .ret (jsonMarshal fields)) ∧
    (NewCursorEncoder (some [(bytesOf "ID", bytesOf "Name")]) [bytesOf "ID"]).Encode
        (.struct demoRecord) = .ret (bytesOf "WzVd", none) ∧
    (NewCursorEncoder none [bytesOf "ID"]).Encode (.struct demoRecord) =
      .ret (bytesOf "WzVd", none) :=
  ⟨rfl, rfl, by decide, by decide⟩

/-! ## Format discrimination: a legacy payload is no JSON text -/

theorem stateEndValue_endTop (s : Scanner) (c : Nat) (h : s.endTop = false)
    (h2 : (stateEndValue s c).1.endTop = true) :
    (stateEndValue s c).1.step = .endTop ∨ (stateEndValue s c).1.step = .error := by
  obtain ⟨step, endTop, ps, err⟩ := s
  simp only at h
  subst h
  revert h2
  unfold stateEndValue
  rcases ps with _ | ⟨p, rest⟩
  · simp only [stateEndTop, Scanner.fail]
    split_ifs <;> simp
  · simp only [Scanner.fail, Scanner.pop]
    cases p <;> split_ifs <;> simp

theorem push_endTop (s : Scanner) (p : ParseState) (next : ScanStep) (ok : ScanOp) :
    (s.push p next ok).1.endTop = s.endTop := by
  unfold Scanner.push
  dsimp only
  split_ifs <;> rfl

theorem stateBeginValue_endTop (s : Scanner) (c : Nat) (h : s.endTop = false) :
    (stateBeginValue s c).1.endTop = false := by
  unfold stateBeginValue
  simp only [apply_ite Prod.fst, apply_ite Scanner.endTop, push_endTop, Scanner.fail, h, ite_self]

theorem stateBeginString_endTop (s : Scanner) (c : Nat) (h : s.endTop = false) :
    (stateBeginString s c).1.endTop = false := by
  unfold stateBeginString
  simp only [apply_ite Prod.fst, apply_ite Scanner.endTop, Scanner.fail, h, ite_self]

theorem next_endTop_inv (s : Scanner) (c : Nat)
    (h : s.endTop = true → s.step = .endTop ∨ s.step = .error)
    (h2 : (s.next c).1.endTop = true) :
    (s.next c).1.step = .endTop ∨ (s.next c).1.step = .error := by
  cases he : s.endTop with
  | true =>
    rcases h he with hs | hs
    · revert h2
      simp only [Scanner.next, hs, stateEndTop, Scanner.fail]
      split_ifs <;> simp [hs]
    · simp [Scanner.next, hs]
  | false =>
    obtain ⟨step, endTop, ps, err⟩ := s
    simp only at he
    subst he
    have hv := fun ps2 => stateEndValue_endTop ⟨step, false, ps2, err⟩ c rfl
    have hb := stateBeginValue_endTop ⟨step, false, ps, err⟩ c rfl
    have hs := stateBeginString_endTop ⟨step, false, ps, err⟩ c rfl
    cases step <;> cases ps <;>
      simp only [Scanner.next, state0, stateESign, expectByte, Scanner.fail, stateEndTop]
        at h2 ⊢ <;>
      (try split_ifs at h2 ⊢) <;>
      first
        | exact hv _ h2
        | (rw [hb] at h2; exact absurd h2 (by simp))
        | (rw [hs] at h2; exact absurd h2 (by simp))
        | simp at h2

theorem next_tag_eof (s : Scanner) (c : Nat) (hc : c = 71 ∨ c = 69)
    (h : s.endTop = true → s.step = .endTop ∨ s.step = .error) :
    (s.next c).2 = .scanError ∨ (s.next c).1.eof = false := by
  obtain ⟨step, endTop, ps, err⟩ := s
  rcases hc with rfl | rfl <;> cases step <;> cases endTop <;> cases err <;>
    rcases ps with _ | ⟨p, rest⟩ <;> (try cases p) <;>
    simp [Scanner.next, stateBeginValue, stateBeginString, stateEndValue, stateEndTop, state0,
      stateESign, expectByte, Scanner.fail, Scanner.pop, Scanner.eof, isSpace, isHex, isDigit]
      at h ⊢

theorem checkValidFrom_tag (x : Bytes) (c : Nat) (hc : c = 71 ∨ c = 69) (s : Scanner)
    (h : s.endTop = true → s.step = .endTop ∨ s.step = .error) :
    checkValidFrom (x ++ [c]) s = false := by
  induction x generalizing s with
  | nil =>
    simp only [List.nil_append, checkValidFrom]
    rcases next_tag_eof s c hc h with h1 | h1
    · cases hn : s.next c with
      | mk s2 op =>
        rw [hn] at h1
        simp only at h1
        subst h1
        rfl
    · cases hn : s.next c with
      | mk s2 op =>
        rw [hn] at h1
        cases op <;> first | rfl | exact h1
  | cons y rest ih =>
    simp only [List.cons_append, checkValidFrom]
    have hinv := next_endTop_inv s y h
    cases hn : s.next y with
    | mk s2 op =>
      rw [hn] at hinv
      cases op <;> first | rfl | exact ih s2 hinv

theorem jsonValid_tag (x : Bytes) (c : Nat) (hc : c = 71 ∨ c = 69) :
    jsonValid (x ++ [c]) = false :=
  checkValidFrom_tag x c hc Scanner.reset (fun h => by simp [Scanner.reset] at h)

theorem stringsJoin_last (segs : List Bytes) (hne : segs ≠ [])
    (h : ∀ seg ∈ segs, ∃ x c, seg = x ++ [c] ∧ (c = 71 ∨ c = 69)) :
    ∃ x c, stringsJoin segs = x ++ [c] ∧ (c = 71 ∨ c = 69) := by
  induction segs with
  | nil => exact absurd rfl hne
  | cons seg rest ih =>
    cases rest with
    | nil => simpa [stringsJoin] using h seg (by simp)
    | cons seg2 rest2 =>
      obtain ⟨x, c, hx, hc⟩ := ih (by simp) (fun s hs => h s (by simp [hs]))
      refine ⟨seg ++ 44 :: x, c, ?_, hc⟩
      have e : stringsJoin (seg :: seg2 :: rest2) = seg ++ 44 :: stringsJoin (seg2 :: rest2) := rfl
      rw [e, hx]
      simp

theorem convert_last (fm : Fmt) (field : Iface) :
    ∃ x c, convert fm field = x ++ [c] ∧ (c = 71 ∨ c = 69) := by
  have e1 : fieldString = bytesOf "STRIN" ++ [71] := by decide
  have e2 : fieldTime = bytesOf "TIM" ++ [69] := by decide
  cases field with
  | nil =>
    exact ⟨bytesOf "<nil>" ++ [63] ++ bytesOf "STRIN", 71,
      by simp only [convert, e1, ← List.append_assoc], Or.inl rfl⟩
  | val v =>
    exact ⟨sprintV fm v ++ [63] ++ bytesOf "STRIN", 71,
      by simp only [convert, e1, ← List.append_assoc], Or.inl rfl⟩
  | time t =>
    exact ⟨fm.timeFormat t ++ [63] ++ bytesOf "TIM", 69,
      by simp only [convert, e2, ← List.append_assoc], Or.inr rfl⟩

/-- The payload the legacy encoder writes for any list of values, timestamps
included, is no JSON text: it is empty or ends in `G` or `E`. -/
theorem jsonValid_converts (fm : Fmt) (vals : List Iface) :
    jsonValid (stringsJoin (vals.map (convert fm))) = false := by
  cases vals with
  | nil =>
    show jsonValid [] = false
    decide
  | cons v rest =>
    obtain ⟨x, c, hx, hc⟩ := stringsJoin_last ((v :: rest).map (convert fm)) (by simp)
      (fun seg hseg => by
        obtain ⟨f, _, rfl⟩ := List.mem_map.mp hseg
        exact convert_last fm f)
    rw [hx]
    exact jsonValid_tag x c hc

theorem encodeOldFields_ret (fm : Fmt) (rv : RValue) (keys : List Bytes) (segs : List Bytes)
    (h : encodeOldFields fm rv keys = .ret segs) :
    ∃ vals : List GoValue, vals.length = keys.length ∧
      segs = (vals.map Iface.val).map (convert fm) := by
  induction keys generalizing segs with
  | nil =>
    simp only [encodeOldFields, Outcome.ret.injEq] at h
    subst h
    exact ⟨[], rfl, rfl⟩
  | cons k rest ih =>
    simp only [encodeOldFields] at h
    cases hf : fieldInterface (indirectOnce rv) k with
    | panics => simp [hf] at h
    | ret v =>
      cases hr : encodeOldFields fm rv rest with
      | panics => simp [hf, hr] at h
      | ret fs =>
        simp only [hf, hr, Outcome.ret.injEq] at h
        subst h
        obtain ⟨vals, hlen, hvals⟩ := ih fs hr
        exact ⟨v :: vals, by simp [hlen], by simp [hvals]⟩

theorem stringsJoin_tagged (segs : List Bytes) (hne : segs ≠ [])
    (h : ∀ seg ∈ segs, ∃ x, seg = x ++ fieldString ∨ seg = x ++ fieldTime) :
    ∃ x, stringsJoin segs = x ++ fieldString ∨ stringsJoin segs = x ++ fieldTime := by
  induction segs with
  | nil => exact absurd rfl hne
  | cons seg rest ih =>
    cases rest with
    | nil => simpa [stringsJoin] using h seg (by simp)
    | cons seg2 rest2 =>
      obtain ⟨x, hx⟩ := ih (by simp) (fun s hs => h s (by simp [hs]))
      have e : stringsJoin (seg :: seg2 :: rest2) = seg ++ 44 :: stringsJoin (seg2 :: rest2) := rfl
      refine ⟨seg ++ 44 :: x, ?_⟩
      rw [e]
      rcases hx with hx | hx
      · exact Or.inl (by rw [hx]; simp)
      · exact Or.inr (by rw [hx]; simp)

theorem convert_tagged (fm : Fmt) (field : Iface) :
    ∃ x, convert fm field = x ++ fieldString ∨ convert fm field = x ++ fieldTime := by
  cases field with
  | nil => exact ⟨bytesOf "<nil>" ++ [63], Or.inl rfl⟩
  | val v => exact ⟨sprintV fm v ++ [63], Or.inl rfl⟩
  | time t => exact ⟨fm.timeFormat t ++ [63], Or.inr rfl⟩

/-- C18 (format discrimination never misroutes a legacy cursor).  The payload
the legacy encoder writes for any list of field values, timestamps included, is
empty or ends in the tag `STRING` or `TIME`, and `json.Valid` rejects it.  So
whenever `encodeOld` returns a cursor for a record and a key list, the cursor is
the base64 text of such a payload, one segment per key, and, the payload being a
string of bytes, `Decode` of any decoder decodes the cursor to that payload,
takes the legacy path and returns `decodeOld` of the payload with the nil
error. -/
theorem C18_legacy_never_json (env : Env) (clock : Clock) (fm : Fmt) (d : cursorDecoder)
    (rv : RValue) (keys : List Bytes) (cursor : Bytes)
    (h : encodeOld fm rv keys = .ret cursor) :
    (∀ fields : List Iface,
      (stringsJoin (fields.map (convert fm)) = [] ∨
        ∃ x, stringsJoin (fields.map (convert fm)) = x ++ fieldString ∨
          stringsJoin (fields.map (convert fm)) = x ++ fieldTime) ∧
      jsonValid (stringsJoin (fields.map (convert fm))) = false) ∧
    ∃ vals : List GoValue, vals.length = keys.length ∧
      cursor = b64Encode (stringsJoin ((vals.map Iface.val).map (convert fm))) ∧
      (IsBytes (stringsJoin ((vals.map Iface.val).map (convert fm))) →
        b64Decode cursor = some (stringsJoin ((vals.map Iface.val).map (convert fm))) ∧
        d.Decode env clock cursor =
          .ret (decodeOld env clock (stringsJoin ((vals.map Iface.val).map (convert fm))),
            none)) := by
  constructor
  · intro fields
    refine ⟨?_, jsonValid_converts fm fields⟩
    cases fields with
    | nil => exact Or.inl rfl
    | cons f rest =>
      exact Or.inr (stringsJoin_tagged ((f :: rest).map (convert fm)) (by simp)
        (fun seg hseg => by
          obtain ⟨g, _, rfl⟩ := List.mem_map.mp hseg
          exact convert_tagged fm g))
  · simp only [encodeOld] at h
    cases hf : encodeOldFields fm rv keys with
    | panics => simp [hf] at h
    | ret segs =>
      simp only [hf, Outcome.ret.injEq] at h
      obtain ⟨vals, hlen, hsegs⟩ := encodeOldFields_ret fm rv keys segs hf
      subst hsegs
      refine ⟨vals, hlen, h.symm, ?_⟩
      intro hbytes
      have hb : b64Decode cursor =
          some (stringsJoin ((vals.map Iface.val).map (convert fm))) := by
        rw [← h]
        exact b64_roundtrip_aux _ hbytes
      refine ⟨hb, ?_⟩
      have hj := jsonValid_converts fm (vals.map Iface.val)
      simp only [cursorDecoder.Decode, hb, hj, Bool.not_false, if_true]

/-- C18 at the record `demoRecord` with the keys `ID`, `Name`: the payload is
`5?STRING,foo?STRING`, and `Decode` returns the texts `5` and `foo`. -/
theorem C18_legacy_never_json_witness :
    encodeOld demoFmt (.struct demoRecord) [bytesOf "ID", bytesOf "Name"] =
      .ret (bytesOf "NT9TVFJJTkcsZm9vP1NUUklORw==") ∧
    ((∀ fields : List Iface,
        (stringsJoin (fields.map (convert demoFmt)) = [] ∨
          ∃ x, stringsJoin (fields.map (convert demoFmt)) = x ++ fieldString ∨
            stringsJoin (fields.map (convert demoFmt)) = x ++ fieldTime) ∧
        jsonValid (stringsJoin (fields.map (convert demoFmt))) = false) ∧
      ∃ vals : List GoValue, vals.length = [bytesOf "ID", bytesOf "Name"].length ∧
        bytesOf "NT9TVFJJTkcsZm9vP1NUUklORw==" =
          b64Encode (stringsJoin ((vals.map Iface.val).map (convert demoFmt))) ∧
        (IsBytes (stringsJoin ((vals.map Iface.val).map (convert demoFmt))) →
          b64Decode (bytesOf "NT9TVFJJTkcsZm9vP1NUUklORw==") =
            some (stringsJoin ((vals.map Iface.val).map (convert demoFmt))) ∧
          demoDecoder.Decode demoEnv demoClock (bytesOf "NT9TVFJJTkcsZm9vP1NUUklORw==") =
            .ret (decodeOld demoEnv demoClock
              (stringsJoin ((vals.map Iface.val).map (convert demoFmt))), none))) ∧
    b64Decode (bytesOf "NT9TVFJJTkcsZm9vP1NUUklORw==") = some (bytesOf "5?STRING,foo?STRING") ∧
    jsonValid (bytesOf "5?STRING,foo?STRING") = false ∧
    demoDecoder.Decode demoEnv demoClock (bytesOf "NT9TVFJJTkcsZm9vP1NUUklORw==") =
      .ret (some [.val (.str (bytesOf "5")), .val (.str (bytesOf "foo"))], none) ∧
    encodeOld demoFmt (.struct demoRecord) [] = .ret [] ∧
    demoDecoder.Decode demoEnv demoClock [] = .ret (none, none) :=
  ⟨by decide,
    C18_legacy_never_json demoEnv demoClock demoFmt demoDecoder (.struct demoRecord)
      [bytesOf "ID", bytesOf "Name"] (bytesOf "NT9TVFJJTkcsZm9vP1NUUklORw==") (by decide),
    by decide, by decide, by decide, by decide, by decide⟩

/-! ## The loop of `Decode`: what it returns -/

theorem decodeKeys_error_nil (ref : StructType) (keys : List Bytes) (dec : Decoder)
    (l : Option (List Iface)) (e : GoError) (h : decodeKeys ref keys dec = .ret (l, some e)) :
    l = none := by
  induction keys generalizing dec l e with
  | nil => simp [decodeKeys] at h
  | cons k ks ih =>
    simp only [decodeKeys] at h
    cases hk : decodeKey ref k dec with
    | panics => simp [hk] at h
    | ret r =>
      cases r with
      | error err =>
        simp only [hk, Outcome.ret.injEq, Prod.mk.injEq] at h
        exact h.1.symm
      | ok p =>
        obtain ⟨x, dec2⟩ := p
        simp only [hk] at h
        cases hrest : decodeKeys ref ks dec2 with
        | panics => simp [hrest] at h
        | ret q =>
          obtain ⟨l2, e2⟩ := q
          rw [hrest] at h
          cases e2 with
          | some err2 =>
            have hl2 := ih dec2 l2 err2 hrest
            subst hl2
            simp only [Outcome.ret.injEq, Prod.mk.injEq] at h
            exact h.1.symm
          | none =>
            cases l2 with
            | none =>
              simp only [Outcome.ret.injEq, Prod.mk.injEq] at h
              exact h.1.symm
            | some res => simp at h

/-! ## An element of the wrong kind -/

theorem base_not_ptr (t u : FType) : t.base ≠ .ptr u := by
  induction t with
  | ptr t ih => simpa [FType.base] using ih
  | int => simp [FType.base]
  | string => simp [FType.base]
  | bool => simp [FType.base]
  | chan => simp [FType.base]

theorem objType_base (t : FType) : t.objType.base = t.base := by
  cases t <;> rfl

theorem decodeValue_base_ok (t : FType) (data : Bytes) (v : GoValue)
    (h : decodeValue t data = .ok v) : ∃ v2, decodeValue t.base data = .ok v2 := by
  induction t generalizing v with
  | ptr t ih =>
    simp only [decodeValue] at h
    cases hd : decodeValue t data with
    | ok w => exact ih w hd
    | err e => simp [hd] at h
    | panics => simp [hd] at h
  | int => exact ⟨v, h⟩
  | string => exact ⟨v, h⟩
  | bool => exact ⟨v, h⟩
  | chan => exact ⟨v, h⟩

theorem decodeValue_base_err (t : FType) (data : Bytes) (e : GoError)
    (h : decodeValue t.base data = .err e) : decodeValue t data = .err e := by
  induction t with
  | ptr t ih =>
    simp only [FType.base] at h
    simp [decodeValue, ih h]
  | int => exact h
  | string => exact h
  | bool => exact h
  | chan => exact h

theorem decodeValue_other (t t2 : FType) (data : Bytes) (v : GoValue)
    (ht : ∀ u, t ≠ .ptr u) (ht2 : ∀ u, t2 ≠ .ptr u) (hne : t2 ≠ t)
    (h : decodeValue t data = .ok v) : decodeValue t2 data = .err .unmarshalTypeError := by
  cases data with
  | nil =>
    cases t with
    | ptr u => exact absurd rfl (ht u)
    | int => simp [decodeValue] at h
    | string => simp [decodeValue] at h
    | bool => simp [decodeValue] at h
    | chan => simp [decodeValue] at h
  | cons c rest =>
    cases t with
    | ptr u => exact absurd rfl (ht u)
    | int =>
      cases t2 with
      | ptr u => exact absurd rfl (ht2 u)
      | int => exact absurd rfl hne
      | string =>
        simp only [decodeValue, reduceCtorEq, ↓reduceIte] at h ⊢
        split_ifs at h ⊢ <;> first | rfl | simp at h | (split at h <;> first | rfl | simp at h)
      | bool =>
        simp only [decodeValue, reduceCtorEq, ↓reduceIte] at h ⊢
        split_ifs at h ⊢ <;> first | rfl | simp at h | (split at h <;> first | rfl | simp at h)
      | chan =>
        simp only [decodeValue, reduceCtorEq, ↓reduceIte] at h ⊢
        split_ifs at h ⊢ <;> first | rfl | simp at h | (split at h <;> first | rfl | simp at h)
    | string =>
      cases t2 with
      | ptr u => exact absurd rfl (ht2 u)
      | string => exact absurd rfl hne
      | int =>
        simp only [decodeValue, reduceCtorEq, ↓reduceIte] at h ⊢
        split_ifs at h ⊢
        first | rfl | simp at h | (split at h <;> first | rfl | simp at h)
      | bool =>
        simp only [decodeValue, reduceCtorEq, ↓reduceIte] at h ⊢
        split_ifs at h ⊢
        first | rfl | simp at h | (split at h <;> first | rfl | simp at h)
      | chan =>
        simp only [decodeValue, reduceCtorEq, ↓reduceIte] at h ⊢
        split_ifs at h ⊢
        first | rfl | simp at h | (split at h <;> first | rfl | simp at h)
    | bool =>
      cases t2 with
      | ptr u => exact absurd rfl (ht2 u)
      | bool => exact absurd rfl hne
      | int =>
        simp only [decodeValue, reduceCtorEq, ↓reduceIte] at h ⊢
        split_ifs at h ⊢ <;> first | rfl | simp at h | (split at h <;> first | rfl | simp at h)
      | string =>
        simp only [decodeValue, reduceCtorEq, ↓reduceIte] at h ⊢
        split_ifs at h ⊢ <;> first | rfl | simp at h | (split at h <;> first | rfl | simp at h)
      | chan =>
        simp only [decodeValue, reduceCtorEq, ↓reduceIte] at h ⊢
        split_ifs at h ⊢ <;> first | rfl | simp at h | (split at h <;> first | rfl | simp at h)
    | chan =>
      simp only [decodeValue, reduceCtorEq, ↓reduceIte] at h
      split_ifs at h
      first | simp at h | (split at h <;> simp at h)

theorem decodeValue_mismatch (t : FType) (w : GoValue) (e : Bytes)
    (hr : w.representable = true) (hm : marshalValue w = .ok e)
    (hne : t.base ≠ w.type.base) : decodeValue t e = .err .unmarshalTypeError := by
  obtain ⟨v2, hv2⟩ := decodeValue_base_ok w.type e w (decodeValue_value w e hr hm)
  exact decodeValue_base_err t e _
    (decodeValue_other w.type.base t.base e v2 (base_not_ptr _) (base_not_ptr _) hne hv2)

theorem unmarshalHolder_mismatch (t : FType) (w : GoValue) (e : Bytes)
    (hr : w.representable = true) (hm : marshalValue w = .ok e)
    (hne : t.base ≠ w.type.base) :
    unmarshalHolder t.objType e = .err .unmarshalTypeError := by
  obtain ⟨c, rest, heq, hsp, h110, h91, h123, hlit⟩ := value_head w e hr hm
  have hd := decodeValue_mismatch t.objType w e hr hm (by rw [objType_base]; exact hne)
  rw [heq] at hd ⊢
  simp [unmarshalHolder, skipSpace, hsp, h110, hlit, hd]

/-! ## The loop of `Decode` on the array of encoded values -/

theorem decode_reads_value {α : Type} (val : GoValue) (e : Bytes)
    (hr : val.representable = true) (hm : marshalValue val = .ok e)
    (c : Nat) (hc : c = 44 ∨ c = 93) (rest : Bytes) (stack : List TokenState) (dec : Decoder)
    (hdec : dec = ⟨e ++ c :: rest, .tokenArrayStart, stack, none⟩ ∨
      dec = ⟨44 :: (e ++ c :: rest), .tokenArrayComma, stack, none⟩)
    (f : Bytes → Res α) :
    dec.Decode f = (⟨c :: rest, .tokenArrayComma, stack, none⟩, f e) := by
  have hread := readValue_value val e hr hm c hc rest
  rcases hdec with rfl | rfl
  · simp [Decoder.Decode, tokenPrepareForDecode, tokenValueAllowed, hread, tokenValueEnd]
  · simp [Decoder.Decode, tokenPrepareForDecode, skipSpace, isSpace, tokenValueAllowed, hread,
      tokenValueEnd]

theorem decodeKey_mismatch (ref : StructType) (key : Bytes) (f : StructField) (w : GoValue)
    (e : Bytes) (hf : ref.FieldByName key = some f)
    (hr : w.representable = true) (hm : marshalValue w = .ok e)
    (hne : f.type.base ≠ w.type.base)
    (c : Nat) (hc : c = 44 ∨ c = 93) (rest : Bytes) (stack : List TokenState) (dec : Decoder)
    (hdec : dec = ⟨e ++ c :: rest, .tokenArrayStart, stack, none⟩ ∨
      dec = ⟨44 :: (e ++ c :: rest), .tokenArrayComma, stack, none⟩) :
    decodeKey ref key dec = .ret (.error .unmarshalTypeError) := by
  unfold decodeKey
  rw [hf]
  simp only [decode_reads_value w e hr hm c hc rest stack dec hdec,
    unmarshalHolder_mismatch f.type w e hr hm hne]

theorem decodeKey_closed (ref : StructType) (key : Bytes) (rest : Bytes)
    (stack : List TokenState) (dec : Decoder)
    (hdec : dec = ⟨93 :: rest, .tokenArrayStart, stack, none⟩ ∨
      dec = ⟨93 :: rest, .tokenArrayComma, stack, none⟩) :
    decodeKey ref key dec =
      .ret (.error (match ref.FieldByName key with
        | none => fieldNotFound key
        | some _ => .syntaxError)) := by
  unfold decodeKey
  cases hf : ref.FieldByName key with
  | none => rfl
  | some field =>
    rcases hdec with rfl | rfl
    · have hread : readValue (93 :: rest) = .error .syntaxError := by
        simp [readValue, readValueAux, Scanner.reset, Scanner.next, stateBeginValue, isSpace,
          Scanner.fail]
      simp [Decoder.Decode, tokenPrepareForDecode, tokenValueAllowed, hread]
    · simp [Decoder.Decode, tokenPrepareForDecode, skipSpace, isSpace]

theorem tailElems_append (a b : List Bytes) : tailElems (a ++ b) = tailElems a ++ tailElems b := by
  simp [tailElems]

theorem decodeKeys_prefix (fields : List FieldValue) (keys : List Bytes) (vals : List GoValue)
    (encs : List Bytes)
    (hk : List.Forall₂ (NamesExported fields) keys vals)
    (hr : ∀ val ∈ vals, val.representable = true)
    (he : List.Forall₂ (fun val enc => marshalValue val = .ok enc) vals encs)
    (more : List Bytes) (c : Nat) (hc : c = 44 ∨ c = 93) (rest : Bytes)
    (stack : List TokenState) :
    decodeKeys (structTypeOf fields) (keys ++ more)
        ⟨tailElems encs ++ c :: rest, .tokenArrayComma, stack, none⟩ =
      match decodeKeys (structTypeOf fields) more ⟨c :: rest, .tokenArrayComma, stack, none⟩ with
      | .ret (some result, none) => .ret (some (vals.map Iface.val ++ result), none)
      | other => other := by
  induction hk generalizing encs with
  | nil =>
    cases he
    simp only [List.nil_append, tailElems, List.map_nil, List.flatten_nil]
    cases decodeKeys (structTypeOf fields) more ⟨c :: rest, .tokenArrayComma, stack, none⟩ with
    | panics => rfl
    | ret p =>
      obtain ⟨l, e⟩ := p
      cases l <;> cases e <;> rfl
  | @cons key val keys vals hkey _ ih =>
    cases he with
    | @cons _ e _ es hv hrest =>
      obtain ⟨c2, rest2, hcr, hc2⟩ : ∃ c2 rest2, tailElems es ++ c :: rest = c2 :: rest2 ∧
          (c2 = 44 ∨ c2 = 93) := by
        cases es with
        | nil => exact ⟨c, rest, by simp [tailElems], hc⟩
        | cons e2 es2 => exact ⟨44, _, by simp [tailElems]; rfl, Or.inl rfl⟩
      have hbuf : tailElems (e :: es) ++ c :: rest = 44 :: (e ++ c2 :: rest2) := by
        rw [← hcr]
        simp [tailElems]
      have hstep := decodeKey_value fields key val e hkey (hr val (by simp)) hv c2 hc2 rest2
        stack ⟨44 :: (e ++ c2 :: rest2), .tokenArrayComma, stack, none⟩ (Or.inr rfl)
      have hih := ih es (fun w hw => hr w (by simp [hw])) hrest
      rw [hcr] at hih
      rw [hbuf]
      simp only [List.cons_append, decodeKeys, hstep, List.append_eq, hih, List.map_cons]
      cases decodeKeys (structTypeOf fields) more ⟨c :: rest, .tokenArrayComma, stack, none⟩ with
      | panics => rfl
      | ret p =>
        obtain ⟨l, e3⟩ := p
        cases l <;> cases e3 <;> rfl

/-! ## Claims on the current format: what `Decode` returns -/

/-- C16, at its failing input: on the cursor `eyJhIjoxfQ==`, whose payload
`{"a":1}` is valid JSON and an object, a decoder with no keys returns the empty
list and no error.  `Decode` reads the first token of the payload, whatever it
is, and looks at it no further: the payload `5` is accepted the same way, and so
is the array `[5,"foo"]`, of which no element is read. -/
theorem C16_first_token_unchecked :
    b64Decode (bytesOf "eyJhIjoxfQ==") = some (bytesOf "\x7b\"a\":1\x7d") ∧
    jsonValid (bytesOf "\x7b\"a\":1\x7d") = true ∧
    (bytesOf "\x7b\"a\":1\x7d").head? = some 123 ∧
    cursorDecoder.Decode demoEnv demoClock { ref := demoStruct, keys := [] }
      (bytesOf "eyJhIjoxfQ==") = .ret (some [], none) ∧
    cursorDecoder.Decode demoEnv demoClock { ref := demoStruct, keys := [] }
      (bytesOf "NQ==") = .ret (some [], none) ∧
    cursorDecoder.Decode demoEnv demoClock { ref := demoStruct, keys := [] }
      (bytesOf "WzUsImZvbyJd") = .ret (some [], none) :=
  ⟨by decide, by decide, by decide, by decide, by decide, by decide⟩

/-! ## `Decode` on the array of encoded values, with more keys or other keys -/

theorem token_array (env : Env) (body : Bytes) :
    (NewDecoder (91 :: body)).Token env =
      (⟨body, .tokenArrayStart, [.tokenTopValue], none⟩, .ok ()) := by
  simp [Decoder.Token, NewDecoder, tokenAux, isSpace, tokenValueAllowed]

theorem forall₂_marshal_append (vals more : List GoValue) (encs moreEncs : List Bytes)
    (he : List.Forall₂ (fun val enc => marshalValue val = .ok enc) vals encs)
    (he2 : List.Forall₂ (fun val enc => marshalValue val = .ok enc) more moreEncs) :
    List.Forall₂ (fun val enc => marshalValue val = .ok enc) (vals ++ more)
      (encs ++ moreEncs) := by
  induction he with
  | nil => exact he2
  | cons h _ ih => exact List.Forall₂.cons h ih

/-- `Decode` on the cursor of the array of the encodings `encs ++ moreEncs`, once
the payload is decoded and its opening bracket read: the loop alone remains. -/
theorem decode_array_loop (env : Env) (clock : Clock) (ref : StructType) (keys : List Bytes)
    (vals : List GoValue) (encs : List Bytes)
    (hr : ∀ val ∈ vals, val.representable = true)
    (he : List.Forall₂ (fun val enc => marshalValue val = .ok enc) vals encs) :
    cursorDecoder.Decode env clock { ref := ref, keys := keys }
        (b64Encode (91 :: (List.intercalate [44] encs ++ [93]))) =
      decodeKeys ref keys
        ⟨List.intercalate [44] encs ++ [93], .tokenArrayStart, [.tokenTopValue], none⟩ := by
  have hb : b64Decode (b64Encode (91 :: (List.intercalate [44] encs ++ [93]))) =
      some (91 :: (List.intercalate [44] encs ++ [93])) :=
    b64_roundtrip_aux _ (payload_isBytes vals encs hr he)
  have hj := jsonValid_array vals encs hr he
  simp only [cursorDecoder.Decode, hb, hj, Bool.not_true, Bool.false_eq_true, if_false,
    token_array]

theorem match_nil_append (x : Outcome (Option (List Iface) × Option GoError)) :
    (match x with
      | .ret (some result, none) => .ret (some (([] : List Iface) ++ result), none)
      | other => other) = x := by
  cases x with
  | panics => rfl
  | ret p =>
    obtain ⟨l, e⟩ := p
    cases l <;> cases e <;> rfl

/-- The loop of `Decode` over the keys `pre ++ more`, from the opening bracket of
the array of the encodings `encs ++ moreEncs`: the values of `pre` are read, and
the loop goes on over `more` at what follows them. -/
theorem decodeKeys_split (fields : List FieldValue) (pre : List Bytes) (vals : List GoValue)
    (encs moreEncs : List Bytes)
    (hk : List.Forall₂ (NamesExported fields) pre vals)
    (hr : ∀ val ∈ vals, val.representable = true)
    (he : List.Forall₂ (fun val enc => marshalValue val = .ok enc) vals encs)
    (more : List Bytes) :
    decodeKeys (structTypeOf fields) (pre ++ more)
        ⟨List.intercalate [44] (encs ++ moreEncs) ++ [93], .tokenArrayStart, [.tokenTopValue],
          none⟩ =
      match decodeKeys (structTypeOf fields) more
        (if pre = [] then
          ⟨List.intercalate [44] moreEncs ++ [93], .tokenArrayStart, [.tokenTopValue], none⟩
        else ⟨tailElems moreEncs ++ [93], .tokenArrayComma, [.tokenTopValue], none⟩) with
      | .ret (some result, none) => .ret (some (vals.map Iface.val ++ result), none)
      | other => other := by
  cases hk with
  | nil =>
    cases he
    simp only [List.nil_append, if_true, List.map_nil]
    exact (match_nil_append _).symm
  | @cons key val keys vals hkey hkeys =>
    cases he with
    | @cons _ e _ es hv hrest =>
      obtain ⟨c, rest, hcr, hc⟩ := tail_head moreEncs []
      obtain ⟨c2, rest2, hcr2, hc2⟩ : ∃ c2 rest2, tailElems es ++ c :: rest = c2 :: rest2 ∧
          (c2 = 44 ∨ c2 = 93) := by
        cases es with
        | nil => exact ⟨c, rest, by simp [tailElems], hc⟩
        | cons e2 es2 => exact ⟨44, _, by simp [tailElems]; rfl, Or.inl rfl⟩
      have hbuf : List.intercalate [44] (e :: es ++ moreEncs) ++ [93] = e ++ c2 :: rest2 := by
        rw [List.cons_append, intercalate_cons, tailElems_append, List.append_assoc,
          List.append_assoc, hcr, hcr2]
      have hstep := decodeKey_value fields key val e hkey (hr val (by simp)) hv c2 hc2 rest2
        [.tokenTopValue] ⟨e ++ c2 :: rest2, .tokenArrayStart, [.tokenTopValue], none⟩
        (Or.inl rfl)
      have hpre := decodeKeys_prefix fields keys vals es hkeys
        (fun w hw => hr w (by simp [hw])) hrest more c hc rest [.tokenTopValue]
      rw [hcr2] at hpre
      rw [hbuf]
      simp only [List.cons_append, decodeKeys, hstep, List.append_eq, hpre, reduceCtorEq,
        if_false, hcr, List.map_cons]
      cases decodeKeys (structTypeOf fields) more
          ⟨c :: rest, .tokenArrayComma, [.tokenTopValue], none⟩ with
      | panics => rfl
      | ret p =>
        obtain ⟨l, e3⟩ := p
        cases l <;> cases e3 <;> rfl

/-- More keys than elements: the loop meets the closing bracket. -/
theorem decodeKeys_closed (ref : StructType) (key : Bytes) (post : List Bytes)
    (dec : Decoder)
    (hdec : dec = ⟨[93], .tokenArrayStart, [.tokenTopValue], none⟩ ∨
      dec = ⟨[93], .tokenArrayComma, [.tokenTopValue], none⟩) :
    decodeKeys ref (key :: post) dec =
      .ret (none, some (match ref.FieldByName key with
        | none => fieldNotFound key
        | some _ => .syntaxError)) := by
  simp only [decodeKeys, decodeKey_closed ref key [] [.tokenTopValue] dec hdec]

/-- An element of another kind than the field of the key: the loop returns the
error of the unmarshaller. -/
theorem decodeKeys_mismatch (ref : StructType) (key : Bytes) (post : List Bytes)
    (f : StructField) (w : GoValue) (enc : Bytes) (moreEncs : List Bytes)
    (hf : ref.FieldByName key = some f)
    (hr : w.representable = true) (hm : marshalValue w = .ok enc)
    (hne : f.type.base ≠ w.type.base) (dec : Decoder)
    (hdec : dec = ⟨List.intercalate [44] (enc :: moreEncs) ++ [93], .tokenArrayStart,
        [.tokenTopValue], none⟩ ∨
      dec = ⟨tailElems (enc :: moreEncs) ++ [93], .tokenArrayComma, [.tokenTopValue], none⟩) :
    decodeKeys ref (key :: post) dec = .ret (none, some .unmarshalTypeError) := by
  obtain ⟨c, rest, hcr, hc⟩ := tail_head moreEncs []
  have h1 : List.intercalate [44] (enc :: moreEncs) ++ [93] = enc ++ c :: rest := by
    rw [intercalate_cons, List.append_assoc, hcr]
  have h2 : tailElems (enc :: moreEncs) ++ [93] = 44 :: (enc ++ c :: rest) := by
    rw [← hcr]
    simp [tailElems]
  rw [h1, h2] at hdec
  simp only [decodeKeys,
    decodeKey_mismatch ref key f w enc hf hr hm hne c hc rest [.tokenTopValue] dec hdec]

/-! ## Claims on the current format: failures of `Decode` -/

/-- C11 (no partial results on decode failure).  Whenever `Decode` returns an
error, the list it returns is nil.  In particular, on the cursor of the array of
the encoded values of the keys `pre`, which `Decode` with the keys `pre` turns
back into these values: with one more key, and any keys after it, `Decode`
returns the nil list and an error (the syntax error of the closing bracket, or
the error of the unknown field if the key names none); and when the array goes
on with the encoding of a value of another kind than the field of the next key,
`Decode` returns the nil list and the type error of the unmarshaller. -/
theorem C11_no_partial_results (env : Env) (clock : Clock) :
    (∀ (d : cursorDecoder) (cursor : Bytes) (l : Option (List Iface)) (e : GoError),
        d.Decode env clock cursor = .ret (l, some e) → l = none) ∧
    (∀ (fields : List FieldValue) (pre : List Bytes) (vals : List GoValue)
        (encs : List Bytes) (key : Bytes) (post : List Bytes),
        List.Forall₂ (NamesExported fields) pre vals →
        (∀ val ∈ vals, val.representable = true) →
        List.Forall₂ (fun val enc => marshalValue val = .ok enc) vals encs →
        cursorDecoder.Decode env clock { ref := structTypeOf fields, keys := pre }
            (b64Encode (91 :: (List.intercalate [44] encs ++ [93]))) =
          .ret (some (vals.map Iface.val), none) ∧
        cursorDecoder.Decode env clock
            { ref := structTypeOf fields, keys := pre ++ key :: post }
            (b64Encode (91 :: (List.intercalate [44] encs ++ [93]))) =
          .ret (none, some (match (structTypeOf fields).FieldByName key with
            | none => fieldNotFound key
            | some _ => .syntaxError))) ∧
    (∀ (fields : List FieldValue) (pre : List Bytes) (vals : List GoValue)
        (encs : List Bytes) (key : Bytes) (f : StructField) (w : GoValue) (enc : Bytes)
        (moreVals : List GoValue) (moreEncs : List Bytes) (post : List Bytes),
        List.Forall₂ (NamesExported fields) pre vals →
        (∀ val ∈ vals ++ w :: moreVals, val.representable = true) →
        List.Forall₂ (fun val enc => marshalValue val = .ok enc) vals encs →
        marshalValue w = .ok enc →
        List.Forall₂ (fun val enc => marshalValue val = .ok enc) moreVals moreEncs →
        (structTypeOf fields).FieldByName key = some f → f.type.base ≠ w.type.base →
        cursorDecoder.Decode env clock { ref := structTypeOf fields, keys := pre }
            (b64Encode (91 :: (List.intercalate [44] (encs ++ enc :: moreEncs) ++ [93]))) =
          .ret (some (vals.map Iface.val), none) ∧
        cursorDecoder.Decode env clock
            { ref := structTypeOf fields, keys := pre ++ key :: post }
            (b64Encode (91 :: (List.intercalate [44] (encs ++ enc :: moreEncs) ++ [93]))) =
          .ret (none, some .unmarshalTypeError)) := by
  refine ⟨?_, ?_, ?_⟩
  · intro d cursor l e h
    simp only [cursorDecoder.Decode] at h
    cases hb : b64Decode cursor with
    | none => simp [hb] at h
    | some b =>
      simp only [hb] at h
      by_cases hj : jsonValid b = true
      · simp only [hj, Bool.not_true, Bool.false_eq_true, if_false] at h
        cases ht : (NewDecoder b).Token env with
        | mk dec r =>
          rw [ht] at h
          cases r with
          | err err =>
            simp only [Outcome.ret.injEq, Prod.mk.injEq] at h
            exact h.1.symm
          | panics => simp at h
          | ok u => exact decodeKeys_error_nil d.ref d.keys dec l e h
      · simp [hj] at h
  · intro fields pre vals encs key post hk hr he
    have h0 := decodeKeys_split fields pre vals encs [] hk hr he
    simp only [List.append_nil] at h0
    constructor
    · rw [decode_array_loop env clock _ _ vals encs hr he]
      have := h0 []
      simp only [List.append_nil, decodeKeys] at this
      exact this
    · rw [decode_array_loop env clock _ _ vals encs hr he, h0 (key :: post)]
      have hc : decodeKeys (structTypeOf fields) (key :: post)
          (if pre = [] then
            ⟨List.intercalate [44] [] ++ [93], .tokenArrayStart, [.tokenTopValue], none⟩
          else ⟨tailElems [] ++ [93], .tokenArrayComma, [.tokenTopValue], none⟩) = _ :=
        decodeKeys_closed (structTypeOf fields) key post _ (by
          by_cases hp : pre = []
          · exact Or.inl (by rw [if_pos hp]; rfl)
          · exact Or.inr (by rw [if_neg hp]; rfl))
      rw [hc]
  · intro fields pre vals encs key f w enc moreVals moreEncs post hk hr he hm he2 hf hne
    have hrv : ∀ val ∈ vals, val.representable = true := fun v hv => hr v (by simp [hv])
    have hall := forall₂_marshal_append vals (w :: moreVals) encs (enc :: moreEncs) he
      (List.Forall₂.cons hm he2)
    have h0 := decodeKeys_split fields pre vals encs (enc :: moreEncs) hk hrv he
    constructor
    · rw [decode_array_loop env clock _ _ (vals ++ w :: moreVals) (encs ++ enc :: moreEncs)
        hr hall]
      have := h0 []
      simp only [List.append_nil, decodeKeys] at this
      exact this
    · rw [decode_array_loop env clock _ _ (vals ++ w :: moreVals) (encs ++ enc :: moreEncs)
        hr hall, h0 (key :: post)]
      have hc : decodeKeys (structTypeOf fields) (key :: post)
          (if pre = [] then
            ⟨List.intercalate [44] (enc :: moreEncs) ++ [93], .tokenArrayStart,
              [.tokenTopValue], none⟩
          else ⟨tailElems (enc :: moreEncs) ++ [93], .tokenArrayComma, [.tokenTopValue],
            none⟩) = _ :=
        decodeKeys_mismatch (structTypeOf fields) key post f w enc moreEncs hf
          (hr w (by simp)) hm hne _ (by
            by_cases hp : pre = []
            · exact Or.inl (by simp only [hp, if_true])
            · exact Or.inr (by simp only [hp, if_false]))
      rw [hc]

/-- C11 at the decoder for `demoStruct`: every error comes with the nil list; the
cursor `WzVd` of `[5]` decodes with the key `ID` and fails with the keys `ID`,
`Name`; the cursor `WzUsNl0=` of `[5,6]` decodes with the key `ID` and fails
with the keys `ID`, `Name`, the element `6` being no string. -/
theorem C11_no_partial_results_witness :
    (cursorDecoder.Decode demoEnv demoClock demoDecoder (bytesOf "WzVd") =
        .ret (none, some .syntaxError) →
      (none : Option (List Iface)) = none) ∧
    cursorDecoder.Decode demoEnv demoClock demoDecoder (bytesOf "WzVd") =
      .ret (none, some .syntaxError) ∧
    cursorDecoder.Decode demoEnv demoClock { ref := demoStruct, keys := [bytesOf "ID"] }
        (bytesOf "WzVd") = .ret (some [.val (.int 5)], none) ∧
    cursorDecoder.Decode demoEnv demoClock demoDecoder (bytesOf "WzUsNl0=") =
      .ret (none, some .unmarshalTypeError) ∧
    cursorDecoder.Decode demoEnv demoClock { ref := demoStruct, keys := [bytesOf "ID"] }
        (bytesOf "WzUsNl0=") = .ret (some [.val (.int 5)], none) :=
  ⟨(C11_no_partial_results demoEnv demoClock).1 demoDecoder (bytesOf "WzVd") none
      .syntaxError,
    by decide, by decide, by decide, by decide⟩

end Paginator
